import Mathlib

/-!
# HomeWorkTrains: the train query pipeline of `main.go`

A shallow embedding of `main.go` (package `main`): the record type `Train`, the
decoder `Train.UnmarshalJSON`, the validator `parameterValidity`, the selector
`Trains.selection`, the sorter `Trains.sorting` and the orchestrator
`FindTrains`, together with the parts of the Go standard library they call
(`float32` comparison, `time.Time.Before`,
`time.Parse` for the layout `"15:04:05"`, `strconv.Atoi`, `sort.SliceStable`).
The library's `Time.Format` for the same layout, which the program does not
call, is embedded as well, to state the round trip of a parsed time of day.

Conventions.
* A Go `int` is an `Int`; a Go `string` is a `String`, read character by
  character where Go reads it byte by byte (every byte of a multi-byte
  character is a non-digit, non-sign byte, so both readings reject it alike).
* A Go slice is a `List`; the `nil` slice is `[]`.
* A Go `error` result is an `Option`: `none` is `nil`.
* A call that can panic has an `Outcome`: it returns its results or it panics.
* A method that sorts its receiver in place returns the sorted list.
-/

namespace HomeWorkTrains

/-! ## Values of the Go runtime and library -/

/-- A Go `float32`: an IEEE-754 binary32 value, given by its sign bit, its
biased exponent field (8 bits) and its fraction field (23 bits). -/
structure Float32 where
  sign : Bool
  exponent : Fin 256
  mantissa : Fin 8388608
  deriving DecidableEq

namespace Float32

/-- Not-a-number: exponent field all ones and a non-zero fraction. -/
def isNaN (f : Float32) : Bool :=
  f.exponent.val == 255 && f.mantissa.val != 0

/-- Neither an infinity nor a NaN. -/
def isFinite (f : Float32) : Bool :=
  decide (f.exponent.val < 255)

/-- The absolute value of a non-NaN `float32`, scaled by `2 ^ 149` so that it
is a natural number: a subnormal is `mantissa * 2 ^ (-149)`, a normal number is
`(2 ^ 23 + mantissa) * 2 ^ (exponent - 150)`. The same formula at exponent 255
places an infinity above every finite value. -/
def magnitude (f : Float32) : Nat :=
  if f.exponent.val = 0 then f.mantissa.val
  else (8388608 + f.mantissa.val) * 2 ^ (f.exponent.val - 1)

/-- The value of a non-NaN `float32` scaled by `2 ^ 149`; both zeros give 0. -/
def scaled (f : Float32) : Int :=
  if f.sign then -(f.magnitude : Int) else (f.magnitude : Int)

/-- Go's `a < b` on `float32`: false whenever an operand is NaN, otherwise the
comparison of the two values. -/
def lt (a b : Float32) : Bool :=
  !a.isNaN && !b.isNaN && decide (a.scaled < b.scaled)

/-- Go's `a <= b` on `float32`: false whenever an operand is NaN. -/
def le (a b : Float32) : Bool :=
  !a.isNaN && !b.isNaN && decide (a.scaled ≤ b.scaled)

end Float32

/-- A Go `time.Time`: the wall-clock instant as seconds since January 1 of
year 1, 00:00:00 UTC, with the nanoseconds within the second, and the reading
of the monotonic clock when the value carries one (only `time.Now` produces
such values). The location pointer is left out: no operation of the program
reads it. -/
structure Time where
  sec : Int
  nsec : Nat
  mono : Option Int
  deriving DecidableEq

/-- Go's `t.Before(u)`: when both values carry a monotonic reading the readings
are compared, otherwise the wall-clock instants are. -/
def Time.Before (t u : Time) : Bool :=
  match t.mono, u.mono with
  | some a, some b => decide (a < b)
  | _, _ => decide (t.sec < u.sec) || (decide (t.sec = u.sec) && decide (t.nsec < u.nsec))

/-- Go's constant `wallToInternal`: the seconds from January 1 of year 1 to
January 1 of 1885, the year from which a value with a monotonic reading counts
its wall seconds. -/
def wallToInternal : Int := 59453308800

/-- The value is one that Go's representation of `time.Time` holds: the
nanoseconds are below one second; a value without monotonic reading keeps its
seconds in an `int64`; a value with one keeps its wall seconds since 1885 in 33
bits and the reading in an `int64`. -/
def Time.representable (t : Time) : Bool :=
  decide (t.nsec < 1000000000) &&
    match t.mono with
    | none => decide (-2 ^ 63 ≤ t.sec ∧ t.sec < 2 ^ 63)
    | some m =>
      decide (wallToInternal ≤ t.sec ∧ t.sec < wallToInternal + 2 ^ 33 ∧ -2 ^ 63 ≤ m ∧ m < 2 ^ 63)

/-! ## `sort.SliceStable`

The library's `stable_func`, written over the list the slice holds. A procedure
of the library that works on the segment `data[a:b]` is a function of that
segment; an index `m` of the library is counted from `a` (the midpoints
`(i+j)>>1` of the library are the same either way). Loops run on a fuel that
their callers set high enough (see `stable_func_fuel`). -/

/-- One pass of the inner loop of `insertionSort_func`,
`for j := i; j > a && less(data[j], data[j-1]); j-- { swap(j, j-1) }`:
the element `x` standing right after the already sorted part moves left while
it is less than its left neighbour. The sorted part is held nearest neighbour
first (that is, reversed), and so is the result. -/
def insertLeft {α : Type} (less : α → α → Bool) (x : α) : List α → List α
  | [] => [x]
  | y :: ys => if less x y then y :: insertLeft less x ys else x :: y :: ys

/-- Go's `insertionSort_func(data, a, b)` on the segment `data[a:b]`:
`for i := a + 1; i < b; i++ { ... }` inserts the elements one after the other
into the sorted part to their left. -/
def insertionSort_func {α : Type} (less : α → α → Bool) (data : List α) : List α :=
  (data.foldl (fun sorted e => insertLeft less e sorted) []).reverse

/-- The binary search loop of `symMerge_func`,
`for i < j { h := (i+j)>>1; if cond(h) { i = h + 1 } else { j = h } }`,
returning `i`. -/
def searchLoop (cond : Nat → Bool) : Nat → Nat → Nat → Nat
  | 0, i, _ => i
  | fuel + 1, i, j =>
    if i < j then
      if cond ((i + j) / 2) then searchLoop cond fuel ((i + j) / 2 + 1) j
      else searchLoop cond fuel i ((i + j) / 2)
    else i

/-- The call `data.Less(i, j)` of the library: `less` on the elements at the
two indices. -/
def lessAt {α : Type} (less : α → α → Bool) (data : List α) (i j : Nat) : Bool :=
  match data[i]?, data[j]? with
  | some x, some y => less x y
  | _, _ => false

/-- Go's `rotate_func(data, a, m, b)`: the adjacent blocks `data[a:m]` and
`data[m:b]` change places. The library does it by swapping ranges of equal
length and compares nothing; this is the list it leaves. -/
def rotate_func {α : Type} (data : List α) (a m b : Nat) : List α :=
  data.take a ++ ((data.drop m).take (b - m) ++ ((data.drop a).take (m - a) ++ data.drop b))

/-- The search of the general case of `symMerge_func`, on the segment
`data[a:b]` with indices taken from `a`: from `mid := (a+b)>>1` and
`n := mid + m` the loop
`for start < r { c := (start+r)>>1; if !less(p-c, c) { start = c+1 } else { r = c } }`
with `p := n - 1` returns `start`. -/
def symMergeStart {α : Type} (less : α → α → Bool) (data : List α) (m : Nat) : Nat :=
  let b := data.length
  let mid := b / 2
  let n := mid + m
  let start := if m > mid then n - b else 0
  let r := if m > mid then mid else m
  let p := n - 1
  searchLoop (fun c => !lessAt less data (p - c) c) (r - start) start r

/-- Go's `symMerge_func(data, a, m, b)` on the segment `data[a:b]`, with `m`
counted from `a`: it merges the runs `data[a:m]` and `data[m:b]`. A run of one
element is inserted by binary search; otherwise the segment is split around
its middle, the inner blocks are exchanged (`rotate_func`) and the two halves
are merged recursively. `fuel` bounds the depth of the recursion; the length of
the segment is enough. -/
def symMerge_func {α : Type} (less : α → α → Bool) : Nat → List α → Nat → List α
  | 0, data, _ => data
  | fuel + 1, data, m =>
    let b := data.length
    if m = 1 then
      let i := searchLoop (fun h => lessAt less data h 0) (b - m) m b
      (data.drop 1).take (i - 1) ++ (data.take 1 ++ data.drop i)
    else if b - m = 1 then
      let i := searchLoop (fun h => !lessAt less data m h) m 0 m
      data.take i ++ ((data.drop m).take 1 ++ ((data.drop i).take (m - i) ++ data.drop (m + 1)))
    else
      let mid := b / 2
      let start := symMergeStart less data m
      let end_ := mid + m - start
      let data := if start < m ∧ m < end_ then rotate_func data start m end_ else data
      let left := if 0 < start ∧ start < mid then symMerge_func less fuel (data.take mid) start
        else data.take mid
      let right := if mid < end_ ∧ end_ < b then
          symMerge_func less fuel (data.drop mid) (end_ - mid)
        else data.drop mid
      left ++ right

/-- The first loop of `stable_func`, from index `a` on:
`for b <= n { insertionSort_func(data, a, b); a = b; b += blockSize }` and then
`insertionSort_func(data, a, n)`. -/
def insertionBlocks {α : Type} (less : α → α → Bool) (blockSize : Nat) :
    Nat → List α → List α
  | 0, data => insertionSort_func less data
  | fuel + 1, data =>
    if blockSize ≤ data.length then
      insertionSort_func less (data.take blockSize)
        ++ insertionBlocks less blockSize fuel (data.drop blockSize)
    else insertionSort_func less data

/-- One round of merges of `stable_func`, from index `a` on:
`for b <= n { symMerge_func(data, a, a+blockSize, b); a = b; b += 2*blockSize }`
and then `if m := a + blockSize; m < n { symMerge_func(data, a, m, n) }`. -/
def mergePass {α : Type} (less : α → α → Bool) (blockSize : Nat) : Nat → List α → List α
  | 0, data => data
  | fuel + 1, data =>
    if 2 * blockSize ≤ data.length then
      symMerge_func less (2 * blockSize) (data.take (2 * blockSize)) blockSize
        ++ mergePass less blockSize fuel (data.drop (2 * blockSize))
    else if blockSize < data.length then symMerge_func less data.length data blockSize
    else data

/-- The second loop of `stable_func`:
`for blockSize < n { <one round of merges>; blockSize *= 2 }`. -/
def mergeLoop {α : Type} (less : α → α → Bool) : Nat → Nat → List α → List α
  | 0, _, data => data
  | fuel + 1, blockSize, data =>
    if blockSize < data.length then
      mergeLoop less fuel (2 * blockSize) (mergePass less blockSize data.length data)
    else data

/-- Go's `stable_func(data, n)`: insertion sort on blocks of `blockSize := 20`
elements, then rounds of merges of adjacent blocks, the block size doubling,
until one block covers the slice. -/
def stable_func {α : Type} (less : α → α → Bool) (data : List α) : List α :=
  mergeLoop less data.length 20 (insertionBlocks less 20 data.length data)

/-- Go's `sort.SliceStable(x, less)`, as the list it leaves in `x`: the library
calls `stable_func` with the `less` closure and the length of `x`. -/
def SliceStable {α : Type} (less : α → α → Bool) (x : List α) : List α :=
  stable_func less x

/-! ## The program's types, constants and error values -/

/-- The struct `Train`. -/
structure Train where
  TrainID : Int
  DepartureStationID : Int
  ArrivalStationID : Int
  Price : Float32
  ArrivalTime : Time
  DepartureTime : Time
  deriving DecidableEq

/-- The slice type `Trains`. -/
abbrev Trains := List Train

def priceCriteria : String := "price"
def arrivalTimeCriteria : String := "arrival-time"
def departureTimeCriteria : String := "departure-time"
def lenResoult : Nat := 3

/-- The error values of the program: the five package-level values made with
`errors.New`, and the errors handed up from `os.Open`, `io.ReadAll` and
`json.Unmarshal`, kept by their description. -/
inductive Error where
  | unsupportedCriteria
  | emptyDepartureStation
  | emptyArrivalStation
  | badArrivalStationInput
  | badDepartureStationInput
  | external (description : String)
  deriving DecidableEq

/-! ## `Trains.selection` and `Trains.sorting` -/

/-- The method `selection`: the loop appends every record whose two station
ids equal the arguments; an empty result is returned as `nil`. -/
def selection (t : Trains) (departureStation arrivalStation : Int) : Trains × Option Error :=
  let selectionTrains : Trains :=
    t.foldl
      (fun selectionTrains value =>
        if value.DepartureStationID = departureStation then
          if value.ArrivalStationID = arrivalStation then selectionTrains ++ [value]
          else selectionTrains
        else selectionTrains)
      []
  if selectionTrains.length = 0 then ([], none) else (selectionTrains, none)

/-- The method `sorting`: three independent `if` statements, each running
`sort.SliceStable` with its own `less` closure. -/
def sorting (t : Trains) (criteria : String) : Trains :=
  let t := if criteria = priceCriteria then
      SliceStable (fun ti tj => Float32.lt ti.Price tj.Price) t else t
  let t := if criteria = arrivalTimeCriteria then
      SliceStable (fun ti tj => Time.Before ti.ArrivalTime tj.ArrivalTime) t else t
  let t := if criteria = departureTimeCriteria then
      SliceStable (fun ti tj => Time.Before ti.DepartureTime tj.DepartureTime) t else t
  t

/-! ## `strconv.Atoi` -/

/-- The `Err` field of a `*strconv.NumError`. -/
inductive NumError where
  | ErrSyntax
  | ErrRange
  deriving DecidableEq

/-- The size in bits of a Go `int` (`strconv.IntSize`) on a 64-bit platform. -/
def intSize : Nat := 64

/-- The digit loop of `strconv.ParseUint(s, 10, 64)` over the bytes that remain,
`n` being the value read so far. `cutoff` is `maxUint64/10 + 1` and `maxVal` is
`1<<64 - 1`; the sum `n*10 + d` is taken in `uint64`. -/
def parseUintLoop : List Char → Nat → Nat × Option NumError
  | [], n => (n, none)
  | c :: cs, n =>
    let lower := c.toNat ||| 32
    if '0'.toNat ≤ c.toNat ∧ c.toNat ≤ '9'.toNat ∨ 'a'.toNat ≤ lower ∧ lower ≤ 'z'.toNat then
      let d := if '0'.toNat ≤ c.toNat ∧ c.toNat ≤ '9'.toNat then c.toNat - '0'.toNat
        else lower - 'a'.toNat + 10
      if d ≥ 10 then (0, some NumError.ErrSyntax)
      else if n ≥ (2 ^ 64 - 1) / 10 + 1 then (2 ^ 64 - 1, some NumError.ErrRange)
      else
        let n := n * 10
        let n1 := (n + d) % 2 ^ 64
        if n1 < n ∨ n1 > 2 ^ 64 - 1 then (2 ^ 64 - 1, some NumError.ErrRange)
        else parseUintLoop cs n1
    else (0, some NumError.ErrSyntax)

/-- Go's `strconv.ParseUint(s, 10, 64)`: the value and the error kind. -/
def ParseUint (s : List Char) : Nat × Option NumError :=
  if s = [] then (0, some NumError.ErrSyntax) else parseUintLoop s 0

/-- Go's `strconv.ParseInt(s, 10, 0)`: an optional sign, then `ParseUint`; a
value outside `int64` gives the nearest bound and `ErrRange`. -/
def ParseInt (s : List Char) : Int × Option NumError :=
  if s = [] then (0, some NumError.ErrSyntax)
  else
    let neg := decide (s.head? = some '-')
    let s1 := if s.head? = some '+' ∨ s.head? = some '-' then s.tail else s
    let (un, err) := ParseUint s1
    if err = some NumError.ErrSyntax then (0, err)
    else
      let cutoff : Nat := 2 ^ (intSize - 1)
      if neg = false ∧ un ≥ cutoff then ((cutoff : Int) - 1, some NumError.ErrRange)
      else if neg = true ∧ un > cutoff then (-(cutoff : Int), some NumError.ErrRange)
      else (if neg then -(un : Int) else (un : Int), none)

/-- The loop of the fast path of `strconv.Atoi`: every byte must be a digit. -/
def atoiFastLoop : List Char → Nat → Option Nat
  | [], n => some n
  | ch :: cs, n =>
    if '0'.toNat ≤ ch.toNat ∧ ch.toNat ≤ '9'.toNat then
      atoiFastLoop cs (n * 10 + (ch.toNat - '0'.toNat))
    else none

/-- Go's `strconv.Atoi(s)`: the value and the error kind (`none` for `nil`).
Strings of 1 to 18 bytes take the fast path, the others `ParseInt(s, 10, 0)`. -/
def Atoi (s : String) : Int × Option NumError :=
  let sLen := s.length
  if 0 < sLen ∧ sLen < 19 then
    let s0 := s.toList
    let s1 := if s0.head? = some '-' ∨ s0.head? = some '+' then s0.tail else s0
    if s1.length < 1 then (0, some NumError.ErrSyntax)
    else
      match atoiFastLoop s1 0 with
      | none => (0, some NumError.ErrSyntax)
      | some n => (if s0.head? = some '-' then -(n : Int) else (n : Int), none)
  else ParseInt s.toList

/-! ## `time.Parse` with the layout `"15:04:05"` -/

/-- Go's `isDigit(s, i)`. -/
def isDigit (s : List Char) (i : Nat) : Bool :=
  match s.get? i with
  | none => false
  | some c => decide ('0'.toNat ≤ c.toNat) && decide (c.toNat ≤ '9'.toNat)

/-- The value `s[i] - '0'` of the byte at position `i`. -/
def digitAt (s : List Char) (i : Nat) : Nat :=
  match s.get? i with
  | none => 0
  | some c => c.toNat - '0'.toNat

/-- Go's `getnum(s, fixed)`: one or two leading digits, exactly two when
`fixed`; the number and the rest of the string, or `none` for `errBad`. -/
def getnum (s : List Char) (fixed : Bool) : Option (Nat × List Char) :=
  if !isDigit s 0 then none
  else if !isDigit s 1 then
    if fixed then none else some (digitAt s 0, s.drop 1)
  else some (digitAt s 0 * 10 + digitAt s 1, s.drop 2)

/-- Go's `skip(value, ":")`: the layout's separator is a single byte other than
a space, so the value must start with that very byte. -/
def skipColon (value : List Char) : Option (List Char) :=
  match value with
  | [] => none
  | c :: rest => if c = ':' then some rest else none

/-- The decimal value of a run of digits (`atoi` on a digit string). -/
def digitsValue (ds : List Char) : Nat :=
  ds.foldl (fun n c => n * 10 + (c.toNat - '0'.toNat)) 0

/-- The fractional second that `time.Parse` accepts right after the seconds
although the layout has none: when the value goes on with a comma or a period
and a digit, the maximal run of digits is consumed and its first nine digits
are the nanoseconds (`parseNanoseconds`). Returns the nanoseconds and the rest
of the value. -/
def fractionalSecond (value : List Char) : Nat × List Char :=
  if decide (value.length ≥ 2) && (decide (value.head? = some '.') || decide (value.head? = some ','))
      && isDigit value 1 then
    let digits := (value.drop 1).takeWhile (fun c => isDigit [c] 0)
    let rest := (value.drop 1).dropWhile (fun c => isDigit [c] 0)
    let used := digits.take 9
    (digitsValue used * 10 ^ (9 - used.length), rest)
  else (0, value)

/-- Go's `time.Date(0, time.January, 1, hour, min, sec, nsec, time.UTC)` for
in-range clock fields: January 1 of year 0 starts 366 days before the epoch of
`Time.sec`. -/
def clockDate (hour min sec nsec : Nat) : Time :=
  { sec := (hour * 3600 + min * 60 + sec : Nat) - 366 * 86400, nsec := nsec, mono := none }

/-- Go's `time.Parse("15:04:05", value)`, `none` standing for a
`*time.ParseError`. The layout is the chunks `15` (hour, one or two digits),
`:`, `04` (minute, two digits), `:`, `05` (second, two digits); no text may
follow. The date fields the layout omits default to January 1 of year 0, UTC. -/
def timeParse (value : String) : Option Time :=
  match getnum value.toList false with
  | none => none
  | some (hour, value) =>
    if 24 ≤ hour then none
    else
      match skipColon value with
      | none => none
      | some value =>
        match getnum value true with
        | none => none
        | some (min, value) =>
          if 60 ≤ min then none
          else
            match skipColon value with
            | none => none
            | some value =>
              match getnum value true with
              | none => none
              | some (sec, value) =>
                if 60 ≤ sec then none
                else
                  let (nsec, value) := fractionalSecond value
                  if value.length ≠ 0 then none
                  else some (clockDate hour min sec nsec)

/-! ## Decoding `data.json`: `Train.UnmarshalJSON` and `json.Unmarshal` -/

/-- How a call ends: it returns, or it panics. -/
inductive Outcome (α : Type) where
  | returns (value : α)
  | panics

/-- The fields that the library call `json.Unmarshal(data, &str)` of
`UnmarshalJSON` stores from a JSON object: the two times as the strings
`str.ArrivalTime` and `str.DepartureTime`, and the other four fields, written
through the embedded `*TrainClone` into the record itself. A field the object
does not name keeps its zero value (0, or the empty string). -/
structure TrainFields where
  ArrivalTime : String
  DepartureTime : String
  TrainID : Int
  DepartureStationID : Int
  ArrivalStationID : Int
  Price : Float32

/-- One element of the JSON array of `data.json`, told by what the library
call `json.Unmarshal(data, &str)` of `UnmarshalJSON` does with its text:
the literal `null` sets the pointer `str` to `nil` and gives no error; an
object whose fields have the right types stores them and gives no error; any
other text (a number, a string, an array, an object with a field of the wrong
type) gives an error. -/
inductive Element where
  | null
  | object (str : TrainFields)
  | mismatch (err : Error)

/-- The `*time.ParseError` that `time.Parse` returns for `value`. -/
def parseError (value : String) : Error := Error.external ("parsing time " ++ value)

/-- The method `UnmarshalJSON` on one element `data` of the array. It returns
its error, or with a `nil` error the record it has filled; what a call that
fails leaves in the receiver is dropped by `json.Unmarshal` and `FindTrains`.
After `json.Unmarshal(data, &str)` has returned without error the method reads
`str.ArrivalTime`: when `data` was `null` the pointer `str` is `nil` and the
read panics. -/
def UnmarshalJSON (data : Element) : Outcome (Except Error Train) :=
  match data with
  | Element.mismatch err => Outcome.returns (Except.error err)
  | Element.null => Outcome.panics
  | Element.object str =>
    match timeParse str.ArrivalTime with
    | none => Outcome.returns (Except.error (parseError str.ArrivalTime))
    | some arrivalTime =>
      match timeParse str.DepartureTime with
      | none => Outcome.returns (Except.error (parseError str.DepartureTime))
      | some departureTime =>
        Outcome.returns (Except.ok
          { TrainID := str.TrainID, DepartureStationID := str.DepartureStationID,
            ArrivalStationID := str.ArrivalStationID, Price := str.Price,
            ArrivalTime := arrivalTime, DepartureTime := departureTime })

/-- The call `json.Unmarshal(jsonByte, &trains)` on the elements of the array:
each element in turn is handed to `UnmarshalJSON` and appended; the first error
stops the decoding and is returned as it is, and a panic goes up through the
library. -/
def Unmarshal : List Element → Outcome (Except Error Trains)
  | [] => Outcome.returns (Except.ok [])
  | data :: rest =>
    match UnmarshalJSON data with
    | Outcome.panics => Outcome.panics
    | Outcome.returns (Except.error err) => Outcome.returns (Except.error err)
    | Outcome.returns (Except.ok t) =>
      match Unmarshal rest with
      | Outcome.panics => Outcome.panics
      | Outcome.returns (Except.error err) => Outcome.returns (Except.error err)
      | Outcome.returns (Except.ok trains) => Outcome.returns (Except.ok (t :: trains))

/-- What a successful `json.Unmarshal(jsonByte, &trains)` guarantees of every
record: `Price` was read from a JSON number, so it is finite (JSON has no
literal for NaN or an infinity, and a number out of the range of `float32` is a
decoding error), and `UnmarshalJSON` set both time fields to results of
`time.Parse` with the layout `"15:04:05"`. -/
def Decoded (trains : Trains) : Prop :=
  ∀ t ∈ trains, t.Price.isFinite = true ∧
    (∃ s : String, timeParse s = some t.ArrivalTime) ∧
    (∃ s : String, timeParse s = some t.DepartureTime)

/-! ## `Time.Format` with the layout `"15:04:05"` -/

/-- Go's constant `internalToAbsolute`, the seconds from the zero of the
library's absolute time scale (January 1 of year -292277022399) to
January 1 of year 1: `292277022400 * 365.2425 * 86400`. -/
def internalToAbsolute : Int := 9223371966579724800

/-- Go's `t.abs()` for a value in UTC, as `time.Parse` returns them: the
seconds of `t` on the absolute scale, a `uint64`. -/
def Time.abs (t : Time) : Nat := ((t.sec + internalToAbsolute) % 2 ^ 64).toNat

/-- Go's `absClock(abs)`: the hour, minute and second within the day. -/
def absClock (abs : Nat) : Nat × Nat × Nat :=
  let sec := abs % 86400
  let hour := sec / 3600
  let sec := sec - hour * 3600
  let min := sec / 60
  let sec := sec - min * 60
  (hour, min, sec)

/-- The loop of `appendInt` that assembles the decimal digits of `u` in reverse
order, each new digit in front of `buf` (a buffer of 20 bytes, which bounds the
number of rounds). -/
def appendIntLoop : Nat → Nat → List Char → List Char
  | 0, _, buf => buf
  | fuel + 1, u, buf =>
    if u ≥ 10 then
      appendIntLoop fuel (u / 10) (Char.ofNat ('0'.toNat + (u - u / 10 * 10)) :: buf)
    else Char.ofNat ('0'.toNat + u) :: buf

/-- Go's `appendInt(b, x, width)`: the decimal form of `x`, padded with zeros
on the left up to `width` digits, appended to `b`. -/
def appendInt (b : List Char) (x : Int) (width : Nat) : List Char :=
  let b := if x < 0 then b ++ ['-'] else b
  let u := x.natAbs
  let buf := appendIntLoop 20 u []
  b ++ List.replicate (width - buf.length) '0' ++ buf

/-- Go's `t.Format("15:04:05")` for a value in UTC: the chunk `15` writes the
hour, `04` the minute and `05` the second, each with `appendInt` at width 2,
and the colons of the layout are copied. -/
def Time.Format (t : Time) : String :=
  let (hour, min, sec) := absClock t.abs
  let b : List Char := []
  let b := appendInt b hour 2
  let b := b ++ [':']
  let b := appendInt b min 2
  let b := b ++ [':']
  let b := appendInt b sec 2
  String.mk b

/-! ## `parameterValidity` and `FindTrains` -/

/-- The function `parameterValidity`. The three named results start at their
zero values and are assigned only on the last path. -/
def parameterValidity (departureStation arrivalStation criteria : String) :
    Int × Int × String × Option Error :=
  let firstNaturalNumber : Int := 1
  let departureStationValid : Int := 0
  let arrivalStationValid : Int := 0
  let criteriaValid : String := ""
  if departureStation = "" then
    (departureStationValid, arrivalStationValid, criteriaValid, some Error.emptyDepartureStation)
  else if arrivalStation = "" then
    (departureStationValid, arrivalStationValid, criteriaValid, some Error.emptyArrivalStation)
  else
    let (intDepartureStation, err) := Atoi departureStation
    if intDepartureStation < firstNaturalNumber ∨ err ≠ none then
      (departureStationValid, arrivalStationValid, criteriaValid,
        some Error.badDepartureStationInput)
    else
      let (intArrivalStation, err) := Atoi arrivalStation
      if intArrivalStation < firstNaturalNumber ∨ err ≠ none then
        (departureStationValid, arrivalStationValid, criteriaValid,
          some Error.badArrivalStationInput)
      else if criteria ≠ priceCriteria ∧ criteria ≠ arrivalTimeCriteria
          ∧ criteria ≠ departureTimeCriteria then
        (departureStationValid, arrivalStationValid, criteriaValid,
          some Error.unsupportedCriteria)
      else
        ((Atoi departureStation).1, (Atoi arrivalStation).1, criteria, none)

/-- The function `FindTrains`. The argument `data` is what its first steps
read from the outside world: `os.Open("data.json")`, `io.ReadAll` and the
reading of the text by `json.Unmarshal` give either the first error among them
(the file is missing or unreadable, the text is not JSON or not an array),
returned as it is, or the elements of the array (none for the text `null`),
which `json.Unmarshal` decodes one by one through `UnmarshalJSON`. The result
is the pair the function returns, unless it panics. -/
def FindTrains (data : Except Error (List Element))
    (departureStation arrivalStation criteria : String) : Outcome (Trains × Option Error) :=
  match data with
  | Except.error err => Outcome.returns ([], some err)
  | Except.ok elements =>
    match Unmarshal elements with
    | Outcome.panics => Outcome.panics
    | Outcome.returns (Except.error err) => Outcome.returns ([], some err)
    | Outcome.returns (Except.ok trains) =>
      match parameterValidity departureStation arrivalStation criteria with
      | (_, _, _, some err) => Outcome.returns ([], some err)
      | (departureStationValid, arrivalStationValid, criteriaValid, none) =>
        match selection trains departureStationValid arrivalStationValid with
        | (_, some err) => Outcome.returns ([], some err)
        | (selectionTrains, none) =>
          let selectionTrains := sorting selectionTrains criteriaValid
          let selectionTrains :=
            if selectionTrains.length > lenResoult then selectionTrains.take lenResoult
            else selectionTrains
          Outcome.returns (selectionTrains, none)

/-! ## Notions of the specification -/

/-- The list `output` is a stable rearrangement of `input` under `less`: some
list `p` of the positions of `input`, each occurring once, tells for every slot
of `output` which input record stands there, and whenever two records compare
equal (neither is less than the other) the one that stood first in `input`
stands first in `output`. -/
def StableRearrangement {α : Type} (less : α → α → Bool) (input output : List α) : Prop :=
  ∃ p : List (Fin input.length),
    p.Perm (List.finRange input.length) ∧ output = p.map input.get ∧
    ∀ i j : Fin input.length, i < j →
      less (input.get i) (input.get j) = false → less (input.get j) (input.get i) = false →
      [i, j].Sublist p

/-- The time of day of `t` is strictly earlier than that of `u`: the clock
reading `t.Clock()` (the second within the day, in UTC) and then the
nanosecond are compared, whatever the dates. -/
def Time.earlierInDay (t u : Time) : Prop :=
  t.sec % 86400 < u.sec % 86400 ∨ (t.sec % 86400 = u.sec % 86400 ∧ t.nsec < u.nsec)

/-- A record for the examples: train `id` from station 1 to station 2 at the
given price, arriving and departing at the given times. -/
def exampleTrain (id : Int) (price : Float32) (arrival departure : Time) : Train :=
  { TrainID := id, DepartureStationID := 1, ArrivalStationID := 2, Price := price,
    ArrivalTime := arrival, DepartureTime := departure }

/-- The `float32` 1 (bits `0x3F800000`). -/
def f32One : Float32 := { sign := false, exponent := 127, mantissa := 0 }
/-- The `float32` 10 (bits `0x41200000`). -/
def f32Ten : Float32 := { sign := false, exponent := 130, mantissa := 2097152 }
/-- The `float32` 20 (bits `0x41A00000`). -/
def f32Twenty : Float32 := { sign := false, exponent := 131, mantissa := 2097152 }
/-- The `float32` 30 (bits `0x41F00000`). -/
def f32Thirty : Float32 := { sign := false, exponent := 131, mantissa := 7340032 }
/-- The `float32` 50 (bits `0x42480000`). -/
def f32Fifty : Float32 := { sign := false, exponent := 132, mantissa := 4718592 }
/-- A `float32` NaN (bits `0x7FC00000`, Go's `float32(math.NaN())`). -/
def f32NaN : Float32 := { sign := false, exponent := 255, mantissa := 4194304 }

/-- The wall-clock instant of `t`, seconds first and nanoseconds second,
ordered lexicographically: the order `Before` reads on values without a
monotonic reading. -/
def Time.instant (t : Time) : Int ×ₗ Nat := toLex (t.sec, t.nsec)

/-- The record `r` runs from station `dep` to station `arr`. -/
def matching (dep arr : Int) (r : Train) : Bool :=
  decide (r.DepartureStationID = dep ∧ r.ArrivalStationID = arr)

/-- The time of day of `t` is not later than that of `u`. -/
def Time.notLaterInDay (t u : Time) : Bool :=
  decide (t.sec % 86400 < u.sec % 86400 ∨ (t.sec % 86400 = u.sec % 86400 ∧ t.nsec ≤ u.nsec))

/-- The ascending order of the specification for the criterion `c`: by fare for
"price", by time of day of the arrival for "arrival-time" and of the departure
for "departure-time". -/
def ascendingBy (c : String) (a b : Train) : Bool :=
  if c = priceCriteria then Float32.le a.Price b.Price
  else if c = arrivalTimeCriteria then Time.notLaterInDay a.ArrivalTime b.ArrivalTime
  else if c = departureTimeCriteria then Time.notLaterInDay a.DepartureTime b.DepartureTime
  else true

/-- The result the specification describes for decoded records `R` and a
validated query: the records matching both stations, put in ascending order of
the criterion by a stable sort (the insertion sort of the library, which
places a record before the first one it is not greater than, the records being
inserted last to first), cut to the first three. -/
def specFindTrains (R : Trains) (dep arr : Int) (c : String) : Trains :=
  ((R.filter (matching dep arr)).insertionSort (fun a b => ascendingBy c a b = true)).take 3

/-- The time `09:15:00`, as `time.Parse` returns it. -/
def nineFifteen : Time := clockDate 9 15 0 0

/-- The time `12:00:00`, as `time.Parse` returns it. -/
def noon : Time := clockDate 12 0 0 0

/-- The records of the scenario of the specification: five trains from station
1 to station 2, priced 30, 10, 50, 10 and 20 in this order, and between them a
train of another route. -/
def scenarioRecords : Trains :=
  [exampleTrain 1 f32Thirty noon nineFifteen,
    exampleTrain 2 f32Ten noon nineFifteen,
    { TrainID := 6, DepartureStationID := 1, ArrivalStationID := 3, Price := f32One,
      ArrivalTime := noon, DepartureTime := nineFifteen },
    exampleTrain 3 f32Fifty noon nineFifteen,
    exampleTrain 4 f32Ten noon nineFifteen,
    exampleTrain 5 f32Twenty noon nineFifteen]

/-- The JSON object of a train `id` from station `dep` to station `arr` at the
given price, arriving at `12:00:00` and departing at `09:15:00`. -/
def exampleObject (id dep arr : Int) (price : Float32) : Element :=
  Element.object
    { ArrivalTime := "12:00:00", DepartureTime := "09:15:00", TrainID := id,
      DepartureStationID := dep, ArrivalStationID := arr, Price := price }

/-- The array of `data.json` in the scenario of the specification: its
decoding is `scenarioRecords`. -/
def scenarioElements : List Element :=
  [exampleObject 1 1 2 f32Thirty, exampleObject 2 1 2 f32Ten, exampleObject 6 1 3 f32One,
    exampleObject 3 1 2 f32Fifty, exampleObject 4 1 2 f32Ten, exampleObject 5 1 2 f32Twenty]

/-- The byte `c` is one of the digits `0` to `9`. -/
def isDecimalDigit (c : Char) : Bool :=
  decide ('0'.toNat ≤ c.toNat) && decide (c.toNat ≤ '9'.toNat)

/-- The number a non-empty string of decimal digits denotes. -/
def decimalNat (ds : List Char) : Option Nat :=
  if ds ≠ [] ∧ ds.all isDecimalDigit = true then some (digitsValue ds) else none

/-- The integer a string denotes in base 10: an optional sign `+` or `-`, then
one or more decimal digits; `none` for any other string. -/
def base10Value (s : List Char) : Option Int :=
  match s with
  | [] => none
  | c :: cs =>
    if c = '+' then Option.map (fun n : Nat => (n : Int)) (decimalNat cs)
    else if c = '-' then Option.map (fun n : Nat => -(n : Int)) (decimalNat cs)
    else Option.map (fun n : Nat => (n : Int)) (decimalNat (c :: cs))

/-- The integer the string `s` denotes in base 10, if it denotes one. -/
def base10Integer (s : String) : Option Int := base10Value s.toList

/-- The string `s` is a base-10 integer greater than or equal to 1. -/
def isStationNumber (s : String) : Prop := ∃ v : Int, base10Integer s = some v ∧ 1 ≤ v

/-- The string `s` is a base-10 integer from 1 to `2 ^ 63 - 1`, the greatest
value of a Go `int`. -/
def isIntStationNumber (s : String) : Prop :=
  ∃ v : Int, base10Integer s = some v ∧ 1 ≤ v ∧ v ≤ 2 ^ 63 - 1

/-- The string `s` matches the zero-padded 24-hour layout `HH:MM:SS`: eight
bytes, two digits, a colon, two digits, a colon, two digits, with an hour from
00 to 23 and a minute and a second from 00 to 59. -/
def isClockString (s : String) : Bool :=
  match s.toList with
  | [h1, h2, c1, m1, m2, c2, s1, s2] =>
    isDecimalDigit h1 && isDecimalDigit h2 && decide (c1 = ':')
      && isDecimalDigit m1 && isDecimalDigit m2 && decide (c2 = ':')
      && isDecimalDigit s1 && isDecimalDigit s2
      && decide (digitsValue [h1, h2] ≤ 23) && decide (digitsValue [m1, m2] ≤ 59)
      && decide (digitsValue [s1, s2] ≤ 59)
  | _ => false

/-- The text `s` is empty or a fractional second: a period or a comma followed
by one or more digits. -/
def isFraction (s : List Char) : Bool :=
  match s with
  | [] => true
  | p :: ds => (decide (p = '.') || decide (p = ',')) && decide (ds ≠ []) && ds.all isDecimalDigit

/-- The text `s` is `:MM:SS` with a minute and a second from 00 to 59, followed
by nothing or by a fractional second. -/
def isMinuteSecond (s : List Char) : Bool :=
  match s with
  | c1 :: m1 :: m2 :: c2 :: s1 :: s2 :: fraction =>
    decide (c1 = ':') && isDecimalDigit m1 && isDecimalDigit m2 && decide (c2 = ':')
      && isDecimalDigit s1 && isDecimalDigit s2
      && decide (digitsValue [m1, m2] ≤ 59) && decide (digitsValue [s1, s2] ≤ 59)
      && isFraction fraction
  | _ => false

/-- The string `s` matches the layout `H:MM:SS` or `HH:MM:SS`: an hour of one
or two digits, at most 23, then a zero-padded minute and second from 00 to 59,
then nothing or a fractional second. -/
def isLenientClockString (s : String) : Bool :=
  match s.toList with
  | h1 :: h2 :: rest =>
    (isDecimalDigit h1 && isMinuteSecond (h2 :: rest))
      || (isDecimalDigit h1 && isDecimalDigit h2 && decide (digitsValue [h1, h2] ≤ 23)
        && isMinuteSecond rest)
  | _ => false

/-- Every block of `blockSize` elements of `data`, counted from the start, is
in ascending order of the key. -/
def BlocksSorted {α K : Type} [LinearOrder K] (key : α → K) (blockSize : Nat)
    (data : List α) : Prop :=
  ∀ i : Nat, ((data.drop (i * blockSize)).take blockSize).Pairwise (fun a b => key a ≤ key b)

/-- Twenty-one records from station 1 to station 2: nineteen priced 10, then
one whose price is NaN, then one priced 1. -/
def nanRecords : Trains :=
  (List.range 19).map (fun i => exampleTrain (i + 1) f32Ten noon nineFifteen)
    ++ [exampleTrain 20 f32NaN noon nineFifteen, exampleTrain 21 f32One noon nineFifteen]

/-- Twenty-one records from station 1 to station 2, with arrival times on
January 1 of 2024 (second 63839664000 since year 1). The first nineteen carry
one reading of `time.Now()`: wall second 5 of that day, monotonic clock at 3 s.
Record 20 carries a later reading, taken after the wall clock was set back:
wall second 1, monotonic clock at 7 s. Record 21 carries the time of record 20
with the monotonic reading stripped, as `Round(0)` returns it. -/
def monoRecords : Trains :=
  (List.range 19).map
      (fun i => exampleTrain (i + 1) f32Ten
        { sec := 63839664005, nsec := 0, mono := some 3000000000 } nineFifteen)
    ++ [exampleTrain 20 f32Ten { sec := 63839664001, nsec := 0, mono := some 7000000000 }
          nineFifteen,
      exampleTrain 21 f32Ten { sec := 63839664001, nsec := 0, mono := none } nineFifteen]

/-- Twenty-one records from station 1 to station 2: eighteen priced 20, then
one whose price is NaN, then one priced 10 and one priced 1. -/
def unsettledRecords : Trains :=
  (List.range 18).map (fun i => exampleTrain (i + 1) f32Twenty noon nineFifteen)
    ++ [exampleTrain 19 f32NaN noon nineFifteen, exampleTrain 20 f32Ten noon nineFifteen,
      exampleTrain 21 f32One noon nineFifteen]

/-- Twenty-one records from station 1 to station 2, with arrival times on
January 1 of 2024 (second 63839664000 since year 1). The first eighteen arrive
at wall second 20 of that day and record 21 at wall second 1, none of them
with a monotonic reading. Records 19 and 20 carry two readings of `time.Now()` between
which the wall clock was set back: wall second 30 with the monotonic clock at
5 s, then wall second 10 with the monotonic clock at 7 s. -/
def unsettledMonoRecords : Trains :=
  (List.range 18).map
      (fun i => exampleTrain (i + 1) f32Ten { sec := 63839664020, nsec := 0, mono := none }
        nineFifteen)
    ++ [exampleTrain 19 f32Ten { sec := 63839664030, nsec := 0, mono := some 5000000000 }
          nineFifteen,
      exampleTrain 20 f32Ten { sec := 63839664010, nsec := 0, mono := some 7000000000 }
          nineFifteen,
      exampleTrain 21 f32Ten { sec := 63839664001, nsec := 0, mono := none } nineFifteen]

/-! ## Theorems -/

theorem selection_fold (p : Train → Bool) (t acc : Trains) :
    t.foldl (fun acc value => if p value then acc ++ [value] else acc) acc
      = acc ++ t.filter p := by
  induction t generalizing acc with
  | nil => simp
  | cons a t ih =>
    by_cases h : p a <;> simp [List.foldl_cons, ih, List.filter_cons, h]

/-- The loop of `selection` is a `filter`, and the error result is `nil`. -/
theorem selection_filter (R : Trains) (dep arr : Int) :
    selection R dep arr
      = (R.filter (fun r => decide (r.DepartureStationID = dep ∧ r.ArrivalStationID = arr)),
          none) := by
  have key : R.foldl
      (fun selectionTrains value =>
        if value.DepartureStationID = dep then
          if value.ArrivalStationID = arr then selectionTrains ++ [value]
          else selectionTrains
        else selectionTrains) []
      = R.filter (fun r => decide (r.DepartureStationID = dep ∧ r.ArrivalStationID = arr)) := by
    have h := selection_fold
      (fun r => decide (r.DepartureStationID = dep ∧ r.ArrivalStationID = arr)) R []
    simp only [List.nil_append] at h
    rw [← h]
    congr 1
    funext acc value
    by_cases h1 : value.DepartureStationID = dep <;>
      by_cases h2 : value.ArrivalStationID = arr <;> simp [h1, h2]
  unfold selection
  simp only [key]
  split
  · next h =>
    rw [List.length_eq_zero] at h
    rw [h]
  · rfl

/-- C1: for every list of trains `R` and integers `dep`, `arr`, `selection`
returns exactly the records of `R` whose `DepartureStationID` is `dep` and whose
`ArrivalStationID` is `arr`, in their original order (the `filter` of `R` by
that test), and its error result is `nil`. -/
theorem selection_eq_filter (R : Trains) (dep arr : Int) :
    selection R dep arr
      = (R.filter (fun r => decide (r.DepartureStationID = dep ∧ r.ArrivalStationID = arr)),
          none) :=
  selection_filter R dep arr

/-! ### The insertion sort: permutation, stability, order -/

theorem insertLeft_perm {α : Type} (less : α → α → Bool) (x : α) (l : List α) :
    (insertLeft less x l).Perm (x :: l) := by
  induction l with
  | nil => simp [insertLeft]
  | cons y ys ih =>
    unfold insertLeft
    split
    · exact (List.Perm.cons y ih).trans (List.Perm.swap x y ys)
    · exact List.Perm.refl _

theorem foldl_insertLeft_perm {α : Type} (less : α → α → Bool) (l acc : List α) :
    (l.foldl (fun sorted e => insertLeft less e sorted) acc).Perm (l.reverse ++ acc) := by
  induction l generalizing acc with
  | nil => simp
  | cons x l ih =>
    rw [List.foldl_cons, List.reverse_cons, List.append_assoc]
    refine (ih _).trans ?_
    exact List.Perm.append_left _ (insertLeft_perm less x acc)

theorem insertionSort_func_perm {α : Type} (less : α → α → Bool) (l : List α) :
    (insertionSort_func less l).Perm l := by
  unfold insertionSort_func
  refine (List.reverse_perm _).trans ?_
  refine (foldl_insertLeft_perm less l []).trans ?_
  rw [List.append_nil]
  exact List.reverse_perm l

theorem sublist_insertLeft {α : Type} (less : α → α → Bool) (x : α) (l : List α) :
    l.Sublist (insertLeft less x l) := by
  induction l with
  | nil => simp
  | cons y ys ih =>
    unfold insertLeft
    split
    · exact ih.cons₂ y
    · exact List.Sublist.cons x (List.Sublist.refl _)

theorem cons_sublist_insertLeft {α : Type} (less : α → α → Bool) (x : α) {d l : List α}
    (hd : d.Sublist l) (hx : ∀ b ∈ d, less x b = false) :
    (x :: d).Sublist (insertLeft less x l) := by
  induction l generalizing d with
  | nil =>
    rw [List.sublist_nil] at hd
    subst hd
    simp [insertLeft]
  | cons y ys ih =>
    unfold insertLeft
    split
    · next hlt =>
      cases hd with
      | cons _ h => exact (ih h hx).cons y
      | cons₂ _ h =>
        have := hx y (List.mem_cons_self _ _)
        rw [hlt] at this
        exact absurd this (by decide)
    · exact hd.cons₂ x

theorem sublist_cons_insertLeft {α : Type} (less : α → α → Bool) (x : α) {d l : List α}
    (hd : d.Sublist (x :: l)) (hp : d.Pairwise (fun a b => less a b = false)) :
    d.Sublist (insertLeft less x l) := by
  cases hd with
  | cons _ h => exact h.trans (sublist_insertLeft less x l)
  | cons₂ _ h =>
    rw [List.pairwise_cons] at hp
    exact cons_sublist_insertLeft less x h hp.1

theorem sublist_foldl_insertLeft {α : Type} (less : α → α → Bool) (l : List α) :
    ∀ (acc d : List α), d.Sublist (l.reverse ++ acc) →
      d.Pairwise (fun a b => less a b = false) →
      d.Sublist (l.foldl (fun sorted e => insertLeft less e sorted) acc) := by
  induction l with
  | nil => intro acc d hd _; exact hd
  | cons x l ih =>
    intro acc d hd hp
    rw [List.foldl_cons]
    apply ih _ d _ hp
    rw [List.reverse_cons, List.append_assoc, List.singleton_append] at hd
    obtain ⟨d1, d2, rfl, h1, h2⟩ := List.sublist_append_iff.mp hd
    have hp2 : d2.Pairwise (fun a b => less a b = false) :=
      hp.sublist (List.sublist_append_right d1 d2)
    exact List.Sublist.append h1 (sublist_cons_insertLeft less x h2 hp2)

/-- Stability of the insertion sort, for any `less`: a subsequence of the input in
which no element is less than an earlier one is still a subsequence of the
output. -/
theorem insertionSort_func_sublist {α : Type} (less : α → α → Bool) {c l : List α}
    (hc : c.Sublist l) (hp : c.Pairwise (fun a b => less b a = false)) :
    c.Sublist (insertionSort_func less l) := by
  unfold insertionSort_func
  have h := sublist_foldl_insertLeft less l [] c.reverse
    (by simpa using hc.reverse) (by rw [List.pairwise_reverse]; exact hp)
  simpa using h.reverse

theorem insertLeft_sorted {α K : Type} [LinearOrder K] (less : α → α → Bool) (key : α → K)
    (x : α) (l : List α) (hx : ∀ y ∈ l, (less x y = true ↔ key x < key y))
    (hl : l.Pairwise (fun a b => key b ≤ key a)) :
    (insertLeft less x l).Pairwise (fun a b => key b ≤ key a) := by
  induction l with
  | nil => simp [insertLeft]
  | cons y ys ih =>
    rw [List.pairwise_cons] at hl
    unfold insertLeft
    split
    · next hlt =>
      have hxy : key x < key y := (hx y (List.mem_cons_self _ _)).mp hlt
      rw [List.pairwise_cons]
      refine ⟨?_, ih (fun z hz => hx z (List.mem_cons_of_mem _ hz)) hl.2⟩
      intro b hb
      rcases List.mem_cons.mp ((insertLeft_perm less x ys).mem_iff.mp hb) with h | h
      · subst h; exact le_of_lt hxy
      · exact hl.1 b h
    · next hlt =>
      have hxy : ¬ key x < key y := fun h => hlt ((hx y (List.mem_cons_self _ _)).mpr h)
      rw [List.pairwise_cons]
      refine ⟨?_, List.pairwise_cons.mpr hl⟩
      intro b hb
      rcases List.mem_cons.mp hb with h | h
      · subst h; exact not_lt.mp hxy
      · exact le_trans (hl.1 b h) (not_lt.mp hxy)

theorem foldl_insertLeft_sorted {α K : Type} [LinearOrder K] (less : α → α → Bool)
    (key : α → K) (l : List α) :
    ∀ acc : List α, (∀ a ∈ l, ∀ b ∈ l ++ acc, (less a b = true ↔ key a < key b)) →
      acc.Pairwise (fun a b => key b ≤ key a) →
      (l.foldl (fun sorted e => insertLeft less e sorted) acc).Pairwise
        (fun a b => key b ≤ key a) := by
  induction l with
  | nil => intro acc _ h; simpa using h
  | cons x l ih =>
    intro acc hk hacc
    rw [List.foldl_cons]
    apply ih
    · intro a ha b hb
      apply hk a (List.mem_cons_of_mem _ ha) b
      rcases List.mem_append.mp hb with h | h
      · exact List.mem_append_left _ (List.mem_cons_of_mem _ h)
      · rcases List.mem_cons.mp ((insertLeft_perm less x acc).mem_iff.mp h) with h | h
        · subst h; exact List.mem_append_left _ (List.mem_cons_self _ _)
        · exact List.mem_append_right _ h
    · apply insertLeft_sorted less key x acc _ hacc
      intro y hy
      exact hk x (List.mem_cons_self _ _) y (List.mem_append_right _ hy)

/-- When `less` is the strict order of a key on the elements of the list,
`insertionSort_func` leaves the list in ascending order of the key. -/
theorem insertionSort_func_sorted {α K : Type} [LinearOrder K] (less : α → α → Bool) (key : α → K)
    (l : List α) (hk : ∀ a ∈ l, ∀ b ∈ l, (less a b = true ↔ key a < key b)) :
    (insertionSort_func less l).Pairwise (fun a b => key a ≤ key b) := by
  unfold insertionSort_func
  rw [List.pairwise_reverse]
  apply foldl_insertLeft_sorted less key l []
  · simpa using hk
  · exact List.Pairwise.nil

theorem insertLeft_map {α β : Type} (less : α → α → Bool) (f : β → α) (x : β) (l : List β) :
    (insertLeft (fun a b => less (f a) (f b)) x l).map f = insertLeft less (f x) (l.map f) := by
  induction l with
  | nil => simp [insertLeft]
  | cons y ys ih =>
    simp only [insertLeft, List.map_cons]
    split
    · simp [ih]
    · simp

theorem foldl_insertLeft_map {α β : Type} (less : α → α → Bool) (f : β → α) (l : List β) :
    ∀ acc : List β,
      (l.foldl (fun sorted e => insertLeft (fun a b => less (f a) (f b)) e sorted) acc).map f
        = (l.map f).foldl (fun sorted e => insertLeft less e sorted) (acc.map f) := by
  induction l with
  | nil => intro acc; simp
  | cons x l ih =>
    intro acc
    rw [List.foldl_cons, ih, List.map_cons, List.foldl_cons, insertLeft_map]

/-- `insertionSort_func` commutes with a map when `less` looks only at the image. -/
theorem insertionSort_func_map {α β : Type} (less : α → α → Bool) (f : β → α) (l : List β) :
    (insertionSort_func (fun a b => less (f a) (f b)) l).map f = insertionSort_func less (l.map f) := by
  unfold insertionSort_func
  rw [List.map_reverse, foldl_insertLeft_map]
  simp

theorem pair_sublist_finRange {n : Nat} (i j : Fin n) (h : i < j) :
    [i, j].Sublist (List.finRange n) := by
  obtain ⟨l1, l2, hsplit⟩ := List.append_of_mem (List.mem_finRange i)
  have hj : j ∈ l1 ++ i :: l2 := hsplit ▸ List.mem_finRange j
  have hpw : (l1 ++ i :: l2).Pairwise (fun a b => a < b) := hsplit ▸ List.pairwise_lt_finRange n
  rw [hsplit]
  rcases List.mem_append.mp hj with h1 | h2
  · have := (List.pairwise_append.mp hpw).2.2 j h1 i (List.mem_cons_self _ _)
    exact absurd h (not_lt.mpr (le_of_lt this))
  · rcases List.mem_cons.mp h2 with h3 | h3
    · exact absurd h3 (ne_of_gt h)
    · have hs : [i, j].Sublist (i :: l2) :=
        List.Sublist.cons₂ i (List.singleton_sublist.mpr h3)
      exact hs.trans (List.sublist_append_right l1 _)

/-- Whatever `less` is, the insertion sort returns a stable rearrangement. -/
theorem insertionSort_func_stable {α : Type} (less : α → α → Bool) (l : List α) :
    StableRearrangement less l (insertionSort_func less l) := by
  refine ⟨insertionSort_func (fun i j => less (l.get i) (l.get j)) (List.finRange l.length),
    insertionSort_func_perm _ _, ?_, ?_⟩
  · rw [insertionSort_func_map less l.get, List.finRange_map_get]
  · intro i j hij _ hji
    apply insertionSort_func_sublist _ (pair_sublist_finRange i j hij)
    simpa using hji

/-! ### The stable sort by a key is unique -/

theorem orderedInsert_congr {α : Type} (r r' : α → α → Prop) [DecidableRel r] [DecidableRel r']
    (a : α) (l : List α) (h : ∀ b ∈ l, (r a b ↔ r' a b)) :
    l.orderedInsert r a = l.orderedInsert r' a := by
  induction l with
  | nil => rfl
  | cons b l ih =>
    have hb := h b (List.mem_cons_self _ _)
    have ih' := ih (fun c hc => h c (List.mem_cons_of_mem _ hc))
    by_cases hr : r a b
    · simp [List.orderedInsert, hr, hb.mp hr]
    · simp [List.orderedInsert, hr, mt hb.mpr hr, ih']

theorem insertionSort_congr {α : Type} (r r' : α → α → Prop) [DecidableRel r] [DecidableRel r']
    (l : List α) (h : ∀ a ∈ l, ∀ b ∈ l, (r a b ↔ r' a b)) :
    l.insertionSort r = l.insertionSort r' := by
  induction l with
  | nil => rfl
  | cons a l ih =>
    have ih' := ih (fun x hx y hy => h x (List.mem_cons_of_mem _ hx) y (List.mem_cons_of_mem _ hy))
    rw [List.insertionSort, List.insertionSort, ih']
    apply orderedInsert_congr
    intro b hb
    exact h a (List.mem_cons_self _ _) b
      (List.mem_cons_of_mem _ ((List.mem_insertionSort r').mp hb))

/-- Two lists with the same elements, both ascending in a key, in which the
elements of each single key stand in the same order, are equal. -/
theorem eq_of_sorted_of_filter_eq {α K : Type} [LinearOrder K] (key : α → K) :
    ∀ l1 l2 : List α, l1.Perm l2 →
      l1.Pairwise (fun a b => key a ≤ key b) → l2.Pairwise (fun a b => key a ≤ key b) →
      (∀ k : K, l1.filter (fun a => decide (key a = k)) = l2.filter (fun a => decide (key a = k))) →
      l1 = l2 := by
  intro l1
  induction l1 with
  | nil => intro l2 hp _ _ _; exact (List.Perm.nil_eq hp)
  | cons a l1 ih =>
    intro l2 hp h1 h2 hf
    cases l2 with
    | nil => exact absurd hp.length_eq (by simp)
    | cons b l2 =>
      rw [List.pairwise_cons] at h1 h2
      have hab : key a ≤ key b := by
        rcases List.mem_cons.mp (hp.mem_iff.mpr (List.mem_cons_self b l2)) with h | h
        · rw [h]
        · exact h1.1 b h
      have hba : key b ≤ key a := by
        rcases List.mem_cons.mp (hp.mem_iff.mp (List.mem_cons_self a l1)) with h | h
        · rw [h]
        · exact h2.1 a h
      have hkey : key a = key b := le_antisymm hab hba
      have hk := hf (key a)
      simp only [List.filter_cons, decide_True, ite_true, hkey.symm] at hk
      rw [List.cons.injEq] at hk
      obtain ⟨rfl, hk'⟩ := hk
      congr 1
      apply ih l2 hp.cons_inv h1.2 h2.2
      intro k
      by_cases hka : key a = k
      · subst hka; exact hk'
      · have := hf k
        simpa [List.filter_cons, hka] using this

/-- A rearrangement that keeps every subsequence of equal keys keeps, for each
key, the list of the records of that key. -/
theorem filter_eq_of_stable {α K : Type} [LinearOrder K] (key : α → K) (l out : List α)
    (hperm : out.Perm l)
    (hst : ∀ c : List α, c.Sublist l → c.Pairwise (fun a b => key a = key b) → c.Sublist out)
    (k : K) :
    out.filter (fun a => decide (key a = k)) = l.filter (fun a => decide (key a = k)) := by
  have hc : (l.filter (fun a => decide (key a = k))).Sublist out := by
    apply hst _ (List.filter_sublist l)
    rw [List.pairwise_iff_forall_sublist]
    intro a b hab
    have ha := List.of_mem_filter (hab.subset (List.mem_cons_self _ _))
    have hb := List.of_mem_filter (hab.subset (List.mem_cons_of_mem _ (List.mem_singleton_self b)))
    simp only [decide_eq_true_eq] at ha hb
    rw [ha, hb]
  have hc2 := hc.filter (fun a => decide (key a = k))
  rw [List.filter_filter] at hc2
  simp only [Bool.and_self] at hc2
  exact (hc2.eq_of_length (hperm.filter _).length_eq.symm).symm

/-- When `less` is the strict order of a key on the elements of the list,
`insertionSort_func` returns what the insertion sort by that key returns. -/
theorem insertionSort_func_eq_insertionSort {α K : Type} [LinearOrder K] (less : α → α → Bool)
    (key : α → K) (l : List α) (hk : ∀ a ∈ l, ∀ b ∈ l, (less a b = true ↔ key a < key b)) :
    insertionSort_func less l = l.insertionSort (fun a b => key a ≤ key b) := by
  haveI : IsTotal α (fun a b => key a ≤ key b) := ⟨fun a b => le_total (key a) (key b)⟩
  haveI : IsTrans α (fun a b => key a ≤ key b) := ⟨fun a b c => le_trans⟩
  apply eq_of_sorted_of_filter_eq key
  · exact (insertionSort_func_perm less l).trans (List.perm_insertionSort _ l).symm
  · exact insertionSort_func_sorted less key l hk
  · exact List.sorted_insertionSort (fun a b => key a ≤ key b) l
  · intro k
    rw [filter_eq_of_stable key l _ (insertionSort_func_perm less l) _ k,
      filter_eq_of_stable key l _ (List.perm_insertionSort _ l) _ k]
    · intro c hc hp
      exact List.sublist_insertionSort (hp.imp (fun h => le_of_eq h)) hc
    · intro c hc hp
      apply insertionSort_func_sublist less hc
      have hmem : ∀ x ∈ c, x ∈ l := fun x hx => hc.subset hx
      rw [List.pairwise_iff_forall_sublist] at hp ⊢
      intro a b hab
      have ha := hmem a (hab.subset (List.mem_cons_self _ _))
      have hb := hmem b (hab.subset (List.mem_cons_of_mem _ (List.mem_singleton_self b)))
      have hlt : ¬ key b < key a := by rw [hp hab]; exact lt_irrefl _
      cases hl : less b a with
      | false => rfl
      | true => exact absurd ((hk b hb a ha).mp hl) hlt


/-! ### The binary searches of `symMerge_func` -/

theorem searchLoop_bounds (cond : Nat → Bool) :
    ∀ fuel i j : Nat, i ≤ j →
      i ≤ searchLoop cond fuel i j ∧ searchLoop cond fuel i j ≤ j := by
  intro fuel
  induction fuel with
  | zero => intro i j h; exact ⟨Nat.le_refl i, h⟩
  | succ fuel ih =>
    intro i j hij
    unfold searchLoop
    split_ifs with h1 h2
    · have := ih ((i + j) / 2 + 1) j (by omega)
      omega
    · have := ih i ((i + j) / 2) (by omega)
      omega
    · exact ⟨Nat.le_refl i, hij⟩

/-- With enough fuel and a test that, once false, stays false, the loop returns
the boundary: the test holds below the result and fails from it on. -/
theorem searchLoop_spec (cond : Nat → Bool) :
    ∀ fuel i j : Nat, j - i ≤ fuel → i ≤ j →
      (∀ h1 h2 : Nat, i ≤ h1 → h1 ≤ h2 → h2 < j → cond h2 = true → cond h1 = true) →
      (∀ h : Nat, i ≤ h → h < searchLoop cond fuel i j → cond h = true) ∧
        (∀ h : Nat, searchLoop cond fuel i j ≤ h → h < j → cond h = false) := by
  intro fuel
  induction fuel with
  | zero =>
    intro i j hf hij _
    have : i = j := by omega
    subst this
    exact ⟨fun h h1 h2 => absurd h2 (by simp [searchLoop]; omega),
      fun h h1 h2 => absurd h2 (by simp [searchLoop] at h1; omega)⟩
  | succ fuel ih =>
    intro i j hf hij hmono
    unfold searchLoop
    split_ifs with h1 h2
    · have hb := searchLoop_bounds cond fuel ((i + j) / 2 + 1) j (by omega)
      have := ih ((i + j) / 2 + 1) j (by omega) (by omega)
        (fun a b ha hab hb => hmono a b (by omega) hab hb)
      refine ⟨?_, this.2⟩
      intro h hih hlt
      by_cases hle : h ≤ (i + j) / 2
      · exact hmono h ((i + j) / 2) hih hle (by omega) h2
      · exact this.1 h (by omega) hlt
    · have hb := searchLoop_bounds cond fuel i ((i + j) / 2) (by omega)
      have := ih i ((i + j) / 2) (by omega) (by omega)
        (fun a b ha hab hb => hmono a b ha hab (by omega))
      refine ⟨this.1, ?_⟩
      intro h hge hlt
      by_cases hlt2 : h < (i + j) / 2
      · exact this.2 h hge hlt2
      · cases hc : cond h with
        | false => rfl
        | true =>
          have := hmono ((i + j) / 2) h (by omega) (by omega) hlt hc
          exact absurd this h2
    · have : i = j := by omega
      subst this
      exact ⟨fun h h1 h2 => absurd h2 (by omega), fun h h1 h2 => absurd h2 (by omega)⟩

/-! ### Every step is a permutation -/

theorem rotate_func_perm {α : Type} (data : List α) (a m b : Nat) (ham : a ≤ m) (hmb : m ≤ b) :
    (rotate_func data a m b).Perm data := by
  unfold rotate_func
  have h1 : data = data.take a ++ ((data.drop a).take (m - a)
      ++ ((data.drop m).take (b - m) ++ data.drop b)) := by
    have e1 : (data.drop a).drop (m - a) = data.drop m := by
      rw [List.drop_drop]; congr 1; omega
    have e2 : (data.drop m).drop (b - m) = data.drop b := by
      rw [List.drop_drop]; congr 1; omega
    conv_lhs => rw [← List.take_append_drop a data, ← List.take_append_drop (m - a) (data.drop a),
      e1, ← List.take_append_drop (b - m) (data.drop m), e2]
  conv_rhs => rw [h1]
  refine List.Perm.append_left _ ?_
  rw [← List.append_assoc, ← List.append_assoc]
  exact List.Perm.append_right _ List.perm_append_comm

theorem symMergeStart_bounds {α : Type} (less : α → α → Bool) (data : List α) (m : Nat)
    (hm : m ≤ data.length) :
    symMergeStart less data m ≤ m ∧ symMergeStart less data m ≤ data.length / 2 ∧
      data.length / 2 + m - data.length ≤ symMergeStart less data m := by
  unfold symMergeStart
  simp only
  by_cases h : m > data.length / 2
  · simp only [h, if_true]
    have := searchLoop_bounds (fun c => !lessAt less data (data.length / 2 + m - 1 - c) c)
      (data.length / 2 - (data.length / 2 + m - data.length))
      (data.length / 2 + m - data.length) (data.length / 2) (by omega)
    omega
  · simp only [h, if_false]
    have := searchLoop_bounds (fun c => !lessAt less data (data.length / 2 + m - 1 - c) c)
      (m - 0) 0 m (by omega)
    omega

theorem move_first_perm {α : Type} (data : List α) (i : Nat) (hi : 1 ≤ i) :
    ((data.drop 1).take (i - 1) ++ (data.take 1 ++ data.drop i)).Perm data := by
  have e : (data.drop 1).drop (i - 1) = data.drop i := by
    rw [List.drop_drop]; congr 1; omega
  have h1 : data = data.take 1 ++ ((data.drop 1).take (i - 1) ++ data.drop i) := by
    conv_lhs => rw [← List.take_append_drop 1 data,
      ← List.take_append_drop (i - 1) (data.drop 1), e]
  conv_rhs => rw [h1]
  rw [← List.append_assoc, ← List.append_assoc]
  exact List.Perm.append_right _ List.perm_append_comm

theorem move_last_perm {α : Type} (data : List α) (i m : Nat) (hi : i ≤ m) :
    (data.take i ++ ((data.drop m).take 1
      ++ ((data.drop i).take (m - i) ++ data.drop (m + 1)))).Perm data := by
  have e1 : (data.drop i).drop (m - i) = data.drop m := by
    rw [List.drop_drop]; congr 1; omega
  have e2 : (data.drop m).drop 1 = data.drop (m + 1) := by
    rw [List.drop_drop, Nat.add_comm]
  have h1 : data = data.take i ++ ((data.drop i).take (m - i)
      ++ ((data.drop m).take 1 ++ data.drop (m + 1))) := by
    conv_lhs => rw [← List.take_append_drop i data,
      ← List.take_append_drop (m - i) (data.drop i), e1,
      ← List.take_append_drop 1 (data.drop m), e2]
  conv_rhs => rw [h1]
  refine List.Perm.append_left _ ?_
  rw [← List.append_assoc, ← List.append_assoc]
  exact List.Perm.append_right _ List.perm_append_comm

theorem symMerge_func_perm {α : Type} (less : α → α → Bool) :
    ∀ (fuel : Nat) (data : List α) (m : Nat), m ≤ data.length →
      (symMerge_func less fuel data m).Perm data := by
  intro fuel
  induction fuel with
  | zero => intro data m _; exact List.Perm.refl _
  | succ fuel ih =>
    intro data m hm
    unfold symMerge_func
    simp only
    by_cases h1 : m = 1
    · rw [if_pos h1]
      apply move_first_perm
      have := (searchLoop_bounds (fun h => lessAt less data h 0) (data.length - m) m
        data.length hm).1
      omega
    · rw [if_neg h1]
      by_cases h2 : data.length - m = 1
      · rw [if_pos h2]
        apply move_last_perm
        exact (searchLoop_bounds (fun h => !lessAt less data m h) m 0 m (Nat.zero_le m)).2
      · rw [if_neg h2]
        obtain ⟨hs1, hs2, hs3⟩ := symMergeStart_bounds less data m hm
        generalize symMergeStart less data m = start at hs1 hs2 hs3 ⊢
        have hrot : (if start < m ∧ m < data.length / 2 + m - start
            then rotate_func data start m (data.length / 2 + m - start) else data).Perm data := by
          split_ifs
          · exact rotate_func_perm data start m _ hs1 (by omega)
          · exact List.Perm.refl _
        generalize (if start < m ∧ m < data.length / 2 + m - start
            then rotate_func data start m (data.length / 2 + m - start) else data) = data' at hrot ⊢
        have hlen : data'.length = data.length := hrot.length_eq
        have hl : (if 0 < start ∧ start < data.length / 2
            then symMerge_func less fuel (data'.take (data.length / 2)) start
            else data'.take (data.length / 2)).Perm (data'.take (data.length / 2)) := by
          split_ifs with hg
          · exact ih _ _ (by rw [List.length_take]; omega)
          · exact List.Perm.refl _
        have hr : (if data.length / 2 < data.length / 2 + m - start
              ∧ data.length / 2 + m - start < data.length
            then symMerge_func less fuel (data'.drop (data.length / 2))
              (data.length / 2 + m - start - data.length / 2)
            else data'.drop (data.length / 2)).Perm (data'.drop (data.length / 2)) := by
          split_ifs with hg
          · exact ih _ _ (by rw [List.length_drop]; omega)
          · exact List.Perm.refl _
        refine ((hl.append hr).trans ?_).trans hrot
        rw [List.take_append_drop]

/-! ### Merging two runs sorted by a key -/

theorem lessAt_eq {α : Type} (less : α → α → Bool) (data : List α) {i j : Nat}
    (hi : i < data.length) (hj : j < data.length) :
    lessAt less data i j = less data[i] data[j] := by
  unfold lessAt
  rw [List.getElem?_eq_getElem hi, List.getElem?_eq_getElem hj]

theorem take_eq_take_append {α : Type} (data : List α) {t m : Nat} (h : t ≤ m) :
    data.take m = data.take t ++ (data.drop t).take (m - t) := by
  have h1 : (data.take m).take t = data.take t := by
    rw [List.take_take, Nat.min_eq_left h]
  have h2 : (data.take m).drop t = (data.drop t).take (m - t) := by
    rw [List.drop_take]
  rw [← h1, ← h2, List.take_append_drop]

theorem drop_eq_take_append {α : Type} (data : List α) {m e : Nat} (h : m ≤ e) :
    data.drop m = (data.drop m).take (e - m) ++ data.drop e := by
  have h1 : (data.drop m).drop (e - m) = data.drop e := by
    rw [List.drop_drop]; congr 1; omega
  rw [← h1, List.take_append_drop]

theorem index_of_mem_take {α : Type} {data : List α} {t : Nat} {a : α} (h : a ∈ data.take t) :
    ∃ (i : Nat) (hi : i < data.length), i < t ∧ data[i] = a := by
  obtain ⟨i, hi, rfl⟩ := List.mem_iff_getElem.mp h
  rw [List.length_take] at hi
  exact ⟨i, by omega, by omega, by rw [List.getElem_take]⟩

theorem index_of_mem_drop {α : Type} {data : List α} {t : Nat} {a : α} (h : a ∈ data.drop t) :
    ∃ (i : Nat) (hi : i < data.length), t ≤ i ∧ data[i] = a := by
  obtain ⟨i, hi, rfl⟩ := List.mem_iff_getElem.mp h
  rw [List.length_drop] at hi
  exact ⟨t + i, by omega, by omega, by rw [List.getElem_drop]⟩

theorem index_of_mem_slice {α : Type} {data : List α} {s e : Nat} {a : α}
    (h : a ∈ (data.drop s).take (e - s)) :
    ∃ (i : Nat) (hi : i < data.length), s ≤ i ∧ i < e ∧ data[i] = a := by
  obtain ⟨i, hi, hlt, rfl⟩ := index_of_mem_take h
  rw [List.length_drop] at hi
  exact ⟨s + i, by omega, by omega, by omega, by rw [List.getElem_drop]⟩

theorem sorted_take_index {α K : Type} [LinearOrder K] (key : α → K) {data : List α} {m : Nat}
    (hs : (data.take m).Pairwise (fun a b => key a ≤ key b)) {i j : Nat}
    (hi : i < data.length) (hj : j < data.length) (hij : i ≤ j) (hjm : j < m) :
    key data[i] ≤ key data[j] := by
  rcases Nat.eq_or_lt_of_le hij with h | h
  · subst h; exact le_refl _
  · have hl : (data.take m).length = min m data.length := List.length_take _ _
    have := List.pairwise_iff_getElem.mp hs i j (by omega) (by omega) h
    simpa [List.getElem_take] using this

theorem sorted_drop_index {α K : Type} [LinearOrder K] (key : α → K) {data : List α} {m : Nat}
    (hs : (data.drop m).Pairwise (fun a b => key a ≤ key b)) {i j : Nat}
    (hi : i < data.length) (hj : j < data.length) (hmi : m ≤ i) (hij : i ≤ j) :
    key data[i] ≤ key data[j] := by
  rcases Nat.eq_or_lt_of_le hij with h | h
  · subst h; exact le_refl _
  · have hl : (data.drop m).length = data.length - m := List.length_drop _ _
    have := List.pairwise_iff_getElem.mp hs (i - m) (j - m) (by omega) (by omega) (by omega)
    have e1 : m + (i - m) = i := by omega
    have e2 : m + (j - m) = j := by omega
    simpa [List.getElem_drop, e1, e2] using this

/-- Two lists with no key in common can be exchanged without changing, for any
key, the list of elements of that key. -/
theorem filter_append_comm_of_disjoint {α K : Type} [LinearOrder K] (key : α → K)
    (A B : List α) (h : ∀ a ∈ A, ∀ b ∈ B, key a ≠ key b) (k : K) :
    (A ++ B).filter (fun a => decide (key a = k))
      = (B ++ A).filter (fun a => decide (key a = k)) := by
  rw [List.filter_append, List.filter_append]
  by_cases hA : ∃ a ∈ A, key a = k
  · obtain ⟨a, ha, rfl⟩ := hA
    have hB : B.filter (fun b => decide (key b = key a)) = [] := by
      rw [List.filter_eq_nil_iff]
      intro b hb
      simpa using (h a ha b hb).symm
    rw [hB, List.append_nil, List.nil_append]
  · have hA' : A.filter (fun a => decide (key a = k)) = [] := by
      rw [List.filter_eq_nil_iff]
      intro a ha
      simp only [decide_eq_true_eq]
      exact fun hk => hA ⟨a, ha, hk⟩
    rw [hA', List.append_nil, List.nil_append]

/-- The two halves left by a step of `symMerge_func` fit together: with the
runs `u1 ++ u2` and `v1 ++ v2` sorted, `u1` not above `v2` and `v1` strictly
below `u2`, a sorted stable arrangement `L` of `u1 ++ v1` followed by one `R`
of `u2 ++ v2` is a sorted stable arrangement of the two runs. -/
theorem merge_halves {α K : Type} [LinearOrder K] (key : α → K) (u1 u2 v1 v2 L R : List α)
    (hu : (u1 ++ u2).Pairwise (fun a b => key a ≤ key b))
    (hv : (v1 ++ v2).Pairwise (fun a b => key a ≤ key b))
    (hx1 : ∀ a ∈ u1, ∀ c ∈ v2, key a ≤ key c)
    (hx2 : ∀ c ∈ v1, ∀ a ∈ u2, key c < key a)
    (hL : L.Pairwise (fun a b => key a ≤ key b)) (hLmem : ∀ x ∈ L, x ∈ u1 ++ v1)
    (hLf : ∀ k : K, L.filter (fun a => decide (key a = k))
      = (u1 ++ v1).filter (fun a => decide (key a = k)))
    (hR : R.Pairwise (fun a b => key a ≤ key b)) (hRmem : ∀ x ∈ R, x ∈ u2 ++ v2)
    (hRf : ∀ k : K, R.filter (fun a => decide (key a = k))
      = (u2 ++ v2).filter (fun a => decide (key a = k))) :
    (L ++ R).Pairwise (fun a b => key a ≤ key b) ∧
      ∀ k : K, (L ++ R).filter (fun a => decide (key a = k))
        = ((u1 ++ u2) ++ (v1 ++ v2)).filter (fun a => decide (key a = k)) := by
  constructor
  · rw [List.pairwise_append]
    refine ⟨hL, hR, ?_⟩
    intro x hx y hy
    rcases List.mem_append.mp (hLmem x hx) with h1 | h1 <;>
      rcases List.mem_append.mp (hRmem y hy) with h2 | h2
    · exact (List.pairwise_append.mp hu).2.2 x h1 y h2
    · exact hx1 x h1 y h2
    · exact le_of_lt (hx2 x h1 y h2)
    · exact (List.pairwise_append.mp hv).2.2 x h1 y h2
  · intro k
    have hc := filter_append_comm_of_disjoint key v1 u2
      (fun c hc a ha => ne_of_lt (hx2 c hc a ha)) k
    rw [List.filter_append, hLf, hRf]
    simp only [List.filter_append, List.append_assoc] at hc ⊢
    rw [← List.append_assoc (List.filter _ v1), hc, List.append_assoc]

theorem pairwise_take_one {α : Type} (R : α → α → Prop) (l : List α) : (l.take 1).Pairwise R := by
  cases l with
  | nil => simp
  | cons a l => simp

/-- The case `m - a == 1` of `symMerge_func`: a first run of one element. -/
theorem symMerge_first_spec {α K : Type} [LinearOrder K] (less : α → α → Bool) (key : α → K)
    (data : List α) (hlen : 1 ≤ data.length)
    (hk : ∀ a ∈ data, ∀ b ∈ data, (less a b = true ↔ key a < key b))
    (hv : (data.drop 1).Pairwise (fun a b => key a ≤ key b)) :
    ((data.drop 1).take
          (searchLoop (fun h => lessAt less data h 0) (data.length - 1) 1 data.length - 1)
        ++ (data.take 1 ++ data.drop
          (searchLoop (fun h => lessAt less data h 0) (data.length - 1) 1 data.length))).Pairwise
        (fun a b => key a ≤ key b) ∧
      ∀ k : K, ((data.drop 1).take
          (searchLoop (fun h => lessAt less data h 0) (data.length - 1) 1 data.length - 1)
        ++ (data.take 1 ++ data.drop
          (searchLoop (fun h => lessAt less data h 0) (data.length - 1) 1 data.length))).filter
          (fun a => decide (key a = k))
        = data.filter (fun a => decide (key a = k)) := by
  have hb := searchLoop_bounds (fun h => lessAt less data h 0) (data.length - 1) 1 data.length hlen
  have hcond : ∀ h : Nat, (hh : h < data.length) →
      (lessAt less data h 0 = true ↔ key data[h] < key data[0]) := by
    intro h hh
    rw [lessAt_eq less data hh (by omega)]
    exact hk _ (List.getElem_mem _) _ (List.getElem_mem _)
  have hspec := searchLoop_spec (fun h => lessAt less data h 0) (data.length - 1) 1 data.length
    (Nat.le_refl _) hlen (by
      intro h1 h2 h1ge h12 h2lt hc
      have hc2 := (hcond h2 h2lt).mp hc
      exact (hcond h1 (by omega)).mpr
        (lt_of_le_of_lt (sorted_drop_index key hv (by omega) h2lt h1ge h12) hc2))
  generalize searchLoop (fun h => lessAt less data h 0) (data.length - 1) 1 data.length = i
    at hb hspec ⊢
  have hA : ∀ a ∈ (data.drop 1).take (i - 1), key a < key data[0] := by
    intro a ha
    obtain ⟨j, hj, h1, h2, rfl⟩ := index_of_mem_slice ha
    exact (hcond j hj).mp (hspec.1 j h1 h2)
  have hC : ∀ c ∈ data.drop i, key data[0] ≤ key c := by
    intro c hc
    obtain ⟨j, hj, h1, rfl⟩ := index_of_mem_drop hc
    have hf : lessAt less data j 0 = false := hspec.2 j h1 hj
    exact not_lt.mp (fun hlt => by rw [(hcond j hj).mpr hlt] at hf; exact absurd hf (by simp))
  have hX : ∀ x ∈ data.take 1, x = data[0] := by
    intro x hx
    obtain ⟨j, hj, h1, rfl⟩ := index_of_mem_take hx
    have : j = 0 := by omega
    subst this
    rfl
  have hdrop : data.drop 1 = (data.drop 1).take (i - 1) ++ data.drop i :=
    drop_eq_take_append data hb.1
  have hv' := hv
  rw [hdrop] at hv'
  have hdata : data = ([] ++ data.take 1) ++ ((data.drop 1).take (i - 1) ++ data.drop i) := by
    rw [← hdrop, List.nil_append, List.take_append_drop]
  have hRs : (data.take 1 ++ data.drop i).Pairwise (fun a b => key a ≤ key b) := by
    rw [List.pairwise_append]
    refine ⟨pairwise_take_one _ _, (List.pairwise_append.mp hv').2.1, ?_⟩
    intro x hx c hc
    rw [hX x hx]
    exact hC c hc
  have := merge_halves key [] (data.take 1) ((data.drop 1).take (i - 1)) (data.drop i)
    ((data.drop 1).take (i - 1)) (data.take 1 ++ data.drop i)
    (by rw [List.nil_append]; exact pairwise_take_one _ _) hv'
    (fun a ha => absurd ha (List.not_mem_nil a))
    (fun c hc a ha => by rw [hX a ha]; exact hA c hc)
    (List.pairwise_append.mp hv').1 (fun x hx => by simpa using hx) (fun k => by simp)
    hRs (fun x hx => hx) (fun k => rfl)
  rw [← hdata] at this
  exact this

/-- The case `b - m == 1` of `symMerge_func`: a second run of one element. -/
theorem symMerge_last_spec {α K : Type} [LinearOrder K] (less : α → α → Bool) (key : α → K)
    (data : List α) (m : Nat) (hm : data.length - m = 1)
    (hk : ∀ a ∈ data, ∀ b ∈ data, (less a b = true ↔ key a < key b))
    (hu : (data.take m).Pairwise (fun a b => key a ≤ key b))
    (hv : (data.drop m).Pairwise (fun a b => key a ≤ key b)) :
    (data.take (searchLoop (fun h => !lessAt less data m h) m 0 m)
        ++ ((data.drop m).take 1
          ++ ((data.drop (searchLoop (fun h => !lessAt less data m h) m 0 m)).take
              (m - searchLoop (fun h => !lessAt less data m h) m 0 m)
            ++ data.drop (m + 1)))).Pairwise (fun a b => key a ≤ key b) ∧
      ∀ k : K, (data.take (searchLoop (fun h => !lessAt less data m h) m 0 m)
        ++ ((data.drop m).take 1
          ++ ((data.drop (searchLoop (fun h => !lessAt less data m h) m 0 m)).take
              (m - searchLoop (fun h => !lessAt less data m h) m 0 m)
            ++ data.drop (m + 1)))).filter (fun a => decide (key a = k))
        = data.filter (fun a => decide (key a = k)) := by
  have hlen : data.length = m + 1 := by omega
  have hb := searchLoop_bounds (fun h => !lessAt less data m h) m 0 m (Nat.zero_le m)
  have hcond : ∀ h : Nat, (hh : h < data.length) →
      ((!lessAt less data m h) = true ↔ key data[h] ≤ key data[m]) := by
    intro h hh
    rw [lessAt_eq less data (by omega) hh, Bool.not_eq_true', ← Bool.not_eq_true,
      hk _ (List.getElem_mem _) _ (List.getElem_mem _), not_lt]
  have hspec := searchLoop_spec (fun h => !lessAt less data m h) m 0 m
    (Nat.le_refl _) (Nat.zero_le m) (by
      intro h1 h2 _ h12 h2lt hc
      have hc2 := (hcond h2 (by omega)).mp hc
      exact (hcond h1 (by omega)).mpr
        (le_trans (sorted_take_index key hu (by omega) (by omega) h12 h2lt) hc2))
  generalize searchLoop (fun h => !lessAt less data m h) m 0 m = i at hb hspec ⊢
  have hA : ∀ a ∈ data.take i, key a ≤ key data[m] := by
    intro a ha
    obtain ⟨j, hj, h1, rfl⟩ := index_of_mem_take ha
    exact (hcond j hj).mp (hspec.1 j (Nat.zero_le j) h1)
  have hC : ∀ c ∈ (data.drop i).take (m - i), key data[m] < key c := by
    intro c hc
    obtain ⟨j, hj, h1, h2, rfl⟩ := index_of_mem_slice hc
    have hf : (!lessAt less data m j) = false := hspec.2 j h1 h2
    exact not_le.mp (fun hle => by rw [(hcond j hj).mpr hle] at hf; exact absurd hf (by simp))
  have hY : ∀ y ∈ (data.drop m).take 1, y = data[m] := by
    intro y hy
    have hy' : y ∈ (data.drop m).take (m + 1 - m) := by
      rw [Nat.add_sub_cancel_left]; exact hy
    obtain ⟨j, hj, h1, h2, rfl⟩ := index_of_mem_slice hy'
    have : j = m := by omega
    subst this
    rfl
  have hD : data.drop (m + 1) = [] := List.drop_of_length_le (by omega)
  have htake : data.take m = data.take i ++ (data.drop i).take (m - i) :=
    take_eq_take_append data hb.2
  have hdropm : data.drop m = (data.drop m).take 1 ++ data.drop (m + 1) := by
    have := drop_eq_take_append data (Nat.le_succ m)
    rwa [Nat.succ_sub (Nat.le_refl m), Nat.sub_self] at this
  have hu' := hu
  rw [htake] at hu'
  have hv' := hv
  rw [hdropm] at hv'
  have hdata : data = (data.take i ++ (data.drop i).take (m - i))
      ++ ((data.drop m).take 1 ++ data.drop (m + 1)) := by
    rw [← htake, ← hdropm, List.take_append_drop]
  have hLs : (data.take i ++ (data.drop m).take 1).Pairwise (fun a b => key a ≤ key b) := by
    rw [List.pairwise_append]
    refine ⟨(List.pairwise_append.mp hu').1, pairwise_take_one _ _, ?_⟩
    intro a ha y hy
    rw [hY y hy]
    exact hA a ha
  have hRs : ((data.drop i).take (m - i) ++ data.drop (m + 1)).Pairwise
      (fun a b => key a ≤ key b) := by
    rw [hD, List.append_nil]
    exact (List.pairwise_append.mp hu').2.1
  have := merge_halves key (data.take i) ((data.drop i).take (m - i)) ((data.drop m).take 1)
    (data.drop (m + 1)) (data.take i ++ (data.drop m).take 1)
    ((data.drop i).take (m - i) ++ data.drop (m + 1))
    hu' hv'
    (fun a _ c hc => by rw [hD] at hc; exact absurd hc (List.not_mem_nil c))
    (fun y hy c hc => by rw [hY y hy]; exact hC c hc)
    hLs (fun x hx => hx) (fun k => rfl) hRs (fun x hx => hx) (fun k => rfl)
  rw [← hdata] at this
  simpa only [List.append_assoc] using this

/-- The search of the general case, for any bounds `start ≤ r` as the code
chooses them: with both runs sorted, what stands before the returned index in
the first run is not above what stands from `mid + m - t` on in the second, and
what stands before `mid + m - t` in the second run is strictly below what stands
from the returned index on in the first. -/
theorem symMerge_search_spec {α K : Type} [LinearOrder K] (less : α → α → Bool) (key : α → K)
    (data : List α) (m start r : Nat)
    (hk : ∀ a ∈ data, ∀ b ∈ data, (less a b = true ↔ key a < key b))
    (hu : (data.take m).Pairwise (fun a b => key a ≤ key b))
    (hv : (data.drop m).Pairwise (fun a b => key a ≤ key b))
    (h1 : start ≤ r) (h2 : r ≤ m) (h3 : r ≤ data.length / 2)
    (h4 : data.length / 2 + m ≤ data.length + start)
    (h5 : start = 0 ∨ start + data.length = data.length / 2 + m)
    (h6 : r = data.length / 2 ∨ r = m) :
    (∀ a ∈ data.take
          (searchLoop (fun c => !lessAt less data (data.length / 2 + m - 1 - c) c)
            (r - start) start r),
        ∀ c ∈ data.drop (data.length / 2 + m
          - searchLoop (fun c => !lessAt less data (data.length / 2 + m - 1 - c) c)
            (r - start) start r),
        key a ≤ key c) ∧
      (∀ c ∈ (data.drop m).take (data.length / 2 + m
          - searchLoop (fun c => !lessAt less data (data.length / 2 + m - 1 - c) c)
            (r - start) start r - m),
        ∀ a ∈ (data.drop
            (searchLoop (fun c => !lessAt less data (data.length / 2 + m - 1 - c) c)
              (r - start) start r)).take
            (m - searchLoop (fun c => !lessAt less data (data.length / 2 + m - 1 - c) c)
              (r - start) start r),
        key c < key a) := by
  have hb := searchLoop_bounds (fun c => !lessAt less data (data.length / 2 + m - 1 - c) c)
    (r - start) start r h1
  have hcond : ∀ c : Nat, (hc : c < data.length) →
      (hpc : data.length / 2 + m - 1 - c < data.length) →
      ((!lessAt less data (data.length / 2 + m - 1 - c) c) = true
        ↔ key data[c] ≤ key data[data.length / 2 + m - 1 - c]) := by
    intro c hc hpc
    rw [lessAt_eq less data hpc hc, Bool.not_eq_true', ← Bool.not_eq_true,
      hk _ (List.getElem_mem _) _ (List.getElem_mem _), not_lt]
  have hspec := searchLoop_spec (fun c => !lessAt less data (data.length / 2 + m - 1 - c) c)
    (r - start) start r (Nat.le_refl _) h1 (by
      intro c1 c2 hc1 h12 hc2 hc
      have hA : c2 < data.length := by omega
      have hB : data.length / 2 + m - 1 - c2 < data.length := by omega
      have hC : data.length / 2 + m - 1 - c1 < data.length := by omega
      have e2 := (hcond c2 hA hB).mp hc
      refine (hcond c1 (by omega) hC).mpr ?_
      exact le_trans (sorted_take_index key hu (by omega) hA h12 (by omega))
        (le_trans e2 (sorted_drop_index key hv (by omega) hC (by omega) (by omega))))
  generalize searchLoop (fun c => !lessAt less data (data.length / 2 + m - 1 - c) c)
    (r - start) start r = t at hb hspec ⊢
  constructor
  · intro a ha c hc
    obtain ⟨i, hi, hit, rfl⟩ := index_of_mem_take ha
    obtain ⟨j, hj, hej, rfl⟩ := index_of_mem_drop hc
    have ht : start < t := by omega
    have hA : t - 1 < data.length := by omega
    have hB : data.length / 2 + m - 1 - (t - 1) < data.length := by omega
    have e1 := (hcond (t - 1) hA hB).mp (hspec.1 (t - 1) (by omega) (by omega))
    have e0 : key data[i] ≤ key data[t - 1] := sorted_take_index key hu (by omega) hA (by omega) (by omega)
    have e2 : key data[data.length / 2 + m - 1 - (t - 1)] ≤ key data[j] :=
      sorted_drop_index key hv (by omega) hj (by omega) (by omega)
    exact le_trans e0 (le_trans e1 e2)
  · intro c hc a ha
    obtain ⟨j, hj, hmj, hje, rfl⟩ := index_of_mem_slice hc
    obtain ⟨i, hi, hti, him, rfl⟩ := index_of_mem_slice ha
    have hA : t < data.length := by omega
    have hB : data.length / 2 + m - 1 - t < data.length := by omega
    have hf : (!lessAt less data (data.length / 2 + m - 1 - t) t) = false :=
      hspec.2 t (Nat.le_refl t) (by omega)
    have e1 : key data[data.length / 2 + m - 1 - t] < key data[t] :=
      not_le.mp (fun hle => by rw [(hcond t hA hB).mpr hle] at hf; exact absurd hf (by simp))
    have e0 : key data[j] ≤ key data[data.length / 2 + m - 1 - t] :=
      sorted_drop_index key hv hj hB hmj (by omega)
    have e2 : key data[t] ≤ key data[i] := sorted_take_index key hu hA hi hti him
    exact lt_of_le_of_lt e0 (lt_of_lt_of_le e1 e2)

theorem symMergeStart_spec {α K : Type} [LinearOrder K] (less : α → α → Bool) (key : α → K)
    (data : List α) (m : Nat) (hm : m ≤ data.length)
    (hk : ∀ a ∈ data, ∀ b ∈ data, (less a b = true ↔ key a < key b))
    (hu : (data.take m).Pairwise (fun a b => key a ≤ key b))
    (hv : (data.drop m).Pairwise (fun a b => key a ≤ key b)) :
    (∀ a ∈ data.take (symMergeStart less data m),
        ∀ c ∈ data.drop (data.length / 2 + m - symMergeStart less data m), key a ≤ key c) ∧
      (∀ c ∈ (data.drop m).take (data.length / 2 + m - symMergeStart less data m - m),
        ∀ a ∈ (data.drop (symMergeStart less data m)).take (m - symMergeStart less data m),
        key c < key a) := by
  unfold symMergeStart
  simp only
  by_cases h : m > data.length / 2
  · simp only [h, if_true]
    exact symMerge_search_spec less key data m _ _ hk hu hv (by omega) (by omega)
      (Nat.le_refl _) (by omega) (Or.inr (by omega)) (Or.inl rfl)
  · simp only [h, if_false]
    exact symMerge_search_spec less key data m _ _ hk hu hv (Nat.zero_le _) (Nat.le_refl _)
      (by omega) (by omega) (Or.inl rfl) (Or.inr rfl)

theorem rotate_func_eq {α : Type} (data : List α) (t m e : Nat) (htm : t ≤ m) (hme : m ≤ e) :
    (if t < m ∧ m < e then rotate_func data t m e else data)
      = (data.take t ++ (data.drop m).take (e - m))
        ++ ((data.drop t).take (m - t) ++ data.drop e) := by
  split_ifs with hg
  · unfold rotate_func
    simp only [List.append_assoc]
  · have hcase : t = m ∨ m = e := by omega
    rcases hcase with h | h
    · subst h
      rw [Nat.sub_self, List.take_zero, List.nil_append, List.append_assoc,
        ← drop_eq_take_append data hme, List.take_append_drop]
    · subst h
      rw [Nat.sub_self, List.take_zero, List.append_nil, ← List.append_assoc,
        ← take_eq_take_append data htm, List.take_append_drop]

/-- With enough fuel, on a segment whose two runs are sorted by a key of which
`less` is the strict order, `symMerge_func` returns the segment sorted, the
elements of each key in their order in the segment. -/
theorem symMerge_func_spec {α K : Type} [LinearOrder K] (less : α → α → Bool) (key : α → K) :
    ∀ (fuel : Nat) (data : List α) (m : Nat), data.length ≤ fuel → m ≤ data.length →
      (∀ a ∈ data, ∀ b ∈ data, (less a b = true ↔ key a < key b)) →
      (data.take m).Pairwise (fun a b => key a ≤ key b) →
      (data.drop m).Pairwise (fun a b => key a ≤ key b) →
      (symMerge_func less fuel data m).Pairwise (fun a b => key a ≤ key b) ∧
        ∀ k : K, (symMerge_func less fuel data m).filter (fun a => decide (key a = k))
          = data.filter (fun a => decide (key a = k)) := by
  intro fuel
  induction fuel with
  | zero =>
    intro data m hlen _ _ _ _
    have : data = [] := List.length_eq_zero.mp (Nat.le_zero.mp hlen)
    subst this
    simp [symMerge_func]
  | succ fuel ih =>
    intro data m hlen hm hk hu hv
    unfold symMerge_func
    simp only
    by_cases h1 : m = 1
    · rw [if_pos h1]
      subst h1
      exact symMerge_first_spec less key data hm hk hv
    · rw [if_neg h1]
      by_cases h2 : data.length - m = 1
      · rw [if_pos h2]
        exact symMerge_last_spec less key data m h2 hk hu hv
      · rw [if_neg h2]
        obtain ⟨hs1, hs2, hs3⟩ := symMergeStart_bounds less data m hm
        obtain ⟨hx1, hx2⟩ := symMergeStart_spec less key data m hm hk hu hv
        generalize symMergeStart less data m = t at hs1 hs2 hs3 hx1 hx2 ⊢
        have hme : m ≤ data.length / 2 + m - t := by omega
        have heb : data.length / 2 + m - t ≤ data.length := by omega
        rw [rotate_func_eq data t m _ hs1 hme]
        generalize hu1 : data.take t = u1 at hx1 ⊢
        generalize hv1 : (data.drop m).take (data.length / 2 + m - t - m) = v1 at hx2 ⊢
        generalize hu2 : (data.drop t).take (m - t) = u2 at hx2 ⊢
        generalize hv2 : data.drop (data.length / 2 + m - t) = v2 at hx1 ⊢
        have hlu1 : u1.length = t := by rw [← hu1, List.length_take]; omega
        have hlv1 : v1.length = data.length / 2 - t := by
          rw [← hv1, List.length_take, List.length_drop]; omega
        have hlu2 : u2.length = m - t := by
          rw [← hu2, List.length_take, List.length_drop]; omega
        have hlv2 : v2.length = data.length - (data.length / 2 + m - t) := by
          rw [← hv2, List.length_drop]
        have htk : data.take m = u1 ++ u2 := by
          rw [← hu1, ← hu2]; exact take_eq_take_append data hs1
        have hdr : data.drop m = v1 ++ v2 := by
          rw [← hv1, ← hv2]; exact drop_eq_take_append data hme
        have hdata : data = (u1 ++ u2) ++ (v1 ++ v2) := by
          rw [← htk, ← hdr, List.take_append_drop]
        rw [htk] at hu
        rw [hdr] at hv
        have hmemL : ∀ x ∈ u1 ++ v1, x ∈ data := by
          intro x hx
          rw [hdata]
          rcases List.mem_append.mp hx with h | h
          · exact List.mem_append_left _ (List.mem_append_left _ h)
          · exact List.mem_append_right _ (List.mem_append_left _ h)
        have hmemR : ∀ x ∈ u2 ++ v2, x ∈ data := by
          intro x hx
          rw [hdata]
          rcases List.mem_append.mp hx with h | h
          · exact List.mem_append_left _ (List.mem_append_right _ h)
          · exact List.mem_append_right _ (List.mem_append_right _ h)
        rw [List.take_left' (by rw [List.length_append]; omega),
          List.drop_left' (by rw [List.length_append]; omega)]
        have hL : (if 0 < t ∧ t < data.length / 2 then symMerge_func less fuel (u1 ++ v1) t
              else u1 ++ v1).Pairwise (fun a b => key a ≤ key b) ∧
            (∀ x ∈ (if 0 < t ∧ t < data.length / 2 then symMerge_func less fuel (u1 ++ v1) t
              else u1 ++ v1), x ∈ u1 ++ v1) ∧
            ∀ k : K, (if 0 < t ∧ t < data.length / 2 then symMerge_func less fuel (u1 ++ v1) t
              else u1 ++ v1).filter (fun a => decide (key a = k))
              = (u1 ++ v1).filter (fun a => decide (key a = k)) := by
          split_ifs with hg
          · have hperm := symMerge_func_perm less fuel (u1 ++ v1) t
              (by rw [List.length_append]; omega)
            have := ih (u1 ++ v1) t (by rw [List.length_append]; omega)
              (by rw [List.length_append]; omega)
              (fun a ha b hb => hk a (hmemL a ha) b (hmemL b hb))
              (by rw [List.take_left' hlu1]; exact (List.pairwise_append.mp hu).1)
              (by rw [List.drop_left' hlu1]; exact (List.pairwise_append.mp hv).1)
            exact ⟨this.1, fun x hx => hperm.mem_iff.mp hx, this.2⟩
          · refine ⟨?_, fun x hx => hx, fun k => rfl⟩
            have hcase : t = 0 ∨ t = data.length / 2 := by omega
            rcases hcase with h | h
            · have : u1 = [] := List.length_eq_zero.mp (by omega)
              rw [this, List.nil_append]
              exact (List.pairwise_append.mp hv).1
            · have : v1 = [] := List.length_eq_zero.mp (by omega)
              rw [this, List.append_nil]
              exact (List.pairwise_append.mp hu).1
        have hR : (if data.length / 2 < data.length / 2 + m - t
                ∧ data.length / 2 + m - t < data.length
              then symMerge_func less fuel (u2 ++ v2) (data.length / 2 + m - t - data.length / 2)
              else u2 ++ v2).Pairwise (fun a b => key a ≤ key b) ∧
            (∀ x ∈ (if data.length / 2 < data.length / 2 + m - t
                ∧ data.length / 2 + m - t < data.length
              then symMerge_func less fuel (u2 ++ v2) (data.length / 2 + m - t - data.length / 2)
              else u2 ++ v2), x ∈ u2 ++ v2) ∧
            ∀ k : K, (if data.length / 2 < data.length / 2 + m - t
                ∧ data.length / 2 + m - t < data.length
              then symMerge_func less fuel (u2 ++ v2) (data.length / 2 + m - t - data.length / 2)
              else u2 ++ v2).filter (fun a => decide (key a = k))
              = (u2 ++ v2).filter (fun a => decide (key a = k)) := by
          split_ifs with hg
          · have hsplit : data.length / 2 + m - t - data.length / 2 = u2.length := by omega
            rw [hsplit]
            have hperm := symMerge_func_perm less fuel (u2 ++ v2) u2.length
              (by rw [List.length_append]; omega)
            have := ih (u2 ++ v2) u2.length (by rw [List.length_append]; omega)
              (by rw [List.length_append]; omega)
              (fun a ha b hb => hk a (hmemR a ha) b (hmemR b hb))
              (by rw [List.take_left]; exact (List.pairwise_append.mp hu).2.1)
              (by rw [List.drop_left]; exact (List.pairwise_append.mp hv).2.1)
            exact ⟨this.1, fun x hx => hperm.mem_iff.mp hx, this.2⟩
          · refine ⟨?_, fun x hx => hx, fun k => rfl⟩
            have hcase : m - t = 0 ∨ data.length / 2 + m - t = data.length := by omega
            rcases hcase with h | h
            · have : u2 = [] := List.length_eq_zero.mp (by omega)
              rw [this, List.nil_append]
              exact (List.pairwise_append.mp hv).2.1
            · have : v2 = [] := List.length_eq_zero.mp (by omega)
              rw [this, List.append_nil]
              exact (List.pairwise_append.mp hu).2.1
        have := merge_halves key u1 u2 v1 v2 _ _ hu hv hx1 hx2 hL.1 hL.2.1 hL.2.2
          hR.1 hR.2.1 hR.2.2
        rw [← hdata] at this
        exact this

/-! ### The passes of `stable_func` -/

theorem insertionBlocks_perm {α : Type} (less : α → α → Bool) (blockSize : Nat) :
    ∀ (fuel : Nat) (data : List α), (insertionBlocks less blockSize fuel data).Perm data := by
  intro fuel
  induction fuel with
  | zero => intro data; exact insertionSort_func_perm less data
  | succ fuel ih =>
    intro data
    unfold insertionBlocks
    split_ifs
    · refine ((insertionSort_func_perm less _).append (ih _)).trans ?_
      rw [List.take_append_drop]
    · exact insertionSort_func_perm less data

theorem mergePass_perm {α : Type} (less : α → α → Bool) (blockSize : Nat) :
    ∀ (fuel : Nat) (data : List α), (mergePass less blockSize fuel data).Perm data := by
  intro fuel
  induction fuel with
  | zero => intro data; exact List.Perm.refl _
  | succ fuel ih =>
    intro data
    unfold mergePass
    split_ifs with h1 h2
    · refine ((symMerge_func_perm less _ _ _ ?_).append (ih _)).trans ?_
      · rw [List.length_take]; omega
      · rw [List.take_append_drop]
    · exact symMerge_func_perm less _ _ _ (by omega)
    · exact List.Perm.refl _

theorem mergeLoop_perm {α : Type} (less : α → α → Bool) :
    ∀ (fuel blockSize : Nat) (data : List α), (mergeLoop less fuel blockSize data).Perm data := by
  intro fuel
  induction fuel with
  | zero => intro _ data; exact List.Perm.refl _
  | succ fuel ih =>
    intro blockSize data
    unfold mergeLoop
    split_ifs
    · exact (ih _ _).trans (mergePass_perm less _ _ _)
    · exact List.Perm.refl _

/-- Whatever `less` is, `stable_func` only reorders. -/
theorem stable_func_perm {α : Type} (less : α → α → Bool) (data : List α) :
    (stable_func less data).Perm data :=
  (mergeLoop_perm less _ _ _).trans (insertionBlocks_perm less _ _ _)

theorem BlocksSorted.of_sorted {α K : Type} [LinearOrder K] {key : α → K} {data : List α}
    (h : data.Pairwise (fun a b => key a ≤ key b)) (blockSize : Nat) :
    BlocksSorted key blockSize data :=
  fun _ => h.sublist ((List.take_sublist _ _).trans (List.drop_sublist _ _))

theorem BlocksSorted.append {α K : Type} [LinearOrder K] {key : α → K} {blockSize : Nat}
    {A B : List α} (hA : A.Pairwise (fun a b => key a ≤ key b)) (hlen : A.length = blockSize)
    (hB : BlocksSorted key blockSize B) : BlocksSorted key blockSize (A ++ B) := by
  intro i
  cases i with
  | zero =>
    rw [Nat.zero_mul, List.drop_zero, List.take_left' hlen]
    exact hA
  | succ i =>
    have : (A ++ B).drop ((i + 1) * blockSize) = B.drop (i * blockSize) := by
      rw [Nat.succ_mul, Nat.add_comm, ← List.drop_drop, List.drop_left' hlen]
    rw [this]
    exact hB i

theorem BlocksSorted.drop {α K : Type} [LinearOrder K] {key : α → K} {blockSize : Nat}
    {data : List α} (h : BlocksSorted key blockSize data) (j : Nat) :
    BlocksSorted key blockSize (data.drop (j * blockSize)) := by
  intro i
  have : (data.drop (j * blockSize)).drop (i * blockSize) = data.drop ((i + j) * blockSize) := by
    rw [List.drop_drop, Nat.add_mul, Nat.add_comm]
  rw [this]
  exact h (i + j)

theorem BlocksSorted.sorted {α K : Type} [LinearOrder K] {key : α → K} {blockSize : Nat}
    {data : List α} (h : BlocksSorted key blockSize data) (hlen : data.length ≤ blockSize) :
    data.Pairwise (fun a b => key a ≤ key b) := by
  have := h 0
  rwa [Nat.zero_mul, List.drop_zero, List.take_of_length_le hlen] at this

/-- Under a key of which `less` is the strict order, the insertion sort keeps,
for each key, the list of the elements of that key. -/
theorem insertionSort_func_filter {α K : Type} [LinearOrder K] (less : α → α → Bool)
    (key : α → K) (l : List α) (hk : ∀ a ∈ l, ∀ b ∈ l, (less a b = true ↔ key a < key b))
    (k : K) :
    (insertionSort_func less l).filter (fun a => decide (key a = k))
      = l.filter (fun a => decide (key a = k)) := by
  apply filter_eq_of_stable key l _ (insertionSort_func_perm less l)
  intro c hc hp
  apply insertionSort_func_sublist less hc
  have hmem : ∀ x ∈ c, x ∈ l := fun x hx => hc.subset hx
  rw [List.pairwise_iff_forall_sublist] at hp ⊢
  intro a b hab
  have ha := hmem a (hab.subset (List.mem_cons_self _ _))
  have hb := hmem b (hab.subset (List.mem_cons_of_mem _ (List.mem_singleton_self b)))
  have hlt : ¬ key b < key a := by rw [hp hab]; exact lt_irrefl _
  cases hl : less b a with
  | false => rfl
  | true => exact absurd ((hk b hb a ha).mp hl) hlt

theorem insertionBlocks_spec {α K : Type} [LinearOrder K] (less : α → α → Bool) (key : α → K)
    (blockSize : Nat) :
    ∀ (fuel : Nat) (data : List α),
      (∀ a ∈ data, ∀ b ∈ data, (less a b = true ↔ key a < key b)) →
      BlocksSorted key blockSize (insertionBlocks less blockSize fuel data) ∧
        ∀ k : K, (insertionBlocks less blockSize fuel data).filter (fun a => decide (key a = k))
          = data.filter (fun a => decide (key a = k)) := by
  intro fuel
  induction fuel with
  | zero =>
    intro data hk
    exact ⟨BlocksSorted.of_sorted (insertionSort_func_sorted less key data hk) _,
      insertionSort_func_filter less key data hk⟩
  | succ fuel ih =>
    intro data hk
    unfold insertionBlocks
    split_ifs with h
    · have hkt : ∀ a ∈ data.take blockSize, ∀ b ∈ data.take blockSize,
          (less a b = true ↔ key a < key b) :=
        fun a ha b hb => hk a (List.mem_of_mem_take ha) b (List.mem_of_mem_take hb)
      have hkd : ∀ a ∈ data.drop blockSize, ∀ b ∈ data.drop blockSize,
          (less a b = true ↔ key a < key b) :=
        fun a ha b hb => hk a (List.mem_of_mem_drop ha) b (List.mem_of_mem_drop hb)
      obtain ⟨ih1, ih2⟩ := ih (data.drop blockSize) hkd
      constructor
      · apply BlocksSorted.append (insertionSort_func_sorted less key _ hkt) _ ih1
        rw [(insertionSort_func_perm less _).length_eq, List.length_take]
        omega
      · intro k
        rw [List.filter_append, insertionSort_func_filter less key _ hkt, ih2,
          ← List.filter_append, List.take_append_drop]
    · exact ⟨BlocksSorted.of_sorted (insertionSort_func_sorted less key data hk) _,
        insertionSort_func_filter less key data hk⟩

theorem mergePass_spec {α K : Type} [LinearOrder K] (less : α → α → Bool) (key : α → K)
    (blockSize : Nat) (hbs : 1 ≤ blockSize) :
    ∀ (fuel : Nat) (data : List α), data.length ≤ fuel →
      (∀ a ∈ data, ∀ b ∈ data, (less a b = true ↔ key a < key b)) →
      BlocksSorted key blockSize data →
      BlocksSorted key (2 * blockSize) (mergePass less blockSize fuel data) ∧
        ∀ k : K, (mergePass less blockSize fuel data).filter (fun a => decide (key a = k))
          = data.filter (fun a => decide (key a = k)) := by
  intro fuel
  induction fuel with
  | zero =>
    intro data hlen _ _
    have : data = [] := List.length_eq_zero.mp (Nat.le_zero.mp hlen)
    subst this
    exact ⟨fun i => by simp [mergePass], fun k => rfl⟩
  | succ fuel ih =>
    intro data hlen hk hbl
    have hb0 : (data.take blockSize).Pairwise (fun a b => key a ≤ key b) := by
      have := hbl 0
      rwa [Nat.zero_mul, List.drop_zero] at this
    have hb1 : ((data.drop blockSize).take blockSize).Pairwise (fun a b => key a ≤ key b) := by
      have := hbl 1
      rwa [Nat.one_mul] at this
    unfold mergePass
    split_ifs with h1 h2
    · have hkt : ∀ a ∈ data.take (2 * blockSize), ∀ b ∈ data.take (2 * blockSize),
          (less a b = true ↔ key a < key b) :=
        fun a ha b hb => hk a (List.mem_of_mem_take ha) b (List.mem_of_mem_take hb)
      have hkd : ∀ a ∈ data.drop (2 * blockSize), ∀ b ∈ data.drop (2 * blockSize),
          (less a b = true ↔ key a < key b) :=
        fun a ha b hb => hk a (List.mem_of_mem_drop ha) b (List.mem_of_mem_drop hb)
      have hlt : (data.take (2 * blockSize)).length = 2 * blockSize := by
        rw [List.length_take]; omega
      obtain ⟨s1, s2⟩ := symMerge_func_spec less key (2 * blockSize) (data.take (2 * blockSize))
        blockSize (by omega) (by omega) hkt
        (by rw [List.take_take, Nat.min_eq_left (by omega)]; exact hb0)
        (by
          rw [List.drop_take]
          have : 2 * blockSize - blockSize = blockSize := by omega
          rw [this]
          exact hb1)
      obtain ⟨ih1, ih2⟩ := ih (data.drop (2 * blockSize))
        (by rw [List.length_drop]; omega) hkd (hbl.drop 2)
      constructor
      · apply BlocksSorted.append s1 _ ih1
        rw [(symMerge_func_perm less _ _ _ (by omega)).length_eq, hlt]
      · intro k
        rw [List.filter_append, s2, ih2, ← List.filter_append, List.take_append_drop]
    · obtain ⟨s1, s2⟩ := symMerge_func_spec less key data.length data blockSize
        (Nat.le_refl _) (by omega) hk hb0
        (by
          have : (data.drop blockSize).take blockSize = data.drop blockSize :=
            List.take_of_length_le (by rw [List.length_drop]; omega)
          rw [← this]
          exact hb1)
      exact ⟨BlocksSorted.of_sorted s1 _, s2⟩
    · have : data.take blockSize = data := List.take_of_length_le (by omega)
      rw [this] at hb0
      exact ⟨BlocksSorted.of_sorted hb0 _, fun k => rfl⟩

theorem mergeLoop_spec {α K : Type} [LinearOrder K] (less : α → α → Bool) (key : α → K) :
    ∀ (fuel blockSize : Nat) (data : List α), 1 ≤ blockSize →
      data.length ≤ blockSize * 2 ^ fuel →
      (∀ a ∈ data, ∀ b ∈ data, (less a b = true ↔ key a < key b)) →
      BlocksSorted key blockSize data →
      (mergeLoop less fuel blockSize data).Pairwise (fun a b => key a ≤ key b) ∧
        ∀ k : K, (mergeLoop less fuel blockSize data).filter (fun a => decide (key a = k))
          = data.filter (fun a => decide (key a = k)) := by
  intro fuel
  induction fuel with
  | zero =>
    intro blockSize data _ hlen _ hbl
    exact ⟨hbl.sorted (by simpa using hlen), fun k => rfl⟩
  | succ fuel ih =>
    intro blockSize data hbs hlen hk hbl
    unfold mergeLoop
    split_ifs with h
    · have hperm := mergePass_perm less blockSize data.length data
      obtain ⟨p1, p2⟩ := mergePass_spec less key blockSize hbs data.length data
        (Nat.le_refl _) hk hbl
      obtain ⟨l1, l2⟩ := ih (2 * blockSize) (mergePass less blockSize data.length data)
        (by omega)
        (by rw [hperm.length_eq]; rw [Nat.pow_succ] at hlen; nlinarith)
        (fun a ha b hb => hk a (hperm.mem_iff.mp ha) b (hperm.mem_iff.mp hb)) p1
      exact ⟨l1, fun k => (l2 k).trans (p2 k)⟩
    · exact ⟨hbl.sorted (by omega), fun k => rfl⟩

/-- Under a key of which `less` is the strict order on the elements of the
list, `stable_func` returns the list in ascending order of the key, the
elements of each key in their input order. -/
theorem stable_func_spec {α K : Type} [LinearOrder K] (less : α → α → Bool) (key : α → K)
    (data : List α) (hk : ∀ a ∈ data, ∀ b ∈ data, (less a b = true ↔ key a < key b)) :
    (stable_func less data).Pairwise (fun a b => key a ≤ key b) ∧
      ∀ k : K, (stable_func less data).filter (fun a => decide (key a = k))
        = data.filter (fun a => decide (key a = k)) := by
  unfold stable_func
  have hperm := insertionBlocks_perm less 20 data.length data
  obtain ⟨b1, b2⟩ := insertionBlocks_spec less key 20 data.length data hk
  obtain ⟨l1, l2⟩ := mergeLoop_spec less key data.length 20
    (insertionBlocks less 20 data.length data) (by norm_num)
    (by
      rw [hperm.length_eq]
      have := Nat.lt_two_pow data.length
      omega)
    (fun a ha b hb => hk a (hperm.mem_iff.mp ha) b (hperm.mem_iff.mp hb)) b1
  exact ⟨l1, fun k => (l2 k).trans (b2 k)⟩

/-- Under a key of which `less` is the strict order on the elements of the
list, `sort.SliceStable` returns what the insertion sort alone returns. -/
theorem SliceStable_eq_insertionSort_func {α K : Type} [LinearOrder K] (less : α → α → Bool)
    (key : α → K) (l : List α) (hk : ∀ a ∈ l, ∀ b ∈ l, (less a b = true ↔ key a < key b)) :
    SliceStable less l = insertionSort_func less l := by
  obtain ⟨s1, s2⟩ := stable_func_spec less key l hk
  apply eq_of_sorted_of_filter_eq key
  · exact (stable_func_perm less l).trans (insertionSort_func_perm less l).symm
  · exact s1
  · exact insertionSort_func_sorted less key l hk
  · intro k
    rw [insertionSort_func_filter less key l hk k]
    exact s2 k

theorem insertionBlocks_short {α : Type} (less : α → α → Bool) (blockSize fuel : Nat)
    (data : List α) (h : data.length < blockSize) :
    insertionBlocks less blockSize fuel data = insertionSort_func less data := by
  cases fuel with
  | zero => rfl
  | succ fuel =>
    unfold insertionBlocks
    rw [if_neg (by omega)]

theorem mergeLoop_short {α : Type} (less : α → α → Bool) (fuel blockSize : Nat)
    (data : List α) (h : data.length ≤ blockSize) :
    mergeLoop less fuel blockSize data = data := by
  cases fuel with
  | zero => rfl
  | succ fuel =>
    unfold mergeLoop
    rw [if_neg (by omega)]

/-- On a slice of at most 20 elements `sort.SliceStable` is the insertion sort,
whatever `less` is. -/
theorem SliceStable_short {α : Type} (less : α → α → Bool) (l : List α) (h : l.length ≤ 20) :
    SliceStable less l = insertionSort_func less l := by
  unfold SliceStable stable_func
  have hperm := insertionBlocks_perm less 20 l.length l
  rw [mergeLoop_short less _ _ _ (by rw [hperm.length_eq]; exact h)]
  rcases Nat.lt_or_eq_of_le h with hlt | heq
  · exact insertionBlocks_short less 20 _ l hlt
  · rw [heq]
    unfold insertionBlocks
    rw [if_pos (by omega), List.take_of_length_le (by omega),
      insertionBlocks_short less 20 _ _ (by rw [List.length_drop]; omega),
      List.drop_of_length_le (by omega)]
    simp [insertionSort_func]

/-! ### The fuel is enough -/

theorem searchLoop_succ (cond : Nat → Bool) (fuel i j : Nat) :
    searchLoop cond (fuel + 1) i j
      = if i < j then
          if cond ((i + j) / 2) then searchLoop cond fuel ((i + j) / 2 + 1) j
          else searchLoop cond fuel i ((i + j) / 2)
        else i := rfl

theorem searchLoop_fuel (cond : Nat → Bool) :
    ∀ fuel i j : Nat, j - i ≤ fuel → searchLoop cond (fuel + 1) i j = searchLoop cond fuel i j := by
  intro fuel
  induction fuel with
  | zero =>
    intro i j h
    rw [searchLoop_succ, if_neg (by omega)]
    rfl
  | succ fuel ih =>
    intro i j h
    conv_lhs => rw [searchLoop_succ]
    conv_rhs => rw [searchLoop_succ]
    split_ifs with h1 h2
    · exact ih _ _ (by omega)
    · exact ih _ _ (by omega)
    · rfl

theorem symMerge_func_succ {α : Type} (less : α → α → Bool) (fuel : Nat) (data : List α)
    (m : Nat) :
    symMerge_func less (fuel + 1) data m
      = if m = 1 then
          (data.drop 1).take
              (searchLoop (fun h => lessAt less data h 0) (data.length - m) m data.length - 1)
            ++ (data.take 1 ++ data.drop
              (searchLoop (fun h => lessAt less data h 0) (data.length - m) m data.length))
        else if data.length - m = 1 then
          data.take (searchLoop (fun h => !lessAt less data m h) m 0 m)
            ++ ((data.drop m).take 1
              ++ ((data.drop (searchLoop (fun h => !lessAt less data m h) m 0 m)).take
                  (m - searchLoop (fun h => !lessAt less data m h) m 0 m)
                ++ data.drop (m + 1)))
        else
          (if 0 < symMergeStart less data m ∧ symMergeStart less data m < data.length / 2 then
              symMerge_func less fuel
                ((if symMergeStart less data m < m
                      ∧ m < data.length / 2 + m - symMergeStart less data m then
                    rotate_func data (symMergeStart less data m) m
                      (data.length / 2 + m - symMergeStart less data m)
                  else data).take (data.length / 2))
                (symMergeStart less data m)
            else
              (if symMergeStart less data m < m
                    ∧ m < data.length / 2 + m - symMergeStart less data m then
                  rotate_func data (symMergeStart less data m) m
                    (data.length / 2 + m - symMergeStart less data m)
                else data).take (data.length / 2))
            ++ (if data.length / 2 < data.length / 2 + m - symMergeStart less data m
                  ∧ data.length / 2 + m - symMergeStart less data m < data.length then
                symMerge_func less fuel
                  ((if symMergeStart less data m < m
                        ∧ m < data.length / 2 + m - symMergeStart less data m then
                      rotate_func data (symMergeStart less data m) m
                        (data.length / 2 + m - symMergeStart less data m)
                    else data).drop (data.length / 2))
                  (data.length / 2 + m - symMergeStart less data m - data.length / 2)
              else
                (if symMergeStart less data m < m
                      ∧ m < data.length / 2 + m - symMergeStart less data m then
                    rotate_func data (symMergeStart less data m) m
                      (data.length / 2 + m - symMergeStart less data m)
                  else data).drop (data.length / 2)) := rfl

theorem symMerge_func_fuel {α : Type} (less : α → α → Bool) :
    ∀ (fuel : Nat) (data : List α) (m : Nat), data.length ≤ fuel → m ≤ data.length →
      symMerge_func less (fuel + 1) data m = symMerge_func less fuel data m := by
  intro fuel
  induction fuel with
  | zero =>
    intro data m hlen hm
    have : data = [] := List.length_eq_zero.mp (Nat.le_zero.mp hlen)
    subst this
    have hm0 : m = 0 := by simpa using hm
    subst hm0
    simp [symMerge_func, symMergeStart, searchLoop]
  | succ fuel ih =>
    intro data m hlen hm
    conv_lhs => rw [symMerge_func_succ]
    conv_rhs => rw [symMerge_func_succ]
    by_cases h1 : m = 1
    · rw [if_pos h1, if_pos h1]
    · rw [if_neg h1, if_neg h1]
      by_cases h2 : data.length - m = 1
      · rw [if_pos h2, if_pos h2]
      · rw [if_neg h2, if_neg h2]
        obtain ⟨hs1, hs2, hs3⟩ := symMergeStart_bounds less data m hm
        generalize symMergeStart less data m = start at hs1 hs2 hs3 ⊢
        have hrot : (if start < m ∧ m < data.length / 2 + m - start
            then rotate_func data start m (data.length / 2 + m - start) else data).Perm data := by
          split_ifs
          · exact rotate_func_perm data start m _ hs1 (by omega)
          · exact List.Perm.refl _
        generalize (if start < m ∧ m < data.length / 2 + m - start
            then rotate_func data start m (data.length / 2 + m - start) else data) = data' at hrot ⊢
        have hlen' : data'.length = data.length := hrot.length_eq
        congr 1
        · split_ifs with hg
          · exact ih _ _ (by rw [List.length_take]; omega) (by rw [List.length_take]; omega)
          · rfl
        · split_ifs with hg
          · exact ih _ _ (by rw [List.length_drop]; omega) (by rw [List.length_drop]; omega)
          · rfl

theorem insertionBlocks_succ {α : Type} (less : α → α → Bool) (blockSize fuel : Nat)
    (data : List α) :
    insertionBlocks less blockSize (fuel + 1) data
      = if blockSize ≤ data.length then
          insertionSort_func less (data.take blockSize)
            ++ insertionBlocks less blockSize fuel (data.drop blockSize)
        else insertionSort_func less data := rfl

theorem insertionBlocks_fuel {α : Type} (less : α → α → Bool) (blockSize : Nat)
    (hbs : 1 ≤ blockSize) :
    ∀ (fuel : Nat) (data : List α), data.length ≤ fuel →
      insertionBlocks less blockSize (fuel + 1) data = insertionBlocks less blockSize fuel data := by
  intro fuel
  induction fuel with
  | zero =>
    intro data hlen
    rw [insertionBlocks_short less blockSize 1 data (by omega),
      insertionBlocks_short less blockSize 0 data (by omega)]
  | succ fuel ih =>
    intro data hlen
    conv_lhs => rw [insertionBlocks_succ]
    conv_rhs => rw [insertionBlocks_succ]
    split_ifs with h
    · rw [ih _ (by rw [List.length_drop]; omega)]
    · rfl

theorem mergePass_succ {α : Type} (less : α → α → Bool) (blockSize fuel : Nat)
    (data : List α) :
    mergePass less blockSize (fuel + 1) data
      = if 2 * blockSize ≤ data.length then
          symMerge_func less (2 * blockSize) (data.take (2 * blockSize)) blockSize
            ++ mergePass less blockSize fuel (data.drop (2 * blockSize))
        else if blockSize < data.length then symMerge_func less data.length data blockSize
        else data := rfl

theorem mergePass_fuel {α : Type} (less : α → α → Bool) (blockSize : Nat) (hbs : 1 ≤ blockSize) :
    ∀ (fuel : Nat) (data : List α), data.length ≤ fuel →
      mergePass less blockSize (fuel + 1) data = mergePass less blockSize fuel data := by
  intro fuel
  induction fuel with
  | zero =>
    intro data hlen
    rw [mergePass_succ, if_neg (by omega), if_neg (by omega)]
    rfl
  | succ fuel ih =>
    intro data hlen
    conv_lhs => rw [mergePass_succ]
    conv_rhs => rw [mergePass_succ]
    split_ifs with h1 h2
    · rw [ih _ (by rw [List.length_drop]; omega)]
    · rfl
    · rfl

theorem mergeLoop_succ {α : Type} (less : α → α → Bool) (fuel blockSize : Nat)
    (data : List α) :
    mergeLoop less (fuel + 1) blockSize data
      = if blockSize < data.length then
          mergeLoop less fuel (2 * blockSize) (mergePass less blockSize data.length data)
        else data := rfl

theorem mergeLoop_fuel {α : Type} (less : α → α → Bool) :
    ∀ (fuel blockSize : Nat) (data : List α), 1 ≤ blockSize →
      data.length ≤ blockSize * 2 ^ fuel →
      mergeLoop less (fuel + 1) blockSize data = mergeLoop less fuel blockSize data := by
  intro fuel
  induction fuel with
  | zero =>
    intro blockSize data _ hlen
    rw [mergeLoop_short less 1 blockSize data (by simpa using hlen),
      mergeLoop_short less 0 blockSize data (by simpa using hlen)]
  | succ fuel ih =>
    intro blockSize data hbs hlen
    conv_lhs => rw [mergeLoop_succ]
    conv_rhs => rw [mergeLoop_succ]
    split_ifs with h
    · exact ih _ _ (by omega)
        (by rw [(mergePass_perm less _ _ _).length_eq]; rw [Nat.pow_succ] at hlen; nlinarith)
    · rfl

/-- The result of `stable_func` does not depend on the fuel: any amount from
the length of the slice on gives the same list. -/
theorem stable_func_fuel {α : Type} (less : α → α → Bool) (data : List α) :
    ∀ fuel : Nat, data.length ≤ fuel →
      mergeLoop less fuel 20 (insertionBlocks less 20 fuel data) = stable_func less data := by
  intro fuel hfuel
  induction fuel, hfuel using Nat.le_induction with
  | base => rfl
  | succ fuel hfuel ih =>
    rw [insertionBlocks_fuel less 20 (by norm_num) fuel data hfuel,
      mergeLoop_fuel less fuel 20 _ (by norm_num) _, ih]
    rw [(insertionBlocks_perm less _ _ _).length_eq]
    have := Nat.lt_two_pow fuel
    omega


/-! ### `sort.SliceStable` -/

/-- Whatever `less` is, `sort.SliceStable` only reorders. -/
theorem SliceStable_perm {α : Type} (less : α → α → Bool) (l : List α) :
    (SliceStable less l).Perm l :=
  stable_func_perm less l

/-- When `less` is the strict order of a key on the elements of the list,
`sort.SliceStable` leaves the list in ascending order of the key. -/
theorem SliceStable_sorted {α K : Type} [LinearOrder K] (less : α → α → Bool) (key : α → K)
    (l : List α) (hk : ∀ a ∈ l, ∀ b ∈ l, (less a b = true ↔ key a < key b)) :
    (SliceStable less l).Pairwise (fun a b => key a ≤ key b) :=
  (stable_func_spec less key l hk).1

/-- When `less` is the strict order of a key on the elements of the list,
`sort.SliceStable` returns a stable rearrangement. -/
theorem SliceStable_stable {α K : Type} [LinearOrder K] (less : α → α → Bool) (key : α → K)
    (l : List α) (hk : ∀ a ∈ l, ∀ b ∈ l, (less a b = true ↔ key a < key b)) :
    StableRearrangement less l (SliceStable less l) := by
  rw [SliceStable_eq_insertionSort_func less key l hk]
  exact insertionSort_func_stable less l

/-- When `less` is the strict order of a key on the elements of the list,
`sort.SliceStable` returns what the insertion sort by that key returns. -/
theorem SliceStable_eq_insertionSort {α K : Type} [LinearOrder K] (less : α → α → Bool)
    (key : α → K) (l : List α) (hk : ∀ a ∈ l, ∀ b ∈ l, (less a b = true ↔ key a < key b)) :
    SliceStable less l = l.insertionSort (fun a b => key a ≤ key b) :=
  (SliceStable_eq_insertionSort_func less key l hk).trans
    (insertionSort_func_eq_insertionSort less key l hk)

/-! ### `sorting` -/

theorem sorting_price (l : Trains) :
    sorting l priceCriteria = SliceStable (fun ti tj => Float32.lt ti.Price tj.Price) l := by
  have h1 : priceCriteria ≠ arrivalTimeCriteria := by decide
  have h2 : priceCriteria ≠ departureTimeCriteria := by decide
  simp [sorting, h1, h2]

theorem sorting_arrivalTime (l : Trains) :
    sorting l arrivalTimeCriteria
      = SliceStable (fun ti tj => Time.Before ti.ArrivalTime tj.ArrivalTime) l := by
  have h1 : arrivalTimeCriteria ≠ priceCriteria := by decide
  have h2 : arrivalTimeCriteria ≠ departureTimeCriteria := by decide
  simp [sorting, h1, h2]

theorem sorting_departureTime (l : Trains) :
    sorting l departureTimeCriteria
      = SliceStable (fun ti tj => Time.Before ti.DepartureTime tj.DepartureTime) l := by
  have h1 : departureTimeCriteria ≠ priceCriteria := by decide
  have h2 : departureTimeCriteria ≠ arrivalTimeCriteria := by decide
  simp [sorting, h1, h2]

theorem sorting_other (l : Trains) (c : String) (h1 : c ≠ priceCriteria)
    (h2 : c ≠ arrivalTimeCriteria) (h3 : c ≠ departureTimeCriteria) : sorting l c = l := by
  simp [sorting, h1, h2, h3]

theorem Float32.lt_iff_scaled {a b : Float32} (ha : a.isNaN = false) (hb : b.isNaN = false) :
    Float32.lt a b = true ↔ a.scaled < b.scaled := by
  simp [Float32.lt, ha, hb]

theorem Float32.le_iff_scaled {a b : Float32} (ha : a.isNaN = false) (hb : b.isNaN = false) :
    Float32.le a b = true ↔ a.scaled ≤ b.scaled := by
  simp [Float32.le, ha, hb]

theorem Float32.isNaN_of_isFinite {a : Float32} (h : a.isFinite = true) : a.isNaN = false := by
  simp only [Float32.isFinite, decide_eq_true_eq] at h
  simp only [Float32.isNaN, Bool.and_eq_false_imp, beq_iff_eq]
  intro h2
  omega

theorem Time.Before_iff_instant {t u : Time} (ht : t.mono = none) :
    Time.Before t u = true ↔ t.instant < u.instant := by
  unfold Time.Before Time.instant
  rw [Prod.Lex.lt_iff, ht]
  simp

theorem Time.Before_iff_mono {t u : Time} (ht : t.mono ≠ none) (hu : u.mono ≠ none) :
    Time.Before t u = true ↔ t.mono.getD 0 < u.mono.getD 0 := by
  unfold Time.Before
  cases hm : t.mono with
  | none => exact absurd hm ht
  | some a =>
    cases hn : u.mono with
    | none => exact absurd hn hu
    | some b => simp

/-- On a list whose times of one field either all carry a monotonic reading or
none does, `Before` on that field is the strict order of a key: the reading,
or the wall-clock instant. -/
theorem Before_key (field : Train → Time) (l : Trains)
    (h : (∀ t ∈ l, (field t).mono = none) ∨ (∀ t ∈ l, (field t).mono ≠ none)) :
    ∃ key : Train → Int ×ₗ Nat, ∀ a ∈ l, ∀ b ∈ l,
      (Time.Before (field a) (field b) = true ↔ key a < key b) := by
  rcases h with h | h
  · exact ⟨fun t => (field t).instant, fun a ha _ _ => Time.Before_iff_instant (h a ha)⟩
  · refine ⟨fun t => toLex ((field t).mono.getD 0, 0), fun a ha b hb => ?_⟩
    rw [Time.Before_iff_mono (h a ha) (h b hb), Prod.Lex.lt_iff]
    simp

/-- In a stable rearrangement two records that compare equal stand in the
output in their input order. -/
theorem StableRearrangement.pair_sublist {α : Type} {less : α → α → Bool}
    {input output : List α} (h : StableRearrangement less input output)
    (i j : Fin input.length) (hij : i < j)
    (h1 : less (input.get i) (input.get j) = false)
    (h2 : less (input.get j) (input.get i) = false) :
    [input.get i, input.get j].Sublist output := by
  obtain ⟨p, _, rfl, hp⟩ := h
  exact (hp i j hij h1 h2).map input.get

/-- C2, as stated, fails. By price: in `nanRecords` the record with the NaN
price stands before the record priced 1 and neither price is less than the
other, yet `sorting` moves the record priced 1 to the front, past the NaN.
By arrival time: in `monoRecords`, whose times are all values that Go
represents, records 20 and 21 show the same wall-clock instant, so neither is
before the other, yet `sorting` moves record 21 to the front: it is before the
first nineteen by the wall clock, while record 20 is after them by the
monotonic clock. -/
theorem sorting_stable_fails_on_NaN_and_monotonic :
    ¬ StableRearrangement (fun ti tj => Float32.lt ti.Price tj.Price) nanRecords
        (sorting nanRecords priceCriteria) ∧
      (∀ t ∈ monoRecords,
        t.ArrivalTime.representable = true ∧ t.DepartureTime.representable = true) ∧
      (sorting monoRecords arrivalTimeCriteria).map (fun t => t.TrainID)
        = [21, 1, 2, 3, 4, 5, 6, 7, 8, 9, 10, 11, 12, 13, 14, 15, 16, 17, 18, 19, 20] ∧
      ¬ StableRearrangement (fun ti tj => Time.Before ti.ArrivalTime tj.ArrivalTime)
        monoRecords (sorting monoRecords arrivalTimeCriteria) := by
  refine ⟨?_, by decide, by decide, ?_⟩
  · intro h
    have := h.pair_sublist ⟨19, by decide⟩ ⟨20, by decide⟩ (by decide) (by decide) (by decide)
    revert this
    decide
  · intro h
    have := h.pair_sublist ⟨19, by decide⟩ ⟨20, by decide⟩ (by decide) (by decide) (by decide)
    revert this
    decide

/-- C2 (amended): `sorting` is stable for each of the three criteria on every
input list whose keys of that criterion can be compared: by price when no
price is NaN, by arrival time (departure time) when the arrival (departure)
times either all carry a monotonic clock reading or none does. On such a list
the output is a rearrangement of the input in which any two records that
compare equal under the criterion (neither is less than the other) keep their
input order. -/
theorem sorting_stable (l : Trains) :
    ((∀ t ∈ l, t.Price.isNaN = false) →
        StableRearrangement (fun ti tj => Float32.lt ti.Price tj.Price) l
          (sorting l priceCriteria)) ∧
      (((∀ t ∈ l, t.ArrivalTime.mono = none) ∨ (∀ t ∈ l, t.ArrivalTime.mono ≠ none)) →
        StableRearrangement (fun ti tj => Time.Before ti.ArrivalTime tj.ArrivalTime) l
          (sorting l arrivalTimeCriteria)) ∧
      (((∀ t ∈ l, t.DepartureTime.mono = none) ∨ (∀ t ∈ l, t.DepartureTime.mono ≠ none)) →
        StableRearrangement (fun ti tj => Time.Before ti.DepartureTime tj.DepartureTime) l
          (sorting l departureTimeCriteria)) := by
  rw [sorting_price, sorting_arrivalTime, sorting_departureTime]
  refine ⟨fun h => ?_, fun h => ?_, fun h => ?_⟩
  · exact SliceStable_stable _ (fun t : Train => t.Price.scaled) l
      (fun a ha b hb => Float32.lt_iff_scaled (h a ha) (h b hb))
  · obtain ⟨key, hk⟩ := Before_key (fun t => t.ArrivalTime) l h
    exact SliceStable_stable _ key l hk
  · obtain ⟨key, hk⟩ := Before_key (fun t => t.DepartureTime) l h
    exact SliceStable_stable _ key l hk

theorem sorting_stable_witness :
    StableRearrangement (fun ti tj => Float32.lt ti.Price tj.Price) scenarioRecords
        (sorting scenarioRecords priceCriteria) ∧
      StableRearrangement (fun ti tj => Time.Before ti.ArrivalTime tj.ArrivalTime)
        nanRecords (sorting nanRecords arrivalTimeCriteria) ∧
      StableRearrangement (fun ti tj => Time.Before ti.DepartureTime tj.DepartureTime)
        monoRecords (sorting monoRecords departureTimeCriteria) :=
  ⟨(sorting_stable scenarioRecords).1 (by decide),
    (sorting_stable nanRecords).2.1 (Or.inl (by decide)),
    (sorting_stable monoRecords).2.2 (Or.inl (by decide))⟩

/-- With no NaN among the prices, `SliceStable` by price leaves the prices in
ascending order. -/
theorem SliceStable_price_sorted (l : Trains) (hnan : ∀ t ∈ l, t.Price.isNaN = false) :
    (SliceStable (fun ti tj => Float32.lt ti.Price tj.Price) l).Pairwise
      (fun a b => a.Price.scaled ≤ b.Price.scaled) :=
  SliceStable_sorted _ (fun t : Train => t.Price.scaled) l
    (fun a ha b hb => Float32.lt_iff_scaled (hnan a ha) (hnan b hb))

/-- C3, as stated, fails: a list holding a NaN price and the price 1 is not in
ascending order of `Price` after `sorting` by price (no order of the two
records is, `NaN <= 1` and `1 <= NaN` both being false). -/
theorem sorting_price_ascending_fails_on_NaN :
    ¬ (∀ (l : Trains) (i : Nat) (a b : Train),
        (sorting l priceCriteria)[i]? = some a → (sorting l priceCriteria)[i + 1]? = some b →
        Float32.le a.Price b.Price = true) := by
  intro h
  have h0 := h [exampleTrain 1 f32NaN (clockDate 9 0 0 0) (clockDate 8 0 0 0),
      exampleTrain 2 f32One (clockDate 9 0 0 0) (clockDate 8 0 0 0)] 0
    (exampleTrain 1 f32NaN (clockDate 9 0 0 0) (clockDate 8 0 0 0))
    (exampleTrain 2 f32One (clockDate 9 0 0 0) (clockDate 8 0 0 0)) (by decide) (by decide)
  revert h0
  decide

/-- C3 (amended): for every list of trains none of whose prices is NaN, after
`sorting` with criterion "price" the price at each position is less than or
equal to the price at the next position. -/
theorem sorting_price_ascending (l : Trains) (hnan : ∀ t ∈ l, t.Price.isNaN = false)
    (i : Nat) (a b : Train) (ha : (sorting l priceCriteria)[i]? = some a)
    (hb : (sorting l priceCriteria)[i + 1]? = some b) :
    Float32.le a.Price b.Price = true := by
  rw [sorting_price] at ha hb
  have hs := SliceStable_price_sorted l hnan
  obtain ⟨hi, rfl⟩ := List.getElem?_eq_some.mp ha
  obtain ⟨hj, rfl⟩ := List.getElem?_eq_some.mp hb
  have hperm := SliceStable_perm (fun ti tj : Train => Float32.lt ti.Price tj.Price) l
  have hle := List.pairwise_iff_getElem.mp hs i (i + 1) hi hj (Nat.lt_succ_self i)
  exact (Float32.le_iff_scaled
    (hnan _ (hperm.mem_iff.mp (List.getElem_mem hi)))
    (hnan _ (hperm.mem_iff.mp (List.getElem_mem hj)))).mpr hle


theorem sorting_price_ascending_witness :
    Float32.le f32Ten f32Twenty = true :=
  sorting_price_ascending
    [exampleTrain 1 f32Thirty (clockDate 9 0 0 0) (clockDate 8 0 0 0),
      exampleTrain 2 f32Ten (clockDate 9 0 0 0) (clockDate 8 0 0 0),
      exampleTrain 3 f32Twenty (clockDate 9 0 0 0) (clockDate 8 0 0 0)]
    (by decide) 0
    (exampleTrain 2 f32Ten (clockDate 9 0 0 0) (clockDate 8 0 0 0))
    (exampleTrain 3 f32Twenty (clockDate 9 0 0 0) (clockDate 8 0 0 0))
    (by decide) (by decide)

/-- Whatever the criterion, `sorting` returns a permutation of its input. -/
theorem sorting_perm_input (l : Trains) (criteria : String) : (sorting l criteria).Perm l := by
  unfold sorting
  split_ifs
  all_goals
    first
    | exact List.Perm.refl _
    | exact SliceStable_perm _ _
    | exact (SliceStable_perm _ _).trans (SliceStable_perm _ _)
    | exact (SliceStable_perm _ _).trans ((SliceStable_perm _ _).trans (SliceStable_perm _ _))

/-- C5: `sorting` only reorders: for every list and every criterion string the
output is a permutation of the input (the same records, each as often as in
the input, none of them altered), of the same length. -/
theorem sorting_perm (l : Trains) (criteria : String) :
    (sorting l criteria).Perm l ∧ (sorting l criteria).length = l.length :=
  ⟨sorting_perm_input l criteria, (sorting_perm_input l criteria).length_eq⟩

/-! ### Times produced by the parser -/

/-- Every time the parser returns lies on January 1 of year 0 and carries no
monotonic reading. -/
theorem timeParse_day {s : String} {t : Time} (h : timeParse s = some t) :
    t.mono = none ∧ ∃ d : Nat, d < 86400 ∧ t.sec = (d : Int) - 366 * 86400 := by
  unfold timeParse at h
  split at h
  · exact absurd h (by simp)
  · next hour v1 _ =>
    split_ifs at h with hh
    split at h
    · exact absurd h (by simp)
    · next v2 _ =>
      split at h
      · exact absurd h (by simp)
      · next min v3 _ =>
        split_ifs at h with hm
        split at h
        · exact absurd h (by simp)
        · next v4 _ =>
          split at h
          · exact absurd h (by simp)
          · next sec v5 _ =>
            split_ifs at h with hs
            simp only [ne_eq, ite_not] at h
            split_ifs at h
            simp only [Option.some.injEq] at h
            subst h
            refine ⟨rfl, hour * 3600 + min * 60 + sec, by omega, ?_⟩
            simp [clockDate]

theorem earlierInDay_iff_instant {t u : Time}
    (ht : ∃ d : Nat, d < 86400 ∧ t.sec = (d : Int) - 366 * 86400)
    (hu : ∃ d : Nat, d < 86400 ∧ u.sec = (d : Int) - 366 * 86400) :
    Time.earlierInDay t u ↔ t.instant < u.instant := by
  obtain ⟨d, hd, hts⟩ := ht
  obtain ⟨e, he, hus⟩ := hu
  unfold Time.earlierInDay Time.instant
  rw [Prod.Lex.lt_iff]
  have h1 : t.sec % 86400 = d := by omega
  have h2 : u.sec % 86400 = e := by omega
  rw [h1, h2]
  constructor
  · rintro (h | ⟨h, h'⟩)
    · left; show t.sec < u.sec; omega
    · right; exact ⟨by show t.sec = u.sec; omega, h'⟩
  · rintro (h | ⟨h, h'⟩)
    · left; have : t.sec < u.sec := h; omega
    · right; have : t.sec = u.sec := h; exact ⟨by omega, h'⟩

/-- `SliceStable` by a time field whose values all come from the parser leaves
no record before one with a strictly earlier time of day in that field. -/
theorem SliceStable_time_sorted (field : Train → Time) (l : Trains)
    (hp : ∀ t ∈ l, ∃ s : String, timeParse s = some (field t)) :
    (SliceStable (fun ti tj => Time.Before (field ti) (field tj)) l).Pairwise
      (fun a b => ¬ Time.earlierInDay (field b) (field a)) := by
  have hday : ∀ t ∈ l, (field t).mono = none ∧
      ∃ d : Nat, d < 86400 ∧ (field t).sec = (d : Int) - 366 * 86400 := by
    intro t ht
    obtain ⟨s, hs⟩ := hp t ht
    exact timeParse_day hs
  have hs := SliceStable_sorted (fun ti tj : Train => Time.Before (field ti) (field tj))
    (fun t : Train => (field t).instant) l
    (fun a ha _ _ => Time.Before_iff_instant (hday a ha).1)
  have hperm := SliceStable_perm (fun ti tj : Train => Time.Before (field ti) (field tj)) l
  rw [List.pairwise_iff_getElem] at hs ⊢
  intro i j hi hj hij
  have hmi := hperm.mem_iff.mp (List.getElem_mem hi)
  have hmj := hperm.mem_iff.mp (List.getElem_mem hj)
  rw [earlierInDay_iff_instant (hday _ hmj).2 (hday _ hmi).2]
  exact not_lt.mpr (hs i j hi hj hij)

/-- C4: for every list of trains whose times were produced by the parser,
after `sorting` with criterion "arrival-time" (respectively "departure-time")
no record is followed by a record with a strictly earlier time of day in
`ArrivalTime` (respectively `DepartureTime`). -/
theorem sorting_time_ascending (l : Trains)
    (hparsed : ∀ t ∈ l, (∃ s : String, timeParse s = some t.ArrivalTime) ∧
      (∃ s : String, timeParse s = some t.DepartureTime)) :
    (sorting l arrivalTimeCriteria).Pairwise
        (fun a b => ¬ Time.earlierInDay b.ArrivalTime a.ArrivalTime) ∧
      (sorting l departureTimeCriteria).Pairwise
        (fun a b => ¬ Time.earlierInDay b.DepartureTime a.DepartureTime) := by
  rw [sorting_arrivalTime, sorting_departureTime]
  exact ⟨SliceStable_time_sorted (fun t => t.ArrivalTime) l (fun t ht => (hparsed t ht).1),
    SliceStable_time_sorted (fun t => t.DepartureTime) l (fun t ht => (hparsed t ht).2)⟩

theorem sorting_time_ascending_witness :
    (sorting
        [exampleTrain 1 f32Ten (clockDate 18 30 0 0) (clockDate 9 15 0 0),
          exampleTrain 2 f32Ten (clockDate 12 0 0 0) (clockDate 10 0 0 0)]
        arrivalTimeCriteria).Pairwise
        (fun a b => ¬ Time.earlierInDay b.ArrivalTime a.ArrivalTime) ∧
      (sorting
        [exampleTrain 1 f32Ten (clockDate 18 30 0 0) (clockDate 9 15 0 0),
          exampleTrain 2 f32Ten (clockDate 12 0 0 0) (clockDate 10 0 0 0)]
        departureTimeCriteria).Pairwise
        (fun a b => ¬ Time.earlierInDay b.DepartureTime a.DepartureTime) :=
  sorting_time_ascending _ (by
    intro t ht
    simp only [List.mem_cons, List.mem_singleton, List.not_mem_nil, or_false] at ht
    rcases ht with rfl | rfl
    · exact ⟨⟨"18:30:00", by decide⟩, ⟨"09:15:00", by decide⟩⟩
    · exact ⟨⟨"12:00:00", by decide⟩, ⟨"10:00:00", by decide⟩⟩)

/-! ### `sorting` on decoded records is the ascending stable sort -/

theorem notLaterInDay_iff_instant {t u : Time}
    (ht : ∃ d : Nat, d < 86400 ∧ t.sec = (d : Int) - 366 * 86400)
    (hu : ∃ d : Nat, d < 86400 ∧ u.sec = (d : Int) - 366 * 86400) :
    Time.notLaterInDay t u = true ↔ t.instant ≤ u.instant := by
  obtain ⟨d, hd, hts⟩ := ht
  obtain ⟨e, he, hus⟩ := hu
  unfold Time.notLaterInDay Time.instant
  rw [Prod.Lex.le_iff, decide_eq_true_eq]
  have h1 : t.sec % 86400 = d := by omega
  have h2 : u.sec % 86400 = e := by omega
  rw [h1, h2]
  constructor
  · rintro (h | ⟨h, h'⟩)
    · left; show t.sec < u.sec; omega
    · right; exact ⟨by show t.sec = u.sec; omega, h'⟩
  · rintro (h | ⟨h, h'⟩)
    · left; have : t.sec < u.sec := h; omega
    · right; have : t.sec = u.sec := h; exact ⟨by omega, h'⟩

theorem Decoded.filter {R : Trains} (h : Decoded R) (p : Train → Bool) : Decoded (R.filter p) :=
  fun t ht => h t (List.mem_of_mem_filter ht)

theorem SliceStable_price_eq (l : Trains) (hnan : ∀ t ∈ l, t.Price.isNaN = false) :
    SliceStable (fun ti tj => Float32.lt ti.Price tj.Price) l
      = l.insertionSort (fun a b => Float32.le a.Price b.Price = true) := by
  rw [SliceStable_eq_insertionSort _ (fun t : Train => t.Price.scaled) l
    (fun a ha b hb => Float32.lt_iff_scaled (hnan a ha) (hnan b hb))]
  apply insertionSort_congr
  intro a ha b hb
  exact (Float32.le_iff_scaled (hnan a ha) (hnan b hb)).symm

theorem SliceStable_time_eq (field : Train → Time) (l : Trains)
    (hp : ∀ t ∈ l, ∃ s : String, timeParse s = some (field t)) :
    SliceStable (fun ti tj => Time.Before (field ti) (field tj)) l
      = l.insertionSort (fun a b => Time.notLaterInDay (field a) (field b) = true) := by
  have hday : ∀ t ∈ l, (field t).mono = none ∧
      ∃ d : Nat, d < 86400 ∧ (field t).sec = (d : Int) - 366 * 86400 := by
    intro t ht
    obtain ⟨s, hs⟩ := hp t ht
    exact timeParse_day hs
  rw [SliceStable_eq_insertionSort _ (fun t : Train => (field t).instant) l
    (fun a ha _ _ => Time.Before_iff_instant (hday a ha).1)]
  apply insertionSort_congr
  intro a ha b hb
  exact (notLaterInDay_iff_instant (hday a ha).2 (hday b hb).2).symm

/-- On decoded records and for each of the three criteria, `sorting` returns
the ascending stable sort of the specification. -/
theorem sorting_eq_insertionSort (l : Trains) (c : String) (hdec : Decoded l)
    (hc : c = priceCriteria ∨ c = arrivalTimeCriteria ∨ c = departureTimeCriteria) :
    sorting l c = l.insertionSort (fun a b => ascendingBy c a b = true) := by
  rcases hc with rfl | rfl | rfl
  · rw [sorting_price, SliceStable_price_eq l
      (fun t ht => Float32.isNaN_of_isFinite (hdec t ht).1)]
    rfl
  · rw [sorting_arrivalTime, SliceStable_time_eq (fun t => t.ArrivalTime) l
      (fun t ht => (hdec t ht).2.1)]
    rfl
  · rw [sorting_departureTime, SliceStable_time_eq (fun t => t.DepartureTime) l
      (fun t ht => (hdec t ht).2.2)]
    rfl

/-! ### `parameterValidity` and `FindTrains` -/

/-- What a query that passes `parameterValidity` satisfies. -/
theorem parameterValidity_none {departureStation arrivalStation criteria : String}
    {dep arr : Int} {c : String}
    (h : parameterValidity departureStation arrivalStation criteria = (dep, arr, c, none)) :
    departureStation ≠ "" ∧ arrivalStation ≠ "" ∧
      Atoi departureStation = (dep, none) ∧ 1 ≤ dep ∧
      Atoi arrivalStation = (arr, none) ∧ 1 ≤ arr ∧ c = criteria ∧
      (criteria = priceCriteria ∨ criteria = arrivalTimeCriteria
        ∨ criteria = departureTimeCriteria) := by
  unfold parameterValidity at h
  rcases hd : Atoi departureStation with ⟨vd, ed⟩
  rcases ha : Atoi arrivalStation with ⟨va, ea⟩
  simp only [hd, ha] at h
  split_ifs at h with h1 h2 h3 h4 h5 <;>
    simp only [Prod.mk.injEq, reduceCtorEq, and_false, and_true] at h
  obtain ⟨rfl, rfl, rfl⟩ := h
  simp only [ne_eq, not_or, not_not, not_lt] at h3 h4
  obtain ⟨h3a, rfl⟩ := h3
  obtain ⟨h4a, rfl⟩ := h4
  refine ⟨h1, h2, rfl, h3a, rfl, h4a, rfl, ?_⟩
  by_contra hcon
  simp only [not_or] at hcon
  exact h5 ⟨hcon.1, hcon.2.1, hcon.2.2⟩

/-- When the array decodes to the records `R` and the query passes validation,
`FindTrains` returns the first three of the sorted selection, and no error. -/
theorem FindTrains_ok {elements : List Element} {R : Trains}
    (hdecoded : Unmarshal elements = Outcome.returns (Except.ok R))
    {departureStation arrivalStation criteria : String} {dep arr : Int} {c : String}
    (h : parameterValidity departureStation arrivalStation criteria = (dep, arr, c, none)) :
    FindTrains (Except.ok elements) departureStation arrivalStation criteria
      = Outcome.returns ((sorting (R.filter (matching dep arr)) c).take 3, none) := by
  unfold FindTrains
  simp only [hdecoded, h, selection_filter, lenResoult]
  congr 2
  split_ifs with hlen
  · rfl
  · exact (List.take_of_length_le (not_lt.mp hlen)).symm

theorem sorting_pairwise_ascending (l : Trains) (c : String) (hdec : Decoded l)
    (hc : c = priceCriteria ∨ c = arrivalTimeCriteria ∨ c = departureTimeCriteria) :
    (sorting l c).Pairwise (fun a b => ascendingBy c a b = true) := by
  have hdec' : Decoded (sorting l c) :=
    fun t ht => hdec t ((sorting_perm_input l c).mem_iff.mp ht)
  have hday : ∀ {s : String} {t : Time}, timeParse s = some t →
      ∃ d : Nat, d < 86400 ∧ t.sec = (d : Int) - 366 * 86400 := fun h => (timeParse_day h).2
  rcases hc with rfl | rfl | rfl
  · have hs := SliceStable_price_sorted l (fun t ht => Float32.isNaN_of_isFinite (hdec t ht).1)
    rw [← sorting_price] at hs
    refine hs.imp_of_mem ?_
    intro a b ha hb hab
    show (if priceCriteria = priceCriteria then _ else _) = true
    rw [if_pos rfl]
    exact (Float32.le_iff_scaled (Float32.isNaN_of_isFinite (hdec' a ha).1)
      (Float32.isNaN_of_isFinite (hdec' b hb).1)).mpr hab
  · have hs := SliceStable_sorted
      (fun ti tj : Train => Time.Before ti.ArrivalTime tj.ArrivalTime)
      (fun t : Train => t.ArrivalTime.instant) l
      (fun a ha _ _ => by
        obtain ⟨s, hs⟩ := (hdec a ha).2.1
        exact Time.Before_iff_instant (timeParse_day hs).1)
    rw [← sorting_arrivalTime] at hs
    refine hs.imp_of_mem ?_
    intro a b ha hb hab
    obtain ⟨sa, hsa⟩ := (hdec' a ha).2.1
    obtain ⟨sb, hsb⟩ := (hdec' b hb).2.1
    have h1 : arrivalTimeCriteria ≠ priceCriteria := by decide
    show (if arrivalTimeCriteria = priceCriteria then _ else _) = true
    rw [if_neg h1, if_pos rfl]
    exact (notLaterInDay_iff_instant (hday hsa) (hday hsb)).mpr hab
  · have hs := SliceStable_sorted
      (fun ti tj : Train => Time.Before ti.DepartureTime tj.DepartureTime)
      (fun t : Train => t.DepartureTime.instant) l
      (fun a ha _ _ => by
        obtain ⟨s, hs⟩ := (hdec a ha).2.2
        exact Time.Before_iff_instant (timeParse_day hs).1)
    rw [← sorting_departureTime] at hs
    refine hs.imp_of_mem ?_
    intro a b ha hb hab
    obtain ⟨sa, hsa⟩ := (hdec' a ha).2.2
    obtain ⟨sb, hsb⟩ := (hdec' b hb).2.2
    have h1 : departureTimeCriteria ≠ priceCriteria := by decide
    have h2 : departureTimeCriteria ≠ arrivalTimeCriteria := by decide
    show (if departureTimeCriteria = priceCriteria then _ else _) = true
    rw [if_neg h1, if_neg h2, if_pos rfl]
    exact (notLaterInDay_iff_instant (hday hsa) (hday hsb)).mpr hab

theorem scenarioRecords_decoded : Decoded scenarioRecords := by
  intro t ht
  simp only [scenarioRecords, List.mem_cons, List.mem_singleton, List.not_mem_nil,
    or_false] at ht
  rcases ht with rfl | rfl | rfl | rfl | rfl | rfl <;>
    exact ⟨by decide, ⟨"12:00:00", by decide⟩, ⟨"09:15:00", by decide⟩⟩

/-- The array of the scenario decodes to the records of the scenario. -/
theorem scenarioElements_decoded :
    Unmarshal scenarioElements = Outcome.returns (Except.ok scenarioRecords) := by
  have h1 : timeParse "12:00:00" = some noon := by decide
  have h2 : timeParse "09:15:00" = some nineFifteen := by decide
  simp only [scenarioElements, exampleObject, Unmarshal, UnmarshalJSON, h1, h2]
  rfl

/-- C6: when `data.json` decodes to the records `R` and the query passes
validation with stations `dep` and `arr`, `FindTrains` returns `min 3 m`
records and no error, `m` being the number of records of `R` that match both
stations. -/
theorem FindTrains_length (elements : List Element) (R : Trains)
    (departureStation arrivalStation criteria : String) (dep arr : Int) (c : String)
    (hdecoded : Unmarshal elements = Outcome.returns (Except.ok R))
    (hvalid : parameterValidity departureStation arrivalStation criteria = (dep, arr, c, none)) :
    ∃ result : Trains,
      FindTrains (Except.ok elements) departureStation arrivalStation criteria
        = Outcome.returns (result, none) ∧
      result.length = min 3 (R.filter (matching dep arr)).length := by
  refine ⟨_, FindTrains_ok hdecoded hvalid, ?_⟩
  simp only [List.length_take]
  rw [(sorting_perm_input _ c).length_eq]

theorem FindTrains_length_witness :
    ∃ result : Trains,
      FindTrains (Except.ok scenarioElements) "1" "2" "price" = Outcome.returns (result, none) ∧
      result.length = min 3 (scenarioRecords.filter (matching 1 2)).length :=
  FindTrains_length scenarioElements scenarioRecords "1" "2" "price" 1 2 "price"
    scenarioElements_decoded (by decide)

/-- C7: when `data.json` decodes to the records `R` and the query passes
validation with stations `dep`, `arr` and criterion `c`, `FindTrains` returns,
with no error, the first three (or all, if fewer) of the stable ascending sort
by `c` of the records of `R` matching `dep` and `arr`. -/
theorem FindTrains_refines_spec (elements : List Element) (R : Trains)
    (departureStation arrivalStation criteria : String) (dep arr : Int) (c : String)
    (hdecoded : Unmarshal elements = Outcome.returns (Except.ok R)) (hdec : Decoded R)
    (hvalid : parameterValidity departureStation arrivalStation criteria = (dep, arr, c, none)) :
    FindTrains (Except.ok elements) departureStation arrivalStation criteria
      = Outcome.returns (specFindTrains R dep arr c, none) := by
  obtain ⟨_, _, _, _, _, _, hc, hcrit⟩ := parameterValidity_none hvalid
  rw [FindTrains_ok hdecoded hvalid, specFindTrains,
    sorting_eq_insertionSort _ c (hdec.filter _) (hc ▸ hcrit)]

theorem FindTrains_refines_spec_witness :
    FindTrains (Except.ok scenarioElements) "1" "2" "price"
      = Outcome.returns
        ([exampleTrain 2 f32Ten noon nineFifteen, exampleTrain 4 f32Ten noon nineFifteen,
          exampleTrain 5 f32Twenty noon nineFifteen], none) :=
  (FindTrains_refines_spec scenarioElements scenarioRecords "1" "2" "price" 1 2 "price"
    scenarioElements_decoded scenarioRecords_decoded (by decide)).trans
    (congrArg (fun l : Trains => Outcome.returns (l, (none : Option Error))) (by decide))

/-- C8: when `data.json` decodes to the records `R` and the query passes
validation, `FindTrains` returns, with no error, the best matching records
under the criterion: the matching records split into the returned ones and
the rest, `min 3 m` records are returned out of the `m` matching ones, the
returned records stand in ascending order, and every returned record is less
than or equal to every record of the rest under the criterion. With the
criterion `price` the result is the three cheapest matching records: the price
of every returned record is at most the price of every record left out. -/
theorem FindTrains_best (elements : List Element) (R : Trains)
    (departureStation arrivalStation criteria : String) (dep arr : Int) (c : String)
    (hdecoded : Unmarshal elements = Outcome.returns (Except.ok R)) (hdec : Decoded R)
    (hvalid : parameterValidity departureStation arrivalStation criteria = (dep, arr, c, none)) :
    ∃ result rest : Trains,
      FindTrains (Except.ok elements) departureStation arrivalStation criteria
        = Outcome.returns (result, none) ∧
      (R.filter (matching dep arr)).Perm (result ++ rest) ∧
      result.length = min 3 (R.filter (matching dep arr)).length ∧
      result.Pairwise (fun a b => ascendingBy c a b = true) ∧
      (∀ r ∈ result, ∀ q ∈ rest, ascendingBy c r q = true) ∧
      (c = "price" → ∀ r ∈ result, ∀ q ∈ rest, Float32.le r.Price q.Price = true) := by
  obtain ⟨_, _, _, _, _, _, hc, hcrit⟩ := parameterValidity_none hvalid
  have hs := sorting_pairwise_ascending (R.filter (matching dep arr)) c (hdec.filter _)
    (hc ▸ hcrit)
  rw [← List.take_append_drop 3 (sorting (R.filter (matching dep arr)) c)] at hs
  have hbest := (List.pairwise_append.mp hs).2.2
  refine ⟨(sorting (R.filter (matching dep arr)) c).take 3,
    (sorting (R.filter (matching dep arr)) c).drop 3, FindTrains_ok hdecoded hvalid, ?_, ?_,
    (List.pairwise_append.mp hs).1, hbest, ?_⟩
  · rw [List.take_append_drop]
    exact (sorting_perm_input _ c).symm
  · simp only [List.length_take]
    rw [(sorting_perm_input _ c).length_eq]
  · intro hprice r hr q hq
    have h := hbest r hr q hq
    rw [hprice] at h
    exact h

theorem FindTrains_best_witness :
    ∃ result rest : Trains,
      FindTrains (Except.ok scenarioElements) "1" "2" "price" = Outcome.returns (result, none) ∧
      (scenarioRecords.filter (matching 1 2)).Perm (result ++ rest) ∧
      result.length = min 3 (scenarioRecords.filter (matching 1 2)).length ∧
      result.Pairwise (fun a b => ascendingBy "price" a b = true) ∧
      (∀ r ∈ result, ∀ q ∈ rest, ascendingBy "price" r q = true) ∧
      ("price" = "price" → ∀ r ∈ result, ∀ q ∈ rest, Float32.le r.Price q.Price = true) :=
  FindTrains_best scenarioElements scenarioRecords "1" "2" "price" 1 2 "price"
    scenarioElements_decoded scenarioRecords_decoded (by decide)

/-! ### `strconv.Atoi` reads base-10 integers -/

theorem isDecimalDigit_iff (c : Char) :
    isDecimalDigit c = true ↔ 48 ≤ c.toNat ∧ c.toNat ≤ 57 := by
  simp [isDecimalDigit]

theorem foldl_digits_ge (ds : List Char) :
    ∀ n : Nat, n ≤ ds.foldl (fun n c => n * 10 + (c.toNat - '0'.toNat)) n := by
  induction ds with
  | nil => intro n; exact Nat.le_refl n
  | cons c cs ih =>
    intro n
    rw [List.foldl_cons]
    exact Nat.le_trans (by omega) (ih _)

theorem atoiFastLoop_eq (ds : List Char) :
    ∀ n : Nat, atoiFastLoop ds n
      = if ds.all isDecimalDigit = true
        then some (ds.foldl (fun n c => n * 10 + (c.toNat - '0'.toNat)) n) else none := by
  induction ds with
  | nil => intro n; simp [atoiFastLoop]
  | cons c cs ih =>
    intro n
    by_cases hc : 48 ≤ c.toNat ∧ c.toNat ≤ 57
    · have hd : isDecimalDigit c = true := (isDecimalDigit_iff c).mpr hc
      have hc' : '0'.toNat ≤ c.toNat ∧ c.toNat ≤ '9'.toNat := hc
      rw [atoiFastLoop, if_pos hc', ih, List.all_cons, hd, Bool.true_and, List.foldl_cons]
    · have hd : isDecimalDigit c = false := by
        rw [← Bool.not_eq_true, isDecimalDigit_iff]; exact hc
      have hc' : ¬ ('0'.toNat ≤ c.toNat ∧ c.toNat ≤ '9'.toNat) := hc
      rw [atoiFastLoop, if_neg hc', List.all_cons, hd, Bool.false_and, if_neg (by simp)]

theorem parseUintLoop_cons_digit (c : Char) (cs : List Char) (n : Nat)
    (hc : 48 ≤ c.toNat ∧ c.toNat ≤ 57) :
    parseUintLoop (c :: cs) n
      = if n ≥ 1844674407370955162 then (18446744073709551615, some NumError.ErrRange)
        else if (n * 10 + (c.toNat - 48)) % 18446744073709551616 < n * 10
          then (18446744073709551615, some NumError.ErrRange)
        else parseUintLoop cs ((n * 10 + (c.toNat - 48)) % 18446744073709551616) := by
  have hd : ¬ (c.toNat - 48 ≥ 10) := by omega
  have hmax : ∀ m : Nat, ¬ (m % 18446744073709551616 > 18446744073709551615) := by
    intro m; omega
  simp [parseUintLoop, hc, hd, hmax]

theorem parseUintLoop_cons_other (c : Char) (cs : List Char) (n : Nat)
    (hc : ¬ (48 ≤ c.toNat ∧ c.toNat ≤ 57)) :
    parseUintLoop (c :: cs) n = (0, some NumError.ErrSyntax) := by
  have hc' : ¬ ('0'.toNat ≤ c.toNat ∧ c.toNat ≤ '9'.toNat) := hc
  unfold parseUintLoop
  simp only [hc', false_or, if_false]
  split_ifs with h1 h2
  · rfl
  · exact absurd (Nat.le_add_left 10 _) h2
  · exact absurd (Nat.le_add_left 10 _) h2
  · exact absurd (Nat.le_add_left 10 _) h2
  · rfl

theorem parseUintLoop_digits (ds : List Char) :
    ∀ n : Nat, n < 18446744073709551616 → ds.all isDecimalDigit = true →
      parseUintLoop ds n
        = if ds.foldl (fun n c => n * 10 + (c.toNat - '0'.toNat)) n < 18446744073709551616
          then (ds.foldl (fun n c => n * 10 + (c.toNat - '0'.toNat)) n, none)
          else (18446744073709551615, some NumError.ErrRange) := by
  induction ds with
  | nil => intro n hn _; simp [parseUintLoop, hn]
  | cons c cs ih =>
    intro n hn hall
    rw [List.all_cons, Bool.and_eq_true] at hall
    obtain ⟨hc, hcs⟩ := hall
    rw [isDecimalDigit_iff] at hc
    have hge := foldl_digits_ge cs (n * 10 + (c.toNat - '0'.toNat))
    have h0 : '0'.toNat = 48 := rfl
    rw [parseUintLoop_cons_digit c cs n hc, List.foldl_cons]
    rw [h0] at hge ⊢
    by_cases hcut : n ≥ 1844674407370955162
    · rw [if_pos hcut, if_neg (by omega)]
    · rw [if_neg hcut]
      by_cases hov : n * 10 + (c.toNat - 48) < 18446744073709551616
      · rw [Nat.mod_eq_of_lt hov, if_neg (by omega)]
        have := ih (n * 10 + (c.toNat - 48)) hov hcs
        rw [h0] at this
        exact this
      · rw [if_pos (by omega), if_neg (by omega)]

theorem parseUintLoop_not_digits (ds : List Char) :
    ∀ n : Nat, ds.all isDecimalDigit = false →
      (parseUintLoop ds n).2 ≠ none ∧
        ((parseUintLoop ds n).2 = some NumError.ErrRange →
          (parseUintLoop ds n).1 = 18446744073709551615) := by
  induction ds with
  | nil => intro n h; simp at h
  | cons c cs ih =>
    intro n hall
    by_cases hc : 48 ≤ c.toNat ∧ c.toNat ≤ 57
    · have hd : isDecimalDigit c = true := (isDecimalDigit_iff c).mpr hc
      rw [List.all_cons, hd, Bool.true_and] at hall
      rw [parseUintLoop_cons_digit c cs n hc]
      split_ifs
      · simp
      · simp
      · exact ih _ hall
    · rw [parseUintLoop_cons_other c cs n hc]
      simp

theorem ParseUint_of_digits {ds : List Char} (hne : ds ≠ []) (hall : ds.all isDecimalDigit = true)
    (hlt : digitsValue ds < 18446744073709551616) : ParseUint ds = (digitsValue ds, none) := by
  unfold ParseUint
  rw [if_neg hne, parseUintLoop_digits ds 0 (by norm_num) hall]
  unfold digitsValue at hlt ⊢
  rw [if_pos hlt]

theorem ParseUint_none {ds : List Char} {un : Nat} (h : ParseUint ds = (un, none)) :
    ds ≠ [] ∧ ds.all isDecimalDigit = true ∧ un = digitsValue ds := by
  unfold ParseUint at h
  by_cases hne : ds = []
  · rw [if_pos hne] at h
    simp at h
  · rw [if_neg hne] at h
    cases hall : ds.all isDecimalDigit with
    | false =>
      have := (parseUintLoop_not_digits ds 0 hall).1
      rw [h] at this
      exact absurd rfl this
    | true =>
      rw [parseUintLoop_digits ds 0 (by norm_num) hall] at h
      split_ifs at h
      · simp only [Prod.mk.injEq, and_true] at h
        exact ⟨hne, rfl, h.symm⟩
      · simp at h

theorem ParseUint_range {ds : List Char} (h : (ParseUint ds).2 = some NumError.ErrRange) :
    (ParseUint ds).1 = 18446744073709551615 := by
  unfold ParseUint at h ⊢
  by_cases hne : ds = []
  · rw [if_pos hne] at h
    simp at h
  · rw [if_neg hne] at h ⊢
    cases hall : ds.all isDecimalDigit with
    | false => exact (parseUintLoop_not_digits ds 0 hall).2 h
    | true =>
      rw [parseUintLoop_digits ds 0 (by norm_num) hall] at h ⊢
      by_cases hlt : List.foldl (fun n c => n * 10 + (c.toNat - '0'.toNat)) 0 ds
          < 18446744073709551616
      · rw [if_pos hlt] at h
        simp at h
      · rw [if_neg hlt]

/-- The sign handling shared by `ParseInt` and the specification's reading. -/
theorem base10Value_cons (c : Char) (cs : List Char) :
    base10Value (c :: cs)
      = Option.map (fun n : Nat => if c = '-' then -(n : Int) else (n : Int))
          (decimalNat (if c = '+' ∨ c = '-' then cs else c :: cs)) := by
  unfold base10Value
  by_cases h1 : c = '+'
  · subst h1
    simp
  · by_cases h2 : c = '-'
    · subst h2
      simp
    · simp [h1, h2]

theorem ParseInt_cons (c : Char) (cs : List Char) :
    ParseInt (c :: cs)
      = if (ParseUint (if c = '+' ∨ c = '-' then cs else c :: cs)).2 = some NumError.ErrSyntax
        then (0, some NumError.ErrSyntax)
        else if ¬ c = '-' ∧ (ParseUint (if c = '+' ∨ c = '-' then cs else c :: cs)).1
            ≥ 9223372036854775808 then (9223372036854775807, some NumError.ErrRange)
        else if c = '-' ∧ (ParseUint (if c = '+' ∨ c = '-' then cs else c :: cs)).1
            > 9223372036854775808 then (-9223372036854775808, some NumError.ErrRange)
        else (if c = '-' then
            -((ParseUint (if c = '+' ∨ c = '-' then cs else c :: cs)).1 : Int)
          else ((ParseUint (if c = '+' ∨ c = '-' then cs else c :: cs)).1 : Int), none) := by
  unfold ParseInt
  rcases hp : ParseUint (if c = '+' ∨ c = '-' then cs else c :: cs) with ⟨un, err⟩
  simp only [List.head?_cons, Option.some.injEq, List.tail_cons, reduceCtorEq, if_false, hp,
    intSize, decide_eq_true_eq, decide_eq_false_iff_not]
  norm_num
  split_ifs <;> simp_all

/-- Reading a base-10 integer within `int64`, `ParseInt` returns it. -/
theorem ParseInt_of_base10 {s : List Char} {v : Int} (h : base10Value s = some v)
    (hlo : -9223372036854775808 ≤ v) (hhi : v ≤ 9223372036854775807) :
    ParseInt s = (v, none) := by
  cases s with
  | nil => simp [base10Value] at h
  | cons c cs =>
    rw [base10Value_cons] at h
    rw [ParseInt_cons]
    generalize (if c = '+' ∨ c = '-' then cs else c :: cs) = ds at h ⊢
    unfold decimalNat at h
    by_cases hd : ds ≠ [] ∧ ds.all isDecimalDigit = true
    · rw [if_pos hd, Option.map_some', Option.some.injEq] at h
      by_cases hneg : c = '-'
      · rw [if_pos hneg] at h
        have hlt : digitsValue ds < 18446744073709551616 := by omega
        rw [ParseUint_of_digits hd.1 hd.2 hlt]
        simp only [reduceCtorEq, if_false, hneg, not_true_eq_false, false_and, true_and, if_true]
        rw [if_neg (by omega), h]
      · rw [if_neg hneg] at h
        have hlt : digitsValue ds < 18446744073709551616 := by omega
        rw [ParseUint_of_digits hd.1 hd.2 hlt]
        simp only [reduceCtorEq, if_false, hneg, not_false_eq_true, true_and, false_and]
        rw [if_neg (by omega), h]
    · rw [if_neg hd] at h
      simp at h

/-- Whenever `ParseInt` succeeds, the string is a base-10 integer and the
result is its value. -/
theorem base10_of_ParseInt {s : List Char} {v : Int} (h : ParseInt s = (v, none)) :
    base10Value s = some v := by
  cases s with
  | nil => simp [ParseInt] at h
  | cons c cs =>
    rw [base10Value_cons]
    rw [ParseInt_cons] at h
    generalize (if c = '+' ∨ c = '-' then cs else c :: cs) = ds at h ⊢
    rcases hp : ParseUint ds with ⟨un, err⟩
    have hr := @ParseUint_range ds
    rw [hp] at h hr
    simp only at h hr
    have herr : err = none := by
      cases err with
      | none => rfl
      | some e =>
        cases e with
        | ErrSyntax => simp at h
        | ErrRange =>
          have hun := hr rfl
          subst hun
          by_cases hneg : c = '-' <;> simp [hneg] at h
    subst herr
    obtain ⟨hne, hall, hun⟩ := ParseUint_none hp
    unfold decimalNat
    rw [if_pos ⟨hne, hall⟩, Option.map_some', ← hun]
    split_ifs at h <;>
      simp only [Prod.mk.injEq, reduceCtorEq, and_false, and_true] at h <;>
      simp_all

/-- On its fast path `Atoi` returns the base-10 value of the string, and a
syntax error when the string has none. -/
theorem Atoi_fast (c : Char) (cs : List Char) (hlen : (c :: cs).length < 19) :
    Atoi (String.mk (c :: cs))
      = match base10Value (c :: cs) with
        | some v => (v, none)
        | none => (0, some NumError.ErrSyntax) := by
  have hl : (String.mk (c :: cs)).length = (c :: cs).length := rfl
  have ht : (String.mk (c :: cs)).toList = c :: cs := rfl
  have hpos : 0 < (c :: cs).length := by simp
  unfold Atoi
  simp only [hl, ht, hpos, hlen, and_self, if_true, List.head?_cons, Option.some.injEq,
    List.tail_cons]
  rw [base10Value_cons, atoiFastLoop_eq]
  have hor : (if c = '-' ∨ c = '+' then cs else c :: cs)
      = (if c = '+' ∨ c = '-' then cs else c :: cs) := by
    by_cases h1 : c = '+' <;> by_cases h2 : c = '-' <;> simp [h1, h2]
  rw [hor]
  generalize (if c = '+' ∨ c = '-' then cs else c :: cs) = ds
  unfold decimalNat
  cases ds with
  | nil => simp
  | cons d ds =>
    by_cases hall : (d :: ds).all isDecimalDigit = true
    · have hv : List.foldl (fun n c => n * 10 + (c.toNat - '0'.toNat)) 0 (d :: ds)
          = digitsValue (d :: ds) := rfl
      simp only [List.length_cons, Nat.lt_one_iff, Nat.add_eq_zero, one_ne_zero, and_false,
        if_false, hall, if_true, ne_eq, reduceCtorEq, not_false_eq_true, and_self,
        Option.map_some', hv]
    · simp [hall]

theorem Atoi_slow (s : String) (h : ¬ (0 < s.length ∧ s.length < 19)) :
    Atoi s = ParseInt s.toList := by
  unfold Atoi
  simp only [h, if_false]

/-- Whenever `Atoi` succeeds, the string is a base-10 integer and the result is
its value. -/
theorem base10_of_Atoi {s : String} {v : Int} (h : Atoi s = (v, none)) :
    base10Integer s = some v := by
  unfold base10Integer
  by_cases hfast : 0 < s.length ∧ s.length < 19
  · obtain ⟨l⟩ := s
    cases l with
    | nil => exact absurd hfast.1 (by simp)
    | cons c cs =>
      rw [Atoi_fast c cs hfast.2] at h
      show base10Value (c :: cs) = some v
      cases hb : base10Value (c :: cs) with
      | none => rw [hb] at h; simp at h
      | some w =>
        rw [hb] at h
        simp only [Prod.mk.injEq, and_true] at h
        rw [h]
  · rw [Atoi_slow s hfast] at h
    exact base10_of_ParseInt h

/-- Reading a base-10 integer within the range of `int`, `Atoi` returns it. -/
theorem Atoi_of_base10 {s : String} {v : Int} (h : base10Integer s = some v)
    (hlo : -9223372036854775808 ≤ v) (hhi : v ≤ 9223372036854775807) :
    Atoi s = (v, none) := by
  unfold base10Integer at h
  by_cases hfast : 0 < s.length ∧ s.length < 19
  · obtain ⟨l⟩ := s
    cases l with
    | nil => exact absurd hfast.1 (by simp)
    | cons c cs =>
      rw [Atoi_fast c cs hfast.2]
      have h' : base10Value (c :: cs) = some v := h
      rw [h']
  · rw [Atoi_slow s hfast]
    exact ParseInt_of_base10 h hlo hhi

/-! ### The order and the format of the checks of `parameterValidity` -/

/-- The body of `parameterValidity` as one chain of tests. -/
theorem parameterValidity_eq (departureStation arrivalStation criteria : String) :
    parameterValidity departureStation arrivalStation criteria
      = if departureStation = "" then (0, 0, "", some Error.emptyDepartureStation)
        else if arrivalStation = "" then (0, 0, "", some Error.emptyArrivalStation)
        else if (Atoi departureStation).1 < 1 ∨ (Atoi departureStation).2 ≠ none then
          (0, 0, "", some Error.badDepartureStationInput)
        else if (Atoi arrivalStation).1 < 1 ∨ (Atoi arrivalStation).2 ≠ none then
          (0, 0, "", some Error.badArrivalStationInput)
        else if criteria ≠ priceCriteria ∧ criteria ≠ arrivalTimeCriteria
            ∧ criteria ≠ departureTimeCriteria then
          (0, 0, "", some Error.unsupportedCriteria)
        else ((Atoi departureStation).1, (Atoi arrivalStation).1, criteria, none) := by
  unfold parameterValidity
  rcases Atoi departureStation with ⟨vd, ed⟩
  rcases Atoi arrivalStation with ⟨va, ea⟩
  rfl

/-- A string that passes the format test of `parameterValidity` is a base-10
integer greater than or equal to 1. -/
theorem isStationNumber_of_check {s : String}
    (h : ¬ ((Atoi s).1 < 1 ∨ (Atoi s).2 ≠ none)) : isStationNumber s := by
  simp only [not_or, not_lt, ne_eq, not_not] at h
  exact ⟨(Atoi s).1, base10_of_Atoi (Prod.ext rfl h.2), h.1⟩

/-- A base-10 integer from 1 to `2 ^ 63 - 1` passes the format test of
`parameterValidity`. -/
theorem check_of_isIntStationNumber {s : String} (h : isIntStationNumber s) :
    ¬ ((Atoi s).1 < 1 ∨ (Atoi s).2 ≠ none) := by
  obtain ⟨v, hv, h1, h2⟩ := h
  have := Atoi_of_base10 hv (by omega) (by norm_num at h2 ⊢; omega)
  rw [this]
  simp only [not_or, not_lt, ne_eq, not_not, and_true]
  exact h1

theorem not_isStationNumber_of_none {s : String} (h : base10Integer s = none) :
    ¬ isStationNumber s := by
  rintro ⟨v, hv, _⟩
  rw [h] at hv
  exact absurd hv (by simp)

theorem ne_empty_of_isIntStationNumber {s : String} (h : isIntStationNumber s) : s ≠ "" := by
  rintro rfl
  obtain ⟨v, hv, _⟩ := h
  have hn : base10Integer "" = none := by decide
  rw [hn] at hv
  exact absurd hv (by simp)

/-- C9, as stated, fails in its part (iv): the departure string
`99999999999999999999` is a base-10 integer greater than or equal to 1 and the
arrival string `abc` is not, yet `parameterValidity` returns
`badDepartureStationInput`, not `badArrivalStationInput`. -/
theorem parameterValidity_order_fails_on_big_departure :
    isStationNumber "99999999999999999999" ∧ "abc" ≠ "" ∧ ¬ isStationNumber "abc" ∧
      (parameterValidity "99999999999999999999" "abc" "fastest").2.2.2
        = some Error.badDepartureStationInput ∧
      (parameterValidity "99999999999999999999" "abc" "fastest").2.2.2
        ≠ some Error.badArrivalStationInput := by
  exact ⟨⟨99999999999999999999, by decide, by decide⟩, by decide,
    not_isStationNumber_of_none (by decide), by decide, by decide⟩

/-- C9 (amended): `parameterValidity` reports the first failing check in the
order empty departure, empty arrival, departure format, arrival format,
criteria, whatever the later fields are: (i) an empty departure gives
`emptyDepartureStation`; (ii) a non-empty departure and an empty arrival give
`emptyArrivalStation`; (iii) both non-empty and a departure that is not a
base-10 integer >= 1 give `badDepartureStationInput`; (iv) a departure that is
a base-10 integer from 1 to `2 ^ 63 - 1` and a non-empty arrival that is not a
base-10 integer >= 1 give `badArrivalStationInput`; (v) `unsupportedCriteria`
is returned only when both stations are base-10 integers >= 1. -/
theorem parameterValidity_order (departureStation arrivalStation criteria : String) :
    (departureStation = "" →
        (parameterValidity departureStation arrivalStation criteria).2.2.2
          = some Error.emptyDepartureStation) ∧
      (departureStation ≠ "" → arrivalStation = "" →
        (parameterValidity departureStation arrivalStation criteria).2.2.2
          = some Error.emptyArrivalStation) ∧
      (departureStation ≠ "" → arrivalStation ≠ "" → ¬ isStationNumber departureStation →
        (parameterValidity departureStation arrivalStation criteria).2.2.2
          = some Error.badDepartureStationInput) ∧
      (isIntStationNumber departureStation → arrivalStation ≠ "" →
        ¬ isStationNumber arrivalStation →
        (parameterValidity departureStation arrivalStation criteria).2.2.2
          = some Error.badArrivalStationInput) ∧
      ((parameterValidity departureStation arrivalStation criteria).2.2.2
          = some Error.unsupportedCriteria →
        isStationNumber departureStation ∧ isStationNumber arrivalStation) := by
  rw [parameterValidity_eq]
  refine ⟨?_, ?_, ?_, ?_, ?_⟩
  · intro h
    rw [if_pos h]
  · intro h1 h2
    rw [if_neg h1, if_pos h2]
  · intro h1 h2 h3
    rw [if_neg h1, if_neg h2, if_pos]
    by_contra hcon
    exact h3 (isStationNumber_of_check hcon)
  · intro h1 h2 h3
    rw [if_neg (ne_empty_of_isIntStationNumber h1), if_neg h2,
      if_neg (check_of_isIntStationNumber h1), if_pos]
    by_contra hcon
    exact h3 (isStationNumber_of_check hcon)
  · intro h
    split_ifs at h with h1 h2 h3 h4 h5 <;> simp only [reduceCtorEq, Option.some.injEq] at h
    exact ⟨isStationNumber_of_check h3, isStationNumber_of_check h4⟩

theorem parameterValidity_order_witness :
    (parameterValidity "" "2" "price").2.2.2 = some Error.emptyDepartureStation :=
  (parameterValidity_order "" "2" "price").1 rfl

/-- C10, as stated, fails in its second part: the departure string
`9223372036854775808` is a base-10 integer greater than or equal to 1 and the
arrival string `x` is not, both are non-empty, yet `parameterValidity` returns
`badDepartureStationInput`, not `badArrivalStationInput`. -/
theorem parameterValidity_format_fails_beyond_int :
    "9223372036854775808" ≠ "" ∧ "x" ≠ "" ∧ isStationNumber "9223372036854775808" ∧
      ¬ isStationNumber "x" ∧
      (parameterValidity "9223372036854775808" "x" "price").2.2.2
        = some Error.badDepartureStationInput ∧
      (parameterValidity "9223372036854775808" "x" "price").2.2.2
        ≠ some Error.badArrivalStationInput := by
  exact ⟨by decide, by decide, ⟨9223372036854775808, by decide, by decide⟩,
    not_isStationNumber_of_none (by decide), by decide, by decide⟩

/-- C10 (amended): for every pair of non-empty station strings and every
criteria string, if the departure string is not a base-10 integer >= 1 then
`parameterValidity` returns `badDepartureStationInput`; and if the departure
string is a base-10 integer from 1 to `2 ^ 63 - 1` (one that fits a Go `int`)
but the arrival string is not a base-10 integer >= 1, it returns
`badArrivalStationInput`. -/
theorem parameterValidity_format (departureStation arrivalStation criteria : String)
    (hdep : departureStation ≠ "") (harr : arrivalStation ≠ "") :
    (¬ isStationNumber departureStation →
        (parameterValidity departureStation arrivalStation criteria).2.2.2
          = some Error.badDepartureStationInput) ∧
      (isIntStationNumber departureStation → ¬ isStationNumber arrivalStation →
        (parameterValidity departureStation arrivalStation criteria).2.2.2
          = some Error.badArrivalStationInput) := by
  rw [parameterValidity_eq, if_neg hdep, if_neg harr]
  constructor
  · intro h
    rw [if_pos]
    by_contra hcon
    exact h (isStationNumber_of_check hcon)
  · intro h1 h2
    rw [if_neg (check_of_isIntStationNumber h1), if_pos]
    by_contra hcon
    exact h2 (isStationNumber_of_check hcon)

theorem parameterValidity_format_witness :
    (parameterValidity "-3" "2" "price").2.2.2 = some Error.badDepartureStationInput ∧
      (parameterValidity "7" "2x" "price").2.2.2 = some Error.badArrivalStationInput :=
  ⟨(parameterValidity_format "-3" "2" "price" (by decide) (by decide)).1
      (by rintro ⟨v, hv, h1⟩
          have hv' : base10Integer "-3" = some (-3) := by decide
          rw [hv'] at hv
          simp only [Option.some.injEq] at hv
          omega),
    (parameterValidity_format "7" "2x" "price" (by decide) (by decide)).2
      ⟨7, by decide, by decide, by decide⟩
      (not_isStationNumber_of_none (by decide))⟩

/-! ### The criteria check and the validated query -/

/-- C11, as stated, fails: the stations `99999999999999999999` and `2` are
base-10 integers greater than or equal to 1 and `fastest` is none of the three
keys, yet `parameterValidity` returns `badDepartureStationInput`, not
`unsupportedCriteria`. -/
theorem parameterValidity_criteria_fails_beyond_int :
    isStationNumber "99999999999999999999" ∧ isStationNumber "2" ∧
      ("fastest" ≠ "price" ∧ "fastest" ≠ "arrival-time" ∧ "fastest" ≠ "departure-time") ∧
      (parameterValidity "99999999999999999999" "2" "fastest").2.2.2
        = some Error.badDepartureStationInput ∧
      (parameterValidity "99999999999999999999" "2" "fastest").2.2.2
        ≠ some Error.unsupportedCriteria := by
  exact ⟨⟨99999999999999999999, by decide, by decide⟩, ⟨2, by decide, by decide⟩,
    by decide, by decide, by decide⟩

/-- C11 (amended): for every pair of station strings that are base-10 integers
from 1 to `2 ^ 63 - 1`, `parameterValidity` returns `unsupportedCriteria` if
and only if the criteria string is none of exactly `price`, `arrival-time`,
`departure-time`. -/
theorem parameterValidity_criteria (departureStation arrivalStation criteria : String)
    (hdep : isIntStationNumber departureStation) (harr : isIntStationNumber arrivalStation) :
    (parameterValidity departureStation arrivalStation criteria).2.2.2
        = some Error.unsupportedCriteria
      ↔ (criteria ≠ "price" ∧ criteria ≠ "arrival-time" ∧ criteria ≠ "departure-time") := by
  rw [parameterValidity_eq, if_neg (ne_empty_of_isIntStationNumber hdep),
    if_neg (ne_empty_of_isIntStationNumber harr), if_neg (check_of_isIntStationNumber hdep),
    if_neg (check_of_isIntStationNumber harr)]
  show _ ↔ (criteria ≠ priceCriteria ∧ criteria ≠ arrivalTimeCriteria
    ∧ criteria ≠ departureTimeCriteria)
  split_ifs with h
  · exact ⟨fun _ => h, fun _ => rfl⟩
  · exact ⟨fun hc => absurd hc (by simp), fun hc => absurd hc h⟩

theorem parameterValidity_criteria_witness :
    (parameterValidity "1" "2" "fastest").2.2.2 = some Error.unsupportedCriteria ∧
      (parameterValidity "1" "2" "Price").2.2.2 = some Error.unsupportedCriteria ∧
      (parameterValidity "1" "2" " price").2.2.2 = some Error.unsupportedCriteria ∧
      (parameterValidity "1" "2" "price").2.2.2 ≠ some Error.unsupportedCriteria :=
  ⟨(parameterValidity_criteria "1" "2" "fastest" ⟨1, by decide, by decide, by decide⟩
      ⟨2, by decide, by decide, by decide⟩).2 (by decide),
    (parameterValidity_criteria "1" "2" "Price" ⟨1, by decide, by decide, by decide⟩
      ⟨2, by decide, by decide, by decide⟩).2 (by decide),
    (parameterValidity_criteria "1" "2" " price" ⟨1, by decide, by decide, by decide⟩
      ⟨2, by decide, by decide, by decide⟩).2 (by decide),
    fun h => ((parameterValidity_criteria "1" "2" "price" ⟨1, by decide, by decide, by decide⟩
      ⟨2, by decide, by decide, by decide⟩).1 h).1 rfl⟩

/-- C12, as stated, fails: the departure string `9223372036854775808` and the
arrival string `2` are base-10 integers greater than or equal to 1 and `price`
is a recognized key, yet `parameterValidity` returns an error. -/
theorem parameterValidity_valid_fails_beyond_int :
    isStationNumber "9223372036854775808" ∧ isStationNumber "2" ∧
      parameterValidity "9223372036854775808" "2" "price"
        = (0, 0, "", some Error.badDepartureStationInput) := by
  exact ⟨⟨9223372036854775808, by decide, by decide⟩, ⟨2, by decide, by decide⟩, by decide⟩

/-- C12 (amended): for every departure string and arrival string that are
base-10 integers from 1 to `2 ^ 63 - 1`, of values `dep` and `arr`, and every
criteria that is one of the three recognized keys, `parameterValidity` returns
no error, the stations `dep` and `arr`, and the criteria string unchanged. -/
theorem parameterValidity_valid (departureStation arrivalStation criteria : String)
    (dep arr : Int)
    (hdep : base10Integer departureStation = some dep ∧ 1 ≤ dep ∧ dep ≤ 2 ^ 63 - 1)
    (harr : base10Integer arrivalStation = some arr ∧ 1 ≤ arr ∧ arr ≤ 2 ^ 63 - 1)
    (hcrit : criteria = "price" ∨ criteria = "arrival-time" ∨ criteria = "departure-time") :
    parameterValidity departureStation arrivalStation criteria = (dep, arr, criteria, none) := by
  have hd : Atoi departureStation = (dep, none) :=
    Atoi_of_base10 hdep.1 (by omega) (by have := hdep.2.2; norm_num at this ⊢; omega)
  have ha : Atoi arrivalStation = (arr, none) :=
    Atoi_of_base10 harr.1 (by omega) (by have := harr.2.2; norm_num at this ⊢; omega)
  have hc : ¬ (criteria ≠ priceCriteria ∧ criteria ≠ arrivalTimeCriteria
      ∧ criteria ≠ departureTimeCriteria) := by
    rintro ⟨h1, h2, h3⟩
    rcases hcrit with h | h | h
    · exact h1 h
    · exact h2 h
    · exact h3 h
  rw [parameterValidity_eq, if_neg (ne_empty_of_isIntStationNumber ⟨dep, hdep⟩),
    if_neg (ne_empty_of_isIntStationNumber ⟨arr, harr⟩),
    if_neg (check_of_isIntStationNumber ⟨dep, hdep⟩),
    if_neg (check_of_isIntStationNumber ⟨arr, harr⟩), if_neg hc, hd, ha]

theorem parameterValidity_valid_witness :
    parameterValidity "17" "+42" "arrival-time" = (17, 42, "arrival-time", none) :=
  parameterValidity_valid "17" "+42" "arrival-time" 17 42
    ⟨by decide, by decide, by decide⟩ ⟨by decide, by decide, by decide⟩ (by decide)

/-! ### Errors and empty results of `FindTrains` -/

/-- The errors that `FindTrains` does hand up as they are, with a `nil`
result: an error of loading the file or of reading its text, an error that
`UnmarshalJSON` returned for an element, and, when the array was decoded, the
error of `parameterValidity`. -/
theorem FindTrains_propagates (departureStation arrivalStation criteria : String) :
    (∀ err : Error, FindTrains (Except.error err) departureStation arrivalStation criteria
        = Outcome.returns ([], some err)) ∧
      (∀ (elements : List Element) (err : Error),
        Unmarshal elements = Outcome.returns (Except.error err) →
        FindTrains (Except.ok elements) departureStation arrivalStation criteria
          = Outcome.returns ([], some err)) ∧
      (∀ (elements : List Element) (trains : Trains) (err : Error),
        Unmarshal elements = Outcome.returns (Except.ok trains) →
        (parameterValidity departureStation arrivalStation criteria).2.2.2 = some err →
        FindTrains (Except.ok elements) departureStation arrivalStation criteria
          = Outcome.returns ([], some err)) := by
  refine ⟨fun err => rfl, fun elements err h => ?_, fun elements trains err h hv => ?_⟩
  · unfold FindTrains
    simp only [h]
  · unfold FindTrains
    rcases hp : parameterValidity departureStation arrivalStation criteria with ⟨d, a, c, e⟩
    rw [hp] at hv
    cases hv
    simp only [h]

/-- C13 fails on the code: when `data.json` holds the array `[null]`, or the
records of the scenario followed by `null`, decoding fails and `FindTrains`
returns no error: `UnmarshalJSON` reads through the `nil` pointer `str` and
the call panics, whatever the query strings are. An element that is not an
object and not `null`, or a time that does not parse, is returned as an
error. -/
theorem FindTrains_panics_on_null (departureStation arrivalStation criteria : String) :
    FindTrains (Except.ok [Element.null]) departureStation arrivalStation criteria
        = Outcome.panics ∧
      FindTrains (Except.ok (scenarioElements ++ [Element.null])) departureStation
          arrivalStation criteria
        = Outcome.panics ∧
      FindTrains (Except.ok [Element.mismatch (Error.external "json: cannot unmarshal")])
          departureStation arrivalStation criteria
        = Outcome.returns ([], some (Error.external "json: cannot unmarshal")) := by
  have h1 : timeParse "12:00:00" = some noon := by decide
  have h2 : timeParse "09:15:00" = some nineFifteen := by decide
  refine ⟨rfl, ?_, rfl⟩
  unfold FindTrains
  simp only [scenarioElements, exampleObject, List.cons_append, List.nil_append, Unmarshal,
    UnmarshalJSON, h1, h2]

/-- The kept part of a list is empty when no element passes the test. -/
theorem filter_matching_nil (R : Trains) (dep arr : Int)
    (hnone : ∀ r ∈ R, ¬ (r.DepartureStationID = dep ∧ r.ArrivalStationID = arr)) :
    R.filter (matching dep arr) = [] := by
  rw [List.filter_eq_nil_iff]
  intro r hr
  simpa [matching] using hnone r hr

/-- C14: when `data.json` decodes to a record list `R` in which no record
matches both stations of a query that passes validation, `FindTrains` returns
an empty sequence and a `nil` error. -/
theorem FindTrains_no_match (elements : List Element) (R : Trains)
    (departureStation arrivalStation criteria : String) (dep arr : Int) (c : String)
    (hdecoded : Unmarshal elements = Outcome.returns (Except.ok R))
    (hvalid : parameterValidity departureStation arrivalStation criteria = (dep, arr, c, none))
    (hnone : ∀ r ∈ R, ¬ (r.DepartureStationID = dep ∧ r.ArrivalStationID = arr)) :
    FindTrains (Except.ok elements) departureStation arrivalStation criteria
      = Outcome.returns ([], none) := by
  rw [FindTrains_ok hdecoded hvalid, filter_matching_nil R dep arr hnone,
    List.Perm.eq_nil (sorting_perm_input [] c)]
  rfl

theorem FindTrains_no_match_witness :
    FindTrains (Except.ok scenarioElements) "9" "9" "price" = Outcome.returns ([], none) :=
  FindTrains_no_match scenarioElements scenarioRecords "9" "9" "price" 9 9 "price"
    scenarioElements_decoded (by decide) (by decide)

/-- C17: whenever `parameterValidity` returns an error, the three validated
results are the zero values: station 0, station 0 and the empty string. -/
theorem parameterValidity_zero (departureStation arrivalStation criteria : String)
    (herr : (parameterValidity departureStation arrivalStation criteria).2.2.2 ≠ none) :
    (parameterValidity departureStation arrivalStation criteria).1 = 0 ∧
      (parameterValidity departureStation arrivalStation criteria).2.1 = 0 ∧
      (parameterValidity departureStation arrivalStation criteria).2.2.1 = "" := by
  rw [parameterValidity_eq] at herr ⊢
  split_ifs at herr ⊢ with h1 h2 h3 h4 h5
  · exact ⟨rfl, rfl, rfl⟩
  · exact ⟨rfl, rfl, rfl⟩
  · exact ⟨rfl, rfl, rfl⟩
  · exact ⟨rfl, rfl, rfl⟩
  · exact ⟨rfl, rfl, rfl⟩
  · exact absurd rfl herr

theorem parameterValidity_zero_witness :
    (parameterValidity "7" "x" "price").2.2.2 = some Error.badArrivalStationInput ∧
      (parameterValidity "7" "x" "price").1 = 0 ∧
      (parameterValidity "7" "x" "price").2.1 = 0 ∧
      (parameterValidity "7" "x" "price").2.2.1 = "" :=
  ⟨by decide, parameterValidity_zero "7" "x" "price" (by decide)⟩

/-- C18: for every list of trains and every criterion string other than
`price`, `arrival-time` and `departure-time`, `sorting` returns the list as it
was. -/
theorem sorting_unrecognized (l : Trains) (c : String)
    (h1 : c ≠ "price") (h2 : c ≠ "arrival-time") (h3 : c ≠ "departure-time") :
    sorting l c = l :=
  sorting_other l c h1 h2 h3

theorem sorting_unrecognized_witness :
    sorting scenarioRecords "" = scenarioRecords ∧
      sorting nanRecords "Price" = nanRecords :=
  ⟨sorting_unrecognized scenarioRecords "" (by decide) (by decide) (by decide),
    sorting_unrecognized nanRecords "Price" (by decide) (by decide) (by decide)⟩

/-! ### Sorting twice -/

/-- A second `SliceStable` changes nothing when `less` is the strict order of a
key on the elements of the list. -/
theorem SliceStable_idempotent {α K : Type} [LinearOrder K] (less : α → α → Bool) (key : α → K)
    (l : List α) (hk : ∀ a ∈ l, ∀ b ∈ l, (less a b = true ↔ key a < key b)) :
    SliceStable less (SliceStable less l) = SliceStable less l := by
  have hmem : ∀ a, a ∈ SliceStable less l → a ∈ l :=
    fun a ha => (SliceStable_perm less l).mem_iff.mp ha
  rw [SliceStable_eq_insertionSort less key (SliceStable less l)
    (fun a ha b hb => hk a (hmem a ha) b (hmem b hb))]
  exact List.Sorted.insertionSort_eq (SliceStable_sorted less key l hk)

/-- C19, as stated, fails. By price: sorting `unsettledRecords` puts train 21,
priced 1, first and leaves train 20, priced 10, last, behind the NaN of train
19; sorting the result again moves train 20 to the second place. By arrival
time: in `unsettledMonoRecords`, whose times are all values that Go
represents, trains 19 and 20 are compared with each other by their monotonic
readings and with the others by their wall clocks, and the same happens. -/
theorem sorting_idempotent_fails_on_NaN_and_monotonic :
    ((sorting unsettledRecords priceCriteria).map (fun t => t.TrainID)
        = [21, 1, 2, 3, 4, 5, 6, 7, 8, 9, 10, 11, 12, 13, 14, 15, 16, 17, 18, 19, 20] ∧
      (sorting (sorting unsettledRecords priceCriteria) priceCriteria).map (fun t => t.TrainID)
        = [21, 20, 1, 2, 3, 4, 5, 6, 7, 8, 9, 10, 11, 12, 13, 14, 15, 16, 17, 18, 19] ∧
      sorting (sorting unsettledRecords priceCriteria) priceCriteria
        ≠ sorting unsettledRecords priceCriteria) ∧
    ((∀ t ∈ unsettledMonoRecords,
        t.ArrivalTime.representable = true ∧ t.DepartureTime.representable = true) ∧
      (sorting unsettledMonoRecords arrivalTimeCriteria).map (fun t => t.TrainID)
        = [21, 1, 2, 3, 4, 5, 6, 7, 8, 9, 10, 11, 12, 13, 14, 15, 16, 17, 18, 19, 20] ∧
      (sorting (sorting unsettledMonoRecords arrivalTimeCriteria) arrivalTimeCriteria).map
          (fun t => t.TrainID)
        = [21, 20, 1, 2, 3, 4, 5, 6, 7, 8, 9, 10, 11, 12, 13, 14, 15, 16, 17, 18, 19] ∧
      sorting (sorting unsettledMonoRecords arrivalTimeCriteria) arrivalTimeCriteria
        ≠ sorting unsettledMonoRecords arrivalTimeCriteria) := by
  decide

/-- C19 (amended): `sorting` is idempotent on every list of trains whose keys of
the criterion can be compared: for every list and every criterion string such
that no price is NaN when the criterion is `price`, and the arrival
(departure) times either all carry a monotonic clock reading or none does when
it is `arrival-time` (`departure-time`), sorting the sorted list again by the
same criterion returns it unchanged. Any other criterion string asks nothing
of the list. -/
theorem sorting_idempotent (l : Trains) (c : String)
    (hprice : c = priceCriteria → ∀ t ∈ l, t.Price.isNaN = false)
    (harrival : c = arrivalTimeCriteria →
      (∀ t ∈ l, t.ArrivalTime.mono = none) ∨ (∀ t ∈ l, t.ArrivalTime.mono ≠ none))
    (hdeparture : c = departureTimeCriteria →
      (∀ t ∈ l, t.DepartureTime.mono = none) ∨ (∀ t ∈ l, t.DepartureTime.mono ≠ none)) :
    sorting (sorting l c) c = sorting l c := by
  by_cases h1 : c = priceCriteria
  · have h := hprice h1
    subst h1
    rw [sorting_price, sorting_price]
    exact SliceStable_idempotent _ (fun t : Train => t.Price.scaled) l
      (fun a ha b hb => Float32.lt_iff_scaled (h a ha) (h b hb))
  · by_cases h2 : c = arrivalTimeCriteria
    · obtain ⟨key, hk⟩ := Before_key (fun t => t.ArrivalTime) l (harrival h2)
      subst h2
      rw [sorting_arrivalTime, sorting_arrivalTime]
      exact SliceStable_idempotent _ key l hk
    · by_cases h3 : c = departureTimeCriteria
      · obtain ⟨key, hk⟩ := Before_key (fun t => t.DepartureTime) l (hdeparture h3)
        subst h3
        rw [sorting_departureTime, sorting_departureTime]
        exact SliceStable_idempotent _ key l hk
      · rw [sorting_other l c h1 h2 h3, sorting_other l c h1 h2 h3]

theorem sorting_idempotent_witness :
    sorting (sorting scenarioRecords "price") "price" = sorting scenarioRecords "price" ∧
      sorting (sorting unsettledRecords "arrival-time") "arrival-time"
        = sorting unsettledRecords "arrival-time" ∧
      sorting (sorting unsettledRecords "fastest") "fastest"
        = sorting unsettledRecords "fastest" :=
  ⟨sorting_idempotent scenarioRecords "price" (fun _ => by decide) (fun h => absurd h (by decide))
      (fun h => absurd h (by decide)),
    sorting_idempotent unsettledRecords "arrival-time" (fun h => absurd h (by decide))
      (fun _ => Or.inl (by decide)) (fun h => absurd h (by decide)),
    sorting_idempotent unsettledRecords "fastest" (fun h => absurd h (by decide))
      (fun h => absurd h (by decide)) (fun h => absurd h (by decide))⟩

/-! ### What `time.Parse` accepts -/

theorem isDigit_cons_zero (c : Char) (r : List Char) : isDigit (c :: r) 0 = isDecimalDigit c :=
  rfl

theorem isDigit_cons_succ (c : Char) (r : List Char) (i : Nat) :
    isDigit (c :: r) (i + 1) = isDigit r i :=
  rfl

theorem getnum_nil (fixed : Bool) : getnum [] fixed = none := rfl

theorem getnum_cons (c : Char) (r : List Char) (fixed : Bool) :
    getnum (c :: r) fixed
      = if isDecimalDigit c = false then none
        else if isDigit r 0 = false then
          if fixed = true then none else some (digitsValue [c], r)
        else some (digitsValue [c] * 10 + digitAt r 0, r.drop 1) := by
  unfold getnum
  rw [isDigit_cons_zero, isDigit_cons_succ]
  cases isDecimalDigit c <;> cases isDigit r 0 <;> cases fixed <;>
    simp [digitAt, digitsValue]

/-- A number read by `getnum` is one digit followed by a non-digit (only when
not `fixed`) or two digits. -/
theorem getnum_some {s rest : List Char} {fixed : Bool} {n : Nat}
    (h : getnum s fixed = some (n, rest)) :
    (fixed = false ∧ ∃ c, s = c :: rest ∧ isDecimalDigit c = true ∧ n = digitsValue [c]
        ∧ isDigit rest 0 = false) ∨
      (∃ c d, s = c :: d :: rest ∧ isDecimalDigit c = true ∧ isDecimalDigit d = true
        ∧ n = digitsValue [c, d]) := by
  cases s with
  | nil => rw [getnum_nil] at h; exact absurd h (by simp)
  | cons c r =>
    rw [getnum_cons] at h
    split_ifs at h with h1 h2 h3
    · simp only [Option.some.injEq, Prod.mk.injEq] at h
      obtain ⟨rfl, rfl⟩ := h
      exact Or.inl ⟨by simpa using h3, c, rfl, by simpa using h1, rfl, h2⟩
    · cases r with
      | nil => exact absurd rfl h2
      | cons d r2 =>
        simp only [Option.some.injEq, Prod.mk.injEq, List.drop_succ_cons, List.drop_zero] at h
        obtain ⟨rfl, rfl⟩ := h
        rw [isDigit_cons_zero] at h2
        refine Or.inr ⟨c, d, rfl, by simpa using h1, by simpa using h2, ?_⟩
        simp [digitAt, digitsValue]

theorem skipColon_some {value rest : List Char} (h : skipColon value = some rest) :
    value = ':' :: rest := by
  cases value with
  | nil => exact absurd h (by simp [skipColon])
  | cons c r =>
    simp only [skipColon] at h
    split_ifs at h with hc
    simp only [Option.some.injEq] at h
    rw [hc, h]

/-- When `fractionalSecond` leaves nothing over, the text was empty or a
fractional second. -/
theorem fractionalSecond_nil {value rest : List Char} {nsec : Nat}
    (h : fractionalSecond value = (nsec, rest)) (hrest : rest.length = 0) :
    isFraction value = true := by
  unfold fractionalSecond at h
  split_ifs at h with hc
  · simp only [Prod.mk.injEq] at h
    obtain ⟨_, rfl⟩ := h
    cases value with
    | nil => rfl
    | cons p ds =>
      simp only [List.length_cons, ge_iff_le, List.head?_cons, Option.some.injEq,
        Bool.and_eq_true, Bool.or_eq_true, decide_eq_true_eq, isDigit_cons_succ] at hc
      simp only [List.drop_succ_cons, List.drop_zero, List.length_eq_zero,
        List.dropWhile_eq_nil_iff] at hrest
      have hds : ds ≠ [] := by
        rintro rfl
        simp at hc
      simp only [isFraction, Bool.and_eq_true, Bool.or_eq_true, decide_eq_true_eq,
        List.all_eq_true]
      exact ⟨⟨hc.1.2, hds⟩, fun x hx => by simpa [isDigit_cons_zero] using hrest x hx⟩
  · simp only [Prod.mk.injEq] at h
    obtain ⟨_, rfl⟩ := h
    rw [List.length_eq_zero] at hrest
    rw [hrest]
    rfl

/-- What follows the hour in a value that `time.Parse` accepts. -/
theorem isMinuteSecond_of_parse {v1 v2 v3 v4 v5 v6 : List Char} {min sec nsec : Nat}
    (h1 : skipColon v1 = some v2) (h2 : getnum v2 true = some (min, v3)) (hm : ¬ 60 ≤ min)
    (h3 : skipColon v3 = some v4) (h4 : getnum v4 true = some (sec, v5)) (hs : ¬ 60 ≤ sec)
    (h5 : fractionalSecond v5 = (nsec, v6)) (h6 : v6.length = 0) :
    isMinuteSecond v1 = true := by
  have e1 := skipColon_some h1
  have e3 := skipColon_some h3
  rcases getnum_some h2 with ⟨hf, _⟩ | ⟨m1, m2, e2, hm1, hm2, rfl⟩
  · exact absurd hf (by simp)
  rcases getnum_some h4 with ⟨hf, _⟩ | ⟨s1, s2, e4, hs1, hs2, rfl⟩
  · exact absurd hf (by simp)
  subst e1 e2 e3 e4
  simp only [isMinuteSecond, hm1, hm2, hs1, hs2, fractionalSecond_nil h5 h6, decide_True,
    Bool.and_self, Bool.true_and, Bool.and_true, Bool.and_eq_true, decide_eq_true_eq]
  omega

/-- Every string that `time.Parse` accepts with the layout `15:04:05` matches
`H:MM:SS` or `HH:MM:SS`, with or without a fractional second. -/
theorem isLenientClockString_of_timeParse {s : String} {t : Time} (h : timeParse s = some t) :
    isLenientClockString s = true := by
  unfold timeParse at h
  split at h
  · exact absurd h (by simp)
  · next hour v1 g1 =>
    split_ifs at h with hh
    split at h
    · exact absurd h (by simp)
    · next v2 g2 =>
      split at h
      · exact absurd h (by simp)
      · next min v3 g3 =>
        split_ifs at h with hm
        split at h
        · exact absurd h (by simp)
        · next v4 g4 =>
          split at h
          · exact absurd h (by simp)
          · next sec v5 g5 =>
            split_ifs at h with hs
            simp only [ne_eq, ite_not] at h
            split_ifs at h with h6
            have hms : isMinuteSecond v1 = true :=
              isMinuteSecond_of_parse g2 g3 hm g4 g5 hs (Prod.ext rfl rfl) h6
            have e2 := skipColon_some g2
            unfold isLenientClockString
            rcases getnum_some g1 with ⟨_, c, e1, hc, _, _⟩ | ⟨c, d, e1, hc, hd, rfl⟩
            · rw [e1, e2]
              rw [e2] at hms
              simp only [hc, hms, Bool.and_self, Bool.true_or]
            · rw [e1]
              simp only [hc, hd, hms, Bool.and_true, Bool.true_and, Bool.or_eq_true,
                decide_eq_true_eq]
              right
              omega

/-- C15, as stated, fails: `9:15:00` (a one-digit hour) and `09:15:00.5`
(trailing extra characters) do not match the zero-padded layout `HH:MM:SS`, yet
`time.Parse` accepts both, as the time 09:15:00 and as half a second later. -/
theorem timeParse_accepts_short_hour_and_fraction :
    isClockString "9:15:00" = false ∧ timeParse "9:15:00" = some nineFifteen ∧
      isClockString "09:15:00.5" = false ∧
      timeParse "09:15:00.5" = some (clockDate 9 15 0 500000000) := by
  decide

/-- C15 (amended): the time parser used during decoding (layout `15:04:05`)
fails on every string that does not match `H:MM:SS` or `HH:MM:SS` (an hour of
one or two digits, a zero-padded minute and second, optionally followed by a
fractional second): wrong separators, out-of-range components, non-numeric
segments, or wrong length. -/
theorem timeParse_fails (s : String) (h : isLenientClockString s = false) :
    timeParse s = none := by
  cases hp : timeParse s with
  | none => rfl
  | some t => rw [isLenientClockString_of_timeParse hp] at h; exact absurd h (by simp)

theorem timeParse_fails_witness :
    timeParse "09-15-00" = none ∧ timeParse "24:00:00" = none ∧
      timeParse "09:60:00" = none ∧ timeParse "09:15:60" = none ∧
      timeParse "ab:cd:ef" = none ∧ timeParse "09:5:00" = none ∧
      timeParse "09:15" = none ∧ timeParse "09:15:00 " = none ∧ timeParse "" = none :=
  ⟨timeParse_fails "09-15-00" (by decide), timeParse_fails "24:00:00" (by decide),
    timeParse_fails "09:60:00" (by decide), timeParse_fails "09:15:60" (by decide),
    timeParse_fails "ab:cd:ef" (by decide), timeParse_fails "09:5:00" (by decide),
    timeParse_fails "09:15" (by decide), timeParse_fails "09:15:00 " (by decide),
    timeParse_fails "" (by decide)⟩

/-! ### Parsing and formatting a time of day -/

/-- A number below 100 is written by `appendInt` at width 2 as its two digits. -/
theorem appendInt_two (b : List Char) (n : Nat) (h : n < 100) :
    appendInt b (n : Int) 2 = b ++ [Char.ofNat (48 + n / 10), Char.ofNat (48 + n % 10)] := by
  have hx : ¬ ((n : Int) < 0) := by omega
  unfold appendInt
  simp only [hx, if_false, Int.natAbs_ofNat]
  by_cases h10 : n ≥ 10
  · have h2 : ¬ (n / 10 ≥ 10) := by omega
    have h3 : n - n / 10 * 10 = n % 10 := by omega
    simp [appendIntLoop, h10, h2, h3]
  · have h2 : n / 10 = 0 := by omega
    have h3 : n % 10 = n := by omega
    simp [appendIntLoop, h10, h2, h3]

/-- The two digits of a number written with the digits `c` and `d`. -/
theorem digits_of_digitsValue {c d : Char} (hc : isDecimalDigit c = true)
    (hd : isDecimalDigit d = true) :
    Char.ofNat (48 + digitsValue [c, d] / 10) = c
      ∧ Char.ofNat (48 + digitsValue [c, d] % 10) = d := by
  rw [isDecimalDigit_iff] at hc hd
  have hv : digitsValue [c, d] = (c.toNat - 48) * 10 + (d.toNat - 48) := by
    simp [digitsValue]
  have h1 : 48 + digitsValue [c, d] / 10 = c.toNat := by omega
  have h2 : 48 + digitsValue [c, d] % 10 = d.toNat := by omega
  rw [h1, h2, Char.ofNat_toNat, Char.ofNat_toNat]
  exact ⟨rfl, rfl⟩

/-- The clock fields of a time of day on January 1 of year 0. -/
theorem absClock_clockDate (hour min sec nsec : Nat) (hh : hour ≤ 23) (hm : min ≤ 59)
    (hs : sec ≤ 59) : absClock (clockDate hour min sec nsec).abs = (hour, min, sec) := by
  have habs : (clockDate hour min sec nsec).abs
      = hour * 3600 + min * 60 + sec + 9223371966548102400 := by
    unfold Time.abs clockDate internalToAbsolute
    simp only
    norm_num
    omega
  rw [habs]
  unfold absClock
  simp only [Prod.mk.injEq]
  omega

/-- The format of a time of day on January 1 of year 0 is its three fields,
each in two digits. -/
theorem Format_clockDate (hour min sec nsec : Nat) (hh : hour ≤ 23) (hm : min ≤ 59)
    (hs : sec ≤ 59) :
    (clockDate hour min sec nsec).Format
      = String.mk [Char.ofNat (48 + hour / 10), Char.ofNat (48 + hour % 10), ':',
          Char.ofNat (48 + min / 10), Char.ofNat (48 + min % 10), ':',
          Char.ofNat (48 + sec / 10), Char.ofNat (48 + sec % 10)] := by
  unfold Time.Format
  rw [absClock_clockDate hour min sec nsec hh hm hs]
  simp only
  rw [appendInt_two _ hour (by omega), appendInt_two _ min (by omega),
    appendInt_two _ sec (by omega)]
  rfl

/-- The bytes of a string that matches `HH:MM:SS`. -/
theorem isClockString_shape {s : String} (h : isClockString s = true) :
    ∃ h1 h2 m1 m2 s1 s2 : Char, s = String.mk [h1, h2, ':', m1, m2, ':', s1, s2] ∧
      (isDecimalDigit h1 = true ∧ isDecimalDigit h2 = true) ∧
      (isDecimalDigit m1 = true ∧ isDecimalDigit m2 = true) ∧
      (isDecimalDigit s1 = true ∧ isDecimalDigit s2 = true) ∧
      digitsValue [h1, h2] ≤ 23 ∧ digitsValue [m1, m2] ≤ 59 ∧ digitsValue [s1, s2] ≤ 59 := by
  obtain ⟨l⟩ := s
  unfold isClockString at h
  split at h
  · next h1 h2 c1 m1 m2 c2 s1 s2 heq =>
    simp only [Bool.and_eq_true, decide_eq_true_eq] at h
    obtain ⟨⟨⟨⟨⟨⟨⟨⟨⟨⟨a1, a2⟩, rfl⟩, a3⟩, a4⟩, rfl⟩, a5⟩, a6⟩, a7⟩, a8⟩, a9⟩ := h
    have heq' : l = [h1, h2, ':', m1, m2, ':', s1, s2] := heq
    exact ⟨h1, h2, m1, m2, s1, s2, by rw [heq'], ⟨a1, a2⟩, ⟨a3, a4⟩, ⟨a5, a6⟩, a7, a8, a9⟩
  · exact absurd h (by simp)

/-- The result of `time.Parse` on a string that matches `HH:MM:SS`. -/
theorem timeParse_clock {h1 h2 m1 m2 s1 s2 : Char}
    (hh : isDecimalDigit h1 = true ∧ isDecimalDigit h2 = true)
    (hm : isDecimalDigit m1 = true ∧ isDecimalDigit m2 = true)
    (hs : isDecimalDigit s1 = true ∧ isDecimalDigit s2 = true)
    (bh : digitsValue [h1, h2] ≤ 23) (bm : digitsValue [m1, m2] ≤ 59)
    (bs : digitsValue [s1, s2] ≤ 59) :
    timeParse (String.mk [h1, h2, ':', m1, m2, ':', s1, s2])
      = some (clockDate (digitsValue [h1, h2]) (digitsValue [m1, m2]) (digitsValue [s1, s2]) 0) := by
  have g : ∀ (c d : Char) (r : List Char) (fixed : Bool), isDecimalDigit c = true →
      isDecimalDigit d = true →
      getnum (c :: d :: r) fixed = some (digitsValue [c, d], r) := by
    intro c d r fixed hc hd
    rw [getnum_cons, isDigit_cons_zero, hc, hd]
    simp [digitAt, digitsValue]
  have bh' : ¬ 24 ≤ digitsValue [h1, h2] := by omega
  have bm' : ¬ 60 ≤ digitsValue [m1, m2] := by omega
  have bs' : ¬ 60 ≤ digitsValue [s1, s2] := by omega
  have hf : fractionalSecond [] = (0, []) := rfl
  have hk : ∀ r : List Char, skipColon (':' :: r) = some r := fun r => rfl
  unfold timeParse
  simp only [String.toList, g _ _ _ _ hh.1 hh.2, g _ _ _ _ hm.1 hm.2, g _ _ _ _ hs.1 hs.2, hk,
    bh', bm', bs', hf, if_true, if_false, List.length_nil, ne_eq, not_true_eq_false]

/-- C16: for every string `s` that matches the zero-padded layout `HH:MM:SS`
(hour 00 to 23, minute and second 00 to 59), parsing `s` with the layout
`15:04:05` succeeds, and formatting the parsed time with the same layout gives
back `s`. -/
theorem timeParse_Format_roundtrip (s : String) (h : isClockString s = true) :
    ∃ t : Time, timeParse s = some t ∧ t.Format = s := by
  obtain ⟨h1, h2, m1, m2, s1, s2, rfl, hh, hm, hs, bh, bm, bs⟩ := isClockString_shape h
  refine ⟨_, timeParse_clock hh hm hs bh bm bs, ?_⟩
  rw [Format_clockDate _ _ _ _ bh bm bs, (digits_of_digitsValue hh.1 hh.2).1,
    (digits_of_digitsValue hh.1 hh.2).2, (digits_of_digitsValue hm.1 hm.2).1,
    (digits_of_digitsValue hm.1 hm.2).2, (digits_of_digitsValue hs.1 hs.2).1,
    (digits_of_digitsValue hs.1 hs.2).2]

theorem timeParse_Format_roundtrip_witness :
    ∃ t : Time, timeParse "09:15:00" = some t ∧ t.Format = "09:15:00" :=
  timeParse_Format_roundtrip "09:15:00" (by decide)

end HomeWorkTrains
